import Mathlib

/-!
# Promulgator: query federation client and cache core

A shallow embedding of the Go packages `pkg/tcache`, `pkg/promclient`,
`pkg/proxystorage` and `servergroup`, followed by the theorems that settle the
properties claimed for them.

Conventions of the embedding.

* A Go interface value that may be `nil` (`model.Value`, `error`,
  `promql.Visitor`) is an `Option`.
* A Go function returning `(value, error)` returns a pair.
* `int64` quantities are mathematical integers; where the source performs
  arithmetic on them the result is wrapped by `wrapInt64`.
* `time.Now().Unix()` is an explicit argument `now` of the operation that
  reads the clock.
* Logging calls have no effect on the state and are left out.
-/

set_option autoImplicit false

namespace Promulgator

/-! ## Machine integers -/

/-- Two's-complement wrap of a mathematical integer into the `int64` range. -/
def wrapInt64 (x : Int) : Int := (x + 2 ^ 63) % 2 ^ 64 - 2 ^ 63

/-- The largest `int64`. -/
def maxInt64 : Int := 2 ^ 63 - 1

/-- The smallest `int64`. -/
def minInt64 : Int := -(2 ^ 63)

/-! ## pkg/tcache/memory.go -/

namespace tcache

/-- CacheObject represents a cached object as stored in the memory cache.
`Value` is a `model.Value` interface value, which may be nil. -/
structure CacheObject (V : Type) where
  Key : String
  Value : Option V
  Expiration : Int
  deriving DecidableEq, Repr

/-- The `sync.Map` held by the cache: the entries in some iteration order. -/
abbrev SyncMap (V : Type) := List (String × CacheObject V)

/-- The method `sync.Map.Load`. -/
def SyncMap.Load {V : Type} (m : SyncMap V) (key : String) : Option (CacheObject V) :=
  m.lookup key

/-- The method `sync.Map.Delete`. -/
def SyncMap.Delete {V : Type} (m : SyncMap V) (key : String) : SyncMap V :=
  m.filter (fun e => e.1 != key)

/-- The method `sync.Map.Store`: sets the value for a key, replacing what was there. -/
def SyncMap.Store {V : Type} (m : SyncMap V) (key : String) (o : CacheObject V) : SyncMap V :=
  (key, o) :: SyncMap.Delete m key

/-- Modelled from the spec: the type `TCacheAPI` is declared outside the files at
hand; of it `ReapOnce` uses the lock `ChannelCreateMtx` and the registry
`ResponseChannels` of pending-request records, one completion channel per key.
A channel is named by a number, and `closed` logs the channels closed so far,
latest first. Registered channels are open: a record is created with a fresh
channel and the channel is closed only where the record is deleted. -/
structure TCacheAPI where
  ResponseChannels : List (String × Nat)
  closed : List Nat
  deriving DecidableEq, Repr

/-- MemoryCache defines a memory cache client. -/
structure MemoryCache (V : Type) where
  T : TCacheAPI
  client : SyncMap V

/-- Connect initializes the MemoryCache (the reaper it starts is `Reap`). -/
def MemoryCache.Connect {V : Type} (c : MemoryCache V) : MemoryCache V × Option String :=
  ({ c with client := [] }, none)

/-- Store places an object in the cache using the specified key and ttl. -/
def MemoryCache.Store {V : Type} (c : MemoryCache V) (now : Int) (cacheKey : String)
    (data : Option V) (ttl : Int) : MemoryCache V × Option String :=
  let o : CacheObject V :=
    { Key := cacheKey, Value := data, Expiration := wrapInt64 (now + ttl) }
  ({ c with client := SyncMap.Store c.client cacheKey o }, none)

/-- The error of a failed `Retrieve`. -/
def notInCache (cacheKey : String) : String :=
  "Value  for key [" ++ cacheKey ++ "] not in cache"

/-- Retrieve looks for an object in cache and returns it (or an error if not found). -/
def MemoryCache.Retrieve {V : Type} (c : MemoryCache V) (cacheKey : String) :
    Option V × Option String :=
  match SyncMap.Load c.client cacheKey with
  | some record => (record.Value, none)
  | none => (none, some (notInCache cacheKey))

/-- The body of the `if _, ok := ResponseChannels[key]; ok` block of `ReapOnce`:
close out the channel if it exists, and delete the record. -/
def closeOut (t : TCacheAPI) (key : String) : TCacheAPI :=
  match t.ResponseChannels.lookup key with
  | some ch =>
      { ResponseChannels := t.ResponseChannels.filter (fun e => e.1 != key)
        closed := ch :: t.closed }
  | none => t

/-- The function `ReapOnce` hands to `sync.Map.Range`, applied to one entry. -/
def reapEntry {V : Type} (now : Int) (c : MemoryCache V) (e : String × CacheObject V) :
    MemoryCache V :=
  if e.2.Expiration < now then
    { T := closeOut c.T e.1, client := SyncMap.Delete c.client e.1 }
  else c

/-- ReapOnce makes a single iteration through the cache to find and remove
expired elements; `now` is the clock read at its start. -/
def MemoryCache.ReapOnce {V : Type} (c : MemoryCache V) (now : Int) : MemoryCache V :=
  c.client.foldl (reapEntry now) c

/-- The cache with the expiration field of every entry replaced by `f` of it
(used to state that `Retrieve` does not read the field). -/
def MemoryCache.mapExpiration {V : Type} (c : MemoryCache V) (f : Int → Int) : MemoryCache V :=
  { c with client := List.map (fun e => (e.1, { e.2 with Expiration := f e.2.Expiration })) c.client }

/-- The registry is well formed: the records hold distinct channels, none of
which has been closed. -/
def TCacheAPI.WellFormed (t : TCacheAPI) : Prop :=
  (t.ResponseChannels.map Prod.snd).Nodup ∧ ∀ e ∈ t.ResponseChannels, e.2 ∉ t.closed

/-- The pass started at `now` removes the entry of `key`: the cache holds an
entry for the key whose expiration is before `now`. -/
def MemoryCache.Removes {V : Type} (c : MemoryCache V) (now : Int) (key : String) : Prop :=
  ∃ e ∈ c.client, e.1 = key ∧ e.2.Expiration < now

/-- One call made on a cache by its users or by the reaper. -/
inductive Op (V : Type) where
  | store (now : Int) (cacheKey : String) (data : Option V) (ttl : Int)
  | reap (now : Int)

/-- The key an operation stores under, if it is a `Store`. -/
def Op.storesKey {V : Type} : Op V → Option String
  | .store _ k _ _ => some k
  | .reap _ => none

/-- The cache after one operation. -/
def step {V : Type} (c : MemoryCache V) : Op V → MemoryCache V
  | .store now k v ttl => (c.Store now k v ttl).1
  | .reap now => c.ReapOnce now

/-- The cache after a sequence of operations. -/
def run {V : Type} (c : MemoryCache V) (ops : List (Op V)) : MemoryCache V :=
  ops.foldl step c

end tcache

/-! ## pkg/promclient/ignore_error.go -/

namespace promclient

/-- A Go `error` value: the message. -/
abbrev Error := String

/-- A `time.Time`, as the number of nanoseconds since the Unix epoch. -/
abbrev Time := Int

/-- A `time.Duration`: an `int64` count of nanoseconds. -/
abbrev Duration := Int

/-- A label set (`model.LabelSet`, `model.Metric`): label names with their values. -/
abbrev LabelSet := List (String × String)

/-- The four match operators of `labels.MatchType`. -/
inductive MatchType where
  | MatchEqual
  | MatchNotEqual
  | MatchRegexp
  | MatchNotRegexp
  deriving DecidableEq, Repr

/-- A label matcher, `labels.Matcher` (`Typ` is its field `Type`). -/
structure Matcher where
  Typ : MatchType
  Name : String
  Value : String
  deriving DecidableEq, Repr

/-- The range of a range query, `v1.Range`. -/
structure Range where
  Start : Time
  End : Time
  Step : Duration
  deriving DecidableEq, Repr

/-- The interface `API` of the package: an implementation is the collection of
its methods. `Ctx` is `context.Context` and `V` the dynamic type behind
`model.Value`; a nil `model.Value` or `error` is `none`. -/
structure API (Ctx V : Type) where
  LabelNames : Ctx → List String × Option Error
  LabelValues : Ctx → String → List String × Option Error
  Query : Ctx → String → Time → Option V × Option Error
  QueryRange : Ctx → String → Range → Option V × Option Error
  Series : Ctx → List String → Time → Time → List LabelSet × Option Error
  GetValue : Ctx → Time → Time → List Matcher → Option V × Option Error

/-- IgnoreErrorAPI simply swallows all errors from the given API. -/
structure IgnoreErrorAPI (Ctx V : Type) where
  API : API Ctx V

/-- LabelNames is not redefined by `IgnoreErrorAPI`: the method of the embedded
`API` is promoted. -/
def IgnoreErrorAPI.LabelNames {Ctx V : Type} (n : IgnoreErrorAPI Ctx V) (ctx : Ctx) :
    List String × Option Error :=
  n.API.LabelNames ctx

/-- LabelValues performs a query for the values of the given label. -/
def IgnoreErrorAPI.LabelValues {Ctx V : Type} (n : IgnoreErrorAPI Ctx V) (ctx : Ctx)
    (label : String) : List String × Option Error :=
  let (v, _) := n.API.LabelValues ctx label
  (v, none)

/-- Query performs a query for the given time. -/
def IgnoreErrorAPI.Query {Ctx V : Type} (n : IgnoreErrorAPI Ctx V) (ctx : Ctx)
    (query : String) (ts : Time) : Option V × Option Error :=
  let (v, _) := n.API.Query ctx query ts
  (v, none)

/-- QueryRange performs a query for the given range. -/
def IgnoreErrorAPI.QueryRange {Ctx V : Type} (n : IgnoreErrorAPI Ctx V) (ctx : Ctx)
    (query : String) (r : Range) : Option V × Option Error :=
  let (v, _) := n.API.QueryRange ctx query r
  (v, none)

/-- Series finds series by label matchers. -/
def IgnoreErrorAPI.Series {Ctx V : Type} (n : IgnoreErrorAPI Ctx V) (ctx : Ctx)
    (matchStrs : List String) (startTime endTime : Time) : List LabelSet × Option Error :=
  let (v, _) := n.API.Series ctx matchStrs startTime endTime
  (v, none)

/-- GetValue loads the raw data for a given set of matchers in the time range. -/
def IgnoreErrorAPI.GetValue {Ctx V : Type} (n : IgnoreErrorAPI Ctx V) (ctx : Ctx)
    (start «end» : Time) (matchers : List Matcher) : Option V × Option Error :=
  let (v, _) := n.API.GetValue ctx start «end» matchers
  (v, none)

/-- An `IgnoreErrorAPI` is itself an implementation of `API`. -/
def IgnoreErrorAPI.toAPI {Ctx V : Type} (n : IgnoreErrorAPI Ctx V) : promclient.API Ctx V where
  LabelNames := n.LabelNames
  LabelValues := n.LabelValues
  Query := n.Query
  QueryRange := n.QueryRange
  Series := n.Series
  GetValue := n.GetValue

end promclient

/-! ## The query tree and its walk (package `promql` of Prometheus)

The tree type and the function `promql.Walk` belong to the Prometheus
library. They are embedded as far as the visitors of `pkg/proxystorage` use
them: the node kinds, the `Offset` field of the selectors, and the order in
which `Walk` calls `Visit`.

`Walk` is embedded as the library has it in release 2.13: on an aggregation it
walks the parameter `Param`, when it is not nil, and then the operand `Expr`;
on a call it walks the `Expressions` node of the arguments; the selectors are
leaves. The `Walk` of release 2.5 passes over `Param`: with it no visitor is
shown the nodes below the parameter of an aggregation. -/

namespace promql

/-- A node of a parsed query (`promql.Node`), with the children that `Walk`
descends into. Durations are `int64` nanoseconds. The selectors are leaves and
own an `Offset`. The parameter of an aggregation (the `k` of `topk(k, e)`, the
`q` of `quantile(q, e)`) is an expression of its own, and `nil` for the
aggregations that take none. -/
inductive Node where
  | VectorSelector (Name : String) (Offset : Int)
  | MatrixSelector (Name : String) (Range : Int) (Offset : Int)
  | NumberLiteral (Val : Int)
  | StringLiteral (Val : String)
  | ParenExpr (Expr : Node)
  | UnaryExpr (Op : String) (Expr : Node)
  | AggregateExpr (Op : String) (Expr : Node) (Param : Option Node)
  | SubqueryExpr (Expr : Node) (Range : Int) (Offset : Int) (Step : Int)
  | BinaryExpr (Op : String) (LHS : Node) (RHS : Node)
  | Call (Func : String) (Args : List Node)
  | Expressions (es : List Node)
  deriving Repr

/-- The members of an `Expressions` node. -/
def Node.exprs : Node → List Node
  | .Expressions es => es
  | _ => []

/-- What one call `Visit(node, path)` does. A visitor is a pointer and `Visit`
may update it in place: `state` is the visitor after the call. The visitors of
this package write at most the field `Offset` of the selector they are handed:
`setOffset` is the value assigned, if any. `cont` tells whether the returned
`Visitor` is non-nil (when it is, it is the receiver itself), and `err` is the
returned error. -/
structure VisitResult (σ ε : Type) where
  state : σ
  setOffset : Option Int
  cont : Bool
  err : Option ε

/-- The method `Visit` of a `promql.Visitor` with state `σ`; the node is `none`
for the call `Visit(nil, nil)` that closes the walk of a node. No visitor of
the package reads the `path` argument, which is left out. -/
abbrev Visitor (σ ε : Type) := σ → Option Node → VisitResult σ ε

/-- The assignment `n.Offset = d` on a selector node. -/
def assignOffset (o : Option Int) (node : Node) : Node :=
  match o, node with
  | some d, .VectorSelector n _ => .VectorSelector n d
  | some d, .MatrixSelector n r _ => .MatrixSelector n r d
  | _, n => n

/-- The outcome of `Walk`: the visitor state, the node as left by the visitor,
and the error returned. -/
structure WalkResult (σ ε : Type) where
  state : σ
  node : Node
  err : Option ε

/-- The outcome of walking a list of nodes in order. -/
structure WalkListResult (σ ε : Type) where
  state : σ
  nodes : List Node
  err : Option ε

/-- The outcome of walking the parameter of an aggregation, which may be
`nil`. -/
structure WalkParamResult (σ ε : Type) where
  state : σ
  node : Option Node
  err : Option ε

/-- The frame of `Walk` around the children of a node: `Visit(node)`; when the
returned visitor is nil or the error is not, return that error; otherwise walk
the children, return the first error met, and close with `Visit(nil)`, whose
error is returned. -/
def enter {σ ε : Type} (v : Visitor σ ε) (s : σ) (node : Node)
    (children : σ → Node → WalkResult σ ε) : WalkResult σ ε :=
  let r := v s (some node)
  let node := assignOffset r.setOffset node
  if !r.cont || r.err.isSome then ⟨r.state, node, r.err⟩
  else
    let c := children r.state node
    if c.err.isSome then c
    else
      let f := v c.state none
      ⟨f.state, c.node, f.err⟩

mutual
/-- The function `promql.Walk`: a pre-order, depth-first traversal of the tree,
the children in the order of the library: the parameter of an aggregation
before its operand, the left side of a binary expression before the right, the
arguments of a call from first to last. -/
def Walk {σ ε : Type} (v : Visitor σ ε) (s : σ) : Node → WalkResult σ ε
  | .VectorSelector n o => enter v s (.VectorSelector n o) (fun s' n' => ⟨s', n', none⟩)
  | .MatrixSelector n r o => enter v s (.MatrixSelector n r o) (fun s' n' => ⟨s', n', none⟩)
  | .NumberLiteral x => enter v s (.NumberLiteral x) (fun s' n' => ⟨s', n', none⟩)
  | .StringLiteral x => enter v s (.StringLiteral x) (fun s' n' => ⟨s', n', none⟩)
  | .ParenExpr e => enter v s (.ParenExpr e) (fun s' _ =>
      let r := Walk v s' e
      ⟨r.state, .ParenExpr r.node, r.err⟩)
  | .UnaryExpr op e => enter v s (.UnaryExpr op e) (fun s' _ =>
      let r := Walk v s' e
      ⟨r.state, .UnaryExpr op r.node, r.err⟩)
  | .AggregateExpr op e p => enter v s (.AggregateExpr op e p) (fun s' _ =>
      let a := WalkParam v s' p
      if a.err.isSome then ⟨a.state, .AggregateExpr op e a.node, a.err⟩
      else
        let b := Walk v a.state e
        ⟨b.state, .AggregateExpr op b.node a.node, b.err⟩)
  | .SubqueryExpr e rg o st => enter v s (.SubqueryExpr e rg o st) (fun s' _ =>
      let r := Walk v s' e
      ⟨r.state, .SubqueryExpr r.node rg o st, r.err⟩)
  | .BinaryExpr op l r => enter v s (.BinaryExpr op l r) (fun s' _ =>
      let a := Walk v s' l
      if a.err.isSome then ⟨a.state, .BinaryExpr op a.node r, a.err⟩
      else
        let b := Walk v a.state r
        ⟨b.state, .BinaryExpr op a.node b.node, b.err⟩)
  | .Call f args => enter v s (.Call f args) (fun s' _ =>
      let r := enter v s' (.Expressions args) (fun s'' _ =>
        let rs := WalkList v s'' args
        ⟨rs.state, .Expressions rs.nodes, rs.err⟩)
      ⟨r.state, .Call f r.node.exprs, r.err⟩)
  | .Expressions es => enter v s (.Expressions es) (fun s' _ =>
      let rs := WalkList v s' es
      ⟨rs.state, .Expressions rs.nodes, rs.err⟩)
/-- The step `if n.Param != nil { Walk(v, n.Param, path) }` of `Walk` on an
aggregation. -/
def WalkParam {σ ε : Type} (v : Visitor σ ε) (s : σ) : Option Node → WalkParamResult σ ε
  | none => ⟨s, none, none⟩
  | some p =>
    let r := Walk v s p
    ⟨r.state, some r.node, r.err⟩
/-- The loop of `Walk` over the members of an `Expressions` node. -/
def WalkList {σ ε : Type} (v : Visitor σ ε) (s : σ) : List Node → WalkListResult σ ε
  | [] => ⟨s, [], none⟩
  | e :: es =>
    let r := Walk v s e
    if r.err.isSome then ⟨r.state, r.node :: es, r.err⟩
    else
      let rs := WalkList v r.state es
      ⟨rs.state, r.node :: rs.nodes, rs.err⟩
end

mutual
/-- The offsets of the `VectorSelector` and `MatrixSelector` nodes of a tree, in
pre-order (the order of `Walk`). -/
def selectorOffsets : Node → List Int
  | .VectorSelector _ o => [o]
  | .MatrixSelector _ _ o => [o]
  | .NumberLiteral _ => []
  | .StringLiteral _ => []
  | .ParenExpr e => selectorOffsets e
  | .UnaryExpr _ e => selectorOffsets e
  | .AggregateExpr _ e p => selectorOffsetsParam p ++ selectorOffsets e
  | .SubqueryExpr e _ _ _ => selectorOffsets e
  | .BinaryExpr _ l r => selectorOffsets l ++ selectorOffsets r
  | .Call _ args => selectorOffsetsList args
  | .Expressions es => selectorOffsetsList es
/-- The selector offsets of the parameter of an aggregation. -/
def selectorOffsetsParam : Option Node → List Int
  | none => []
  | some p => selectorOffsets p
/-- The selector offsets of a list of trees, in order. -/
def selectorOffsetsList : List Node → List Int
  | [] => []
  | e :: es => selectorOffsets e ++ selectorOffsetsList es
end

mutual
/-- The tree with the offset of every `VectorSelector` and `MatrixSelector`
node set to zero and everything else as it is: what the offset remover is
specified to produce. -/
def zeroOffsets : Node → Node
  | .VectorSelector n _ => .VectorSelector n 0
  | .MatrixSelector n r _ => .MatrixSelector n r 0
  | .NumberLiteral x => .NumberLiteral x
  | .StringLiteral x => .StringLiteral x
  | .ParenExpr e => .ParenExpr (zeroOffsets e)
  | .UnaryExpr op e => .UnaryExpr op (zeroOffsets e)
  | .AggregateExpr op e p => .AggregateExpr op (zeroOffsets e) (zeroOffsetsParam p)
  | .SubqueryExpr e rg o st => .SubqueryExpr (zeroOffsets e) rg o st
  | .BinaryExpr op l r => .BinaryExpr op (zeroOffsets l) (zeroOffsets r)
  | .Call f args => .Call f (zeroOffsetsList args)
  | .Expressions es => .Expressions (zeroOffsetsList es)
/-- The specification `zeroOffsets` on the parameter of an aggregation. -/
def zeroOffsetsParam : Option Node → Option Node
  | none => none
  | some p => some (zeroOffsets p)
/-- The specification `zeroOffsets` on a list of trees. -/
def zeroOffsetsList : List Node → List Node
  | [] => []
  | e :: es => zeroOffsets e :: zeroOffsetsList es
end

end promql

/-! ## pkg/proxystorage/util.go -/

namespace proxystorage

open promql

/-- The errors built in this file: `fmt.Errorf("mismatched offsets %v %v",
n.Offset, o.Offset)`, kept as its two arguments. -/
inductive Error where
  | mismatchedOffsets (nodeOffset : Int) (recorded : Int)
  deriving DecidableEq, Repr

/-- OffsetFinder finds the offset (if any) within the tree. -/
structure OffsetFinder where
  Found : Bool
  Offset : Int
  Error : Option proxystorage.Error
  deriving DecidableEq, Repr

/-- The body shared by the `*promql.VectorSelector` and `*promql.MatrixSelector`
cases of `OffsetFinder.Visit`, for a selector of offset `offset`. -/
def OffsetFinder.selector (o : OffsetFinder) (offset : Int) : OffsetFinder :=
  if !o.Found then
    { o with Offset := offset, Found := true }
  else if offset ≠ o.Offset then
    { o with Error := some (Error.mismatchedOffsets offset o.Offset) }
  else o

/-- The `switch n := node.(type)` statement of `OffsetFinder.Visit`: the finder
after it. -/
def OffsetFinder.switch (o : OffsetFinder) : Option Node → OffsetFinder
  | some (.VectorSelector _ offset) => o.selector offset
  | some (.MatrixSelector _ _ offset) => o.selector offset
  | _ => o

/-- Visit runs on each node in the tree. -/
def OffsetFinder.Visit (o : OffsetFinder) (node : Option Node) :
    VisitResult OffsetFinder proxystorage.Error :=
  let o' := o.switch node
  if o'.Error = none then ⟨o', none, true, none⟩
  else ⟨o', none, false, none⟩

/-- OffsetRemover removes any offset found in the node tree. -/
structure OffsetRemover where
  deriving DecidableEq, Repr

/-- Visit runs on each node in the tree. -/
def OffsetRemover.Visit (o : OffsetRemover) (node : Option Node) :
    VisitResult OffsetRemover proxystorage.Error :=
  match node with
  | some (.VectorSelector _ _) => ⟨o, some 0, true, none⟩
  | some (.MatrixSelector _ _ _) => ⟨o, some 0, true, none⟩
  | _ => ⟨o, none, true, none⟩

/-- What the claims observe of an `OffsetFinder`: `Found`, `Offset`, and whether
an error is recorded. -/
def OffsetFinder.view (o : OffsetFinder) : Bool × Int × Bool :=
  (o.Found, o.Offset, o.Error.isSome)

/-- The effect of one selector of offset `d` on the view of a finder. -/
def absorb (a : Bool × Int × Bool) (d : Int) : Bool × Int × Bool :=
  if !a.1 then (true, d, a.2.2) else (a.1, a.2.1, a.2.2 || decide (d ≠ a.2.1))

/-- The invariant of an `OffsetFinder`: an error is recorded only after an
offset was found. -/
def OffsetFinder.Sound (o : OffsetFinder) : Prop :=
  o.Error ≠ none → o.Found = true

/-- A walk by an `OffsetFinder` from state `s` over nodes whose selector
offsets are `L` ended in state `s'` with error `e` as it should. -/
def FinderWalk (s : OffsetFinder) (L : List Int) (s' : OffsetFinder)
    (e : Option proxystorage.Error) : Prop :=
  s'.view = L.foldl absorb s.view ∧ s'.Sound ∧ e = none

/-- A second in nanoseconds, `time.Second`. -/
def second : Int := 1000000000

/-- The query `sum(rate(a[1m] offset 5s)) + b offset 5s`. -/
def sameOffsets : Node :=
  .BinaryExpr "+"
    (.AggregateExpr "sum" (.Call "rate" [.MatrixSelector "a" (60 * second) (5 * second)]) none)
    (.VectorSelector "b" (5 * second))

/-- The query `sum(rate(a[1m] offset 5s)) + b offset 10s`. -/
def mixedOffsets : Node :=
  .BinaryExpr "+"
    (.AggregateExpr "sum" (.Call "rate" [.MatrixSelector "a" (60 * second) (5 * second)]) none)
    (.VectorSelector "b" (10 * second))

/-- The query `topk(scalar(a offset 10s), b offset 5s)`: an aggregation whose
parameter holds a selector. -/
def paramOffsets : Node :=
  .AggregateExpr "topk" (.VectorSelector "b" (5 * second))
    (some (.Call "scalar" [.VectorSelector "a" (10 * second)]))

end proxystorage

/-! ## float64 arithmetic

`Duration.Seconds` computes in `float64`. The finite values of `float64` are
embedded exactly: a value is `m * 2 ^ e` for integers `m` and `e`, and every
operation returns the value nearest to the exact result, ties to the even
mantissa (IEEE 754 binary64, 53-bit mantissa). The exponent range is not
bounded: the quantities computed here are integers below `2 ^ 63` and quotients
above `1e-9`, far from overflow and from the subnormal numbers. -/

namespace float64

/-- A finite `float64`, of value `m * 2 ^ e`. The operations return normalised
values: `m = 0` and `e = 0`, or `2 ^ 52 ≤ |m| < 2 ^ 53`. -/
structure F64 where
  m : Int
  e : Int
  deriving DecidableEq, Repr

/-- The integer nearest to `n / d`, the even one of the two on a tie. -/
def roundHalfEven (n d : Nat) : Nat :=
  let q := n / d
  let r := n % d
  if 2 * r < d then q
  else if d < 2 * r then q + 1
  else if q % 2 = 0 then q
  else q + 1

/-- Halve `n` until it is below 2, at most `fuel` times, and count the halvings. -/
def log2Aux : Nat → Nat → Nat
  | 0, _ => 0
  | fuel + 1, n => if n < 2 then 0 else log2Aux fuel (n / 2) + 1

/-- The integer part of the base-2 logarithm of a positive number (the position
of its leading bit). -/
def log2 (n : Nat) : Nat := log2Aux n n

/-- The integer part of the base-2 logarithm of `n / d`, for positive `n`, `d`. -/
def ilog2 (n d : Nat) : Int :=
  let c : Int := (log2 n : Int) - (log2 d : Int)
  if d * 2 ^ c.toNat ≤ n * 2 ^ (-c).toNat then c else c - 1

/-- The `float64` nearest to the rational `z / d` (`d` positive): the rational is
scaled by `2 ^ sh` into `[2 ^ 52, 2 ^ 53)` and rounded to an integer mantissa. -/
def round (z : Int) (d : Nat) : F64 :=
  if z = 0 then ⟨0, 0⟩
  else
    let n := z.natAbs
    let sh : Int := 52 - ilog2 n d
    let m := roundHalfEven (n * 2 ^ sh.toNat) (d * 2 ^ (-sh).toNat)
    if m = 2 ^ 53 then ⟨z.sign * 2 ^ 52, 1 - sh⟩ else ⟨z.sign * m, -sh⟩

/-- The conversion `float64(i)` of an integer. -/
def ofInt (i : Int) : F64 := round i 1

/-- The quotient `a / b` in `float64`, for `b` not zero. -/
def div (a b : F64) : F64 :=
  let k : Int := a.e - b.e
  round (a.m * b.m.sign * 2 ^ k.toNat) (b.m.natAbs * 2 ^ (-k).toNat)

/-- The sum `a + b` in `float64`. -/
def add (a b : F64) : F64 :=
  let e : Int := min a.e b.e
  let z : Int := a.m * 2 ^ (a.e - e).toNat + b.m * 2 ^ (b.e - e).toNat
  round (z * 2 ^ e.toNat) (2 ^ (-e).toNat)

/-- The conversion `int64(f)`: the fractional part is discarded (truncation
toward zero). -/
def toInt64 (f : F64) : Int :=
  if 0 ≤ f.e then f.m * 2 ^ f.e.toNat else Int.tdiv f.m (2 ^ (-f.e).toNat)

/-- The rational value of a `float64`. -/
def F64.val (f : F64) : ℚ := (f.m : ℚ) * (2 : ℚ) ^ f.e

end float64

/-! ## Package `time` of the Go library -/

namespace time

/-- The constant `time.Second`: the nanoseconds of a second. -/
def Second : Int := 1000000000

/-- The method `Duration.Seconds`: `sec := d / Second; nsec := d % Second;
return float64(sec) + float64(nsec)/1e9`. -/
def Seconds (d : Int) : float64.F64 :=
  let sec := Int.tdiv d Second
  let nsec := Int.tmod d Second
  float64.add (float64.ofInt sec) (float64.div (float64.ofInt nsec) (float64.ofInt 1000000000))

/-- The method `Time.Sub` on times given in nanoseconds: the duration `t - u`,
or the largest (smallest) `Duration` when the difference exceeds it. -/
def Sub (t u : Int) : Int :=
  if t - u > 2 ^ 63 - 1 then 2 ^ 63 - 1
  else if t - u < -(2 ^ 63) then -(2 ^ 63)
  else t - u

end time

/-! ## pkg/promclient/api.go -/

namespace promclient

/-- The interface `v1.API` of the Prometheus HTTP client, as far as `PromAPIV1`
calls it: each method returns a value, warnings and an error. -/
structure V1API (Ctx V : Type) where
  LabelNames : Ctx → List String × List String × Option Error
  LabelValues : Ctx → String → List String × List String × Option Error
  Query : Ctx → String → Time → Option V × List String × Option Error
  QueryRange : Ctx → String → Range → Option V × List String × Option Error
  Series : Ctx → List String → Time → Time → List LabelSet × List String × Option Error

/-- PromAPIV1 implements our internal API interface using only the v1 HTTP API.
The function `promhttputil.MatcherToString`, which belongs to a package outside
the files at hand, is the field `MatcherToString`. -/
structure PromAPIV1 (Ctx V : Type) where
  API : V1API Ctx V
  MatcherToString : List Matcher → String × Option Error

/-- The argument `int64(end.Sub(start).Seconds())+1` of the format in
`PromAPIV1.GetValue`. -/
def rangeSeconds (start «end» : Time) : Int :=
  wrapInt64 (float64.toInt64 (time.Seconds (time.Sub «end» start)) + 1)

/-- The call `fmt.Sprintf("[%ds]", n)`. -/
def rangeSelector (n : Int) : String :=
  "[" ++ toString n ++ "s]"

/-- Query performs a query for the given time. -/
def PromAPIV1.Query {Ctx V : Type} (p : PromAPIV1 Ctx V) (ctx : Ctx) (query : String)
    (ts : Time) : Option V × Option Error :=
  let (v, _, err) := p.API.Query ctx query ts
  (v, err)

/-- GetValue loads the raw data for a given set of matchers in the time range. -/
def PromAPIV1.GetValue {Ctx V : Type} (p : PromAPIV1 Ctx V) (ctx : Ctx) (start «end» : Time)
    (matchers : List Matcher) : Option V × Option Error :=
  match p.MatcherToString matchers with
  | (_, some err) => (none, some err)
  | (pql, none) =>
    let query := pql ++ rangeSelector (rangeSeconds start «end»)
    let (v, _, err) := p.API.Query ctx query «end»
    (v, err)

/-- The ceiling of a duration in seconds: the least whole number of seconds not
below `d` nanoseconds. -/
def ceilSeconds (d : Duration) : Int := -((-d) / time.Second)

/-- A `v1.API` whose `Query` answers with the query text and the evaluation
time it was sent, to observe what `GetValue` issues. -/
def echoAPI : V1API Unit (String × Time) where
  LabelNames := fun _ => ([], [], none)
  LabelValues := fun _ _ => ([], [], none)
  Query := fun _ query ts => (some (query, ts), [], none)
  QueryRange := fun _ _ _ => (none, [], none)
  Series := fun _ _ _ _ => ([], [], none)

/-- A `PromAPIV1` over `echoAPI` whose matcher conversion yields `up` for every
matcher list. -/
def echoClient : PromAPIV1 Unit (String × Time) where
  API := echoAPI
  MatcherToString := fun _ => ("up", none)

end promclient

/-! ## servergroup/config.go -/

namespace servergroup

/-- The function `model.TimeFromUnix` of the Prometheus library: a `model.Time`
counts milliseconds, `TimeFromUnix(t) = Time(t * 1000)` in `int64`. -/
def TimeFromUnix (t : Int) : Int := wrapInt64 (t * 1000)

/-- The struct `HTTPClientConfig`; `T` is `config_util.HTTPClientConfig`. -/
structure HTTPClientConfig (T : Type) where
  DialTimeout : Int
  HTTPConfig : T

/-- Config is the configuration for a ServerGroup that promxy will talk to. `R`
is `config.RelabelConfig`, `H` is `sd_config.ServiceDiscoveryConfig`; the
pointer `AntiAffinity` is nil when `none`. -/
structure Config (T R H : Type) where
  RemoteRead : Bool
  HTTPConfig : HTTPClientConfig T
  Scheme : String
  Labels : promclient.LabelSet
  RelabelConfigs : List R
  Hosts : H
  PathPrefix : String
  AntiAffinity : Option Int
  IgnoreError : Bool

/-- The method `GetScheme`. -/
def Config.GetScheme {T R H : Type} (c : Config T R H) : String :=
  if c.Scheme = "" then "http" else c.Scheme

/-- The method `GetAntiAffinity`. -/
def Config.GetAntiAffinity {T R H : Type} (c : Config T R H) : Int :=
  match c.AntiAffinity with
  | none => TimeFromUnix 10
  | some d => TimeFromUnix (float64.toInt64 (time.Seconds d))

end servergroup

/-! ## servergroup/config.go: defaults and loading -/

namespace time

/-- The constant `time.Millisecond`: the nanoseconds of a millisecond. -/
def Millisecond : Int := 1000000

end time

namespace servergroup

/-- The variable `DefaultConfig`: only the dial timeout is set, every other
field has the zero value of its type (`default` for the library types). -/
def DefaultConfig (T R H : Type) [Inhabited T] [Inhabited H] : Config T R H where
  RemoteRead := false
  HTTPConfig := { DialTimeout := time.Millisecond * 2000, HTTPConfig := default }
  Scheme := ""
  Labels := []
  RelabelConfigs := []
  Hosts := default
  PathPrefix := ""
  AntiAffinity := none
  IgnoreError := false

/-- UnmarshalYAML implements the yaml.Unmarshaler interface: `*c = DefaultConfig`,
then `unmarshal((*plain)(c))`. The callback `unmarshal` of the YAML library
writes into the struct it is handed and returns an error: it is a function from
the struct before to the struct after and the error. -/
def Config.UnmarshalYAML {T R H : Type} [Inhabited T] [Inhabited H] (_c : Config T R H)
    (unmarshal : Config T R H → Config T R H × Option promclient.Error) :
    Config T R H × Option promclient.Error :=
  unmarshal (DefaultConfig T R H)

/-- The callback of the YAML library for the document `path_prefix: /prom`: it
assigns the one field the document provides. -/
def decodePathPrefix (d : Config Unit Unit Unit) :
    Config Unit Unit Unit × Option promclient.Error :=
  ({ d with PathPrefix := "/prom" }, none)

/-- A `Config` as left by an earlier load that had set every field. -/
def staleConfig : Config Unit Unit Unit where
  RemoteRead := true
  HTTPConfig := { DialTimeout := 5, HTTPConfig := () }
  Scheme := "https"
  Labels := [("dc", "east")]
  RelabelConfigs := [()]
  Hosts := ()
  PathPrefix := "/old"
  AntiAffinity := some (30 * time.Second)
  IgnoreError := true

end servergroup

/-! ## pkg/proxystorage/util.go: clone and rewrite -/

namespace proxystorage

open promql

/-- The two functions of the `promql` library that `CloneExpr` and
`PreserveNameLabel` call: `promql.ParseExpr`, which returns an expression and
an error, and the method `String` of an expression. -/
structure Promql where
  ParseExpr : String → Option Node × Option String
  String : Node → String

/-- The function `CloneExpr`: `newExpr, _ = promql.ParseExpr(expr.String())`. -/
def CloneExpr (lib : Promql) (expr : Node) : Option Node :=
  (lib.ParseExpr (lib.String expr)).1

/-- The text `PreserveNameLabel` formats for the parser:
`fmt.Sprintf` of `label_replace(%s,[%s],[$1],[%s],[(.*)])`, with backquotes
where the brackets are, applied to `expr.String()`, `dstLabel`, `srcLabel`. -/
def labelReplaceText (expr srcLabel dstLabel : String) : String :=
  "label_replace(" ++ expr ++ ",`" ++ dstLabel ++ "`,`$1`,`" ++ srcLabel ++ "`,`(.*)`)"

/-- PreserveNameLabel wraps the input expression with a label replace in order
to preserve the metadata through binary expressions. -/
def PreserveNameLabel (lib : Promql) (expr : Node) (srcLabel dstLabel : String) :
    Option Node :=
  (lib.ParseExpr (labelReplaceText (lib.String expr) srcLabel dstLabel)).1

/-- A library whose parser rejects every text with the given error and returns
no expression. -/
def rejecting (err : String) : Promql where
  ParseExpr := fun _ => (none, some err)
  String := fun _ => "up"

end proxystorage

/-! ## pkg/proxystorage/util.go: MultiVisitor -/

namespace proxystorage

open promql

/-- One element of the slice `MultiVisitor.visitors`. A non-nil element is a
pointer to a visitor: `Visit` is the method of its dynamic type and `state`
the visitor pointed to. `live` is false when the element is nil; the visitor
that was there is kept in `state`, as its owner still holds it. -/
structure Member (σ ε : Type) where
  Visit : Visitor σ ε
  state : σ
  live : Bool

/-- MultiVisitor runs a set of visitors on the same pass over the node tree. -/
structure MultiVisitor (σ ε : Type) where
  visitors : List (Member σ ε)

/-- NewMultiVisitor takes a set of visitors and returns a MultiVisitor. -/
def NewMultiVisitor {σ ε : Type} (visitors : List (Member σ ε)) : MultiVisitor σ ε :=
  { visitors := visitors }

/-- The variables of the loop of `MultiVisitor.Visit`: the elements of
`visitors` already passed, as the loop left them; the node, as the visitors
called so far left it; the last value they assigned to its offset; and
`visitorErr`. -/
structure VisitLoop (σ ε : Type) where
  visitors : List (Member σ ε)
  node : Option Node
  setOffset : Option Int
  visitorErr : Option ε

/-- One iteration of the loop of `MultiVisitor.Visit`: a nil element is skipped;
otherwise the visitor is called, its error, when not nil, becomes
`visitorErr`, and the visitor it returns replaces the element. -/
def visitOne {σ ε : Type} (acc : VisitLoop σ ε) (m : Member σ ε) : VisitLoop σ ε :=
  if m.live then
    let r := m.Visit m.state acc.node
    { visitors := acc.visitors ++ [{ m with state := r.state, live := r.cont }]
      node := acc.node.map (assignOffset r.setOffset)
      setOffset := if r.setOffset.isSome then r.setOffset else acc.setOffset
      visitorErr := if r.err.isSome then r.err else acc.visitorErr }
  else
    { acc with visitors := acc.visitors ++ [m] }

/-- Visit runs on each node in the tree. -/
def MultiVisitor.Visit {σ ε : Type} (v : MultiVisitor σ ε) (node : Option Node) :
    VisitResult (MultiVisitor σ ε) ε :=
  let r := v.visitors.foldl visitOne ⟨[], node, none, none⟩
  ⟨{ visitors := r.visitors }, r.setOffset, true, r.visitorErr⟩

/-- The call of `Visit` that the loop makes at position `i` of `ms`, when
started with the variables `acc`: none for a nil element (or past the end),
else the call of the element on the node as the elements before it left it. -/
def callAt {σ ε : Type} (acc : VisitLoop σ ε) (ms : List (Member σ ε)) (i : Nat) :
    Option (VisitResult σ ε) :=
  match ms[i]? with
  | some m =>
    if m.live then some (m.Visit m.state ((ms.take i).foldl visitOne acc).node) else none
  | none => none

/-- The call that `MultiVisitor.Visit` on `node` makes to its `i`-th visitor. -/
def MultiVisitor.call {σ ε : Type} (v : MultiVisitor σ ε) (node : Option Node) (i : Nat) :
    Option (VisitResult σ ε) :=
  callAt ⟨[], node, none, none⟩ v.visitors i

/-- The offset that the calls `MultiVisitor.Visit` on `node` makes to its
visitors before position `i` left assigned to the node: the one assigned by
the last of them that assigned one, none when none of them did. -/
def MultiVisitor.assigned {σ ε : Type} (v : MultiVisitor σ ε) (node : Option Node) :
    Nat → Option Int
  | 0 => none
  | i + 1 =>
    match (v.call node i).bind (fun r => r.setOffset) with
    | some d => some d
    | none => MultiVisitor.assigned v node i

/-- The element of `visitors` after the loop passed it: replaced by what the
call returned, or left as it is when no call was made. -/
def Member.after {σ ε : Type} (m : Member σ ε) : Option (VisitResult σ ε) → Member σ ε
  | some r => { m with state := r.state, live := r.cont }
  | none => m

/-- A visitor that logs the names of the vector selectors it is handed and
returns a nil visitor at the vector selector named `stop`. -/
def probe (stop : String) : Visitor (List String) proxystorage.Error :=
  fun log node =>
    match node with
    | some (.VectorSelector n _) => ⟨log ++ [n], none, n != stop, none⟩
    | _ => ⟨log, none, true, none⟩

/-- A visitor that logs the offsets of the vector selectors it is handed and
sets the offset of each of them to `d`. -/
def shifting (d : Int) : Visitor (List Int) proxystorage.Error :=
  fun log node =>
    match node with
    | some (.VectorSelector _ o) => ⟨log ++ [o], some d, true, none⟩
    | _ => ⟨log, none, true, none⟩

/-- The query `a + b`. -/
def aPlusB : Node :=
  .BinaryExpr "+" (.VectorSelector "a" 0) (.VectorSelector "b" 0)

end proxystorage

/-! ## pkg/promclient/api.go: PromAPIRemoteRead -/

namespace promclient

/-- A sample on the wire, `prompb.Sample`; `F` is `float64`. -/
structure Sample (F : Type) where
  Value : F
  Timestamp : Int

/-- A series on the wire, `prompb.TimeSeries`: label pairs (name, value) and
samples. -/
structure TimeSeries (F : Type) where
  Labels : List (String × String)
  Samples : List (Sample F)

/-- The response of a raw read, `prompb.QueryResult`. -/
structure QueryResult (F : Type) where
  Timeseries : List (TimeSeries F)

/-- A sample of the internal representation, `model.SamplePair`. -/
structure SamplePair (F : Type) where
  Timestamp : Int
  Value : F

/-- A series of the internal representation, `model.SampleStream`. -/
structure SampleStream (F : Type) where
  Metric : LabelSet
  Values : List (SamplePair F)

/-- The internal representation of a range of series, `model.Matrix`. -/
abbrev Matrix (F : Type) := List (SampleStream F)

/-- The assignment `metric[name] = value` on the map `metric`. -/
def Metric.set (metric : LabelSet) (name value : String) : LabelSet :=
  (name, value) :: metric.filter (fun e => e.1 != name)

/-- The function `timestamp.FromTime` of the Prometheus library:
`t.Unix()*1000 + int64(t.Nanosecond())/int64(time.Millisecond)`. -/
def FromTime (t : Time) : Int :=
  wrapInt64 (wrapInt64 (t / time.Second * 1000) + t % time.Second / time.Millisecond)

/-- PromAPIRemoteRead implements our internal API interface using a combination
of the v1 HTTP API and the remote_read API. Of the library, `ToQuery` is
`remote.ToQuery` applied to the two times, the matchers and nil, and `Read` is
the method `Read` of the embedded `remote.Client`; `Q` is `prompb.Query`. -/
structure PromAPIRemoteRead (Ctx V Q F : Type) where
  API : API Ctx V
  ToQuery : Int → Int → List Matcher → Q × Option Error
  Read : Ctx → Q → QueryResult F × Option Error

/-- The body of the loop of `PromAPIRemoteRead.GetValue` over the series:
the sample stream built from one series of the wire. -/
def toSampleStream {F : Type} (ts : TimeSeries F) : SampleStream F where
  Metric := ts.Labels.foldl (fun metric label => Metric.set metric label.1 label.2) []
  Values := ts.Samples.map (fun sample => ⟨sample.Timestamp, sample.Value⟩)

/-- GetValue loads the raw data for a given set of matchers in the time range. -/
def PromAPIRemoteRead.GetValue {Ctx V Q F : Type} (p : PromAPIRemoteRead Ctx V Q F) (ctx : Ctx)
    (start stop : Time) (matchers : List Matcher) : Option (Matrix F) × Option Error :=
  match p.ToQuery (FromTime start) (FromTime stop) matchers with
  | (_, some err) => (none, some err)
  | (query, none) =>
    match p.Read ctx query with
    | (_, some err) => (none, some err)
    | (result, none) => (some (result.Timeseries.map toSampleStream), none)

/-- A raw-read client that answers every query with one series of two labels
and two samples. -/
def oneSeriesClient : PromAPIRemoteRead Unit Unit Unit Int where
  API := (IgnoreErrorAPI.mk ⟨fun _ => ([], none), fun _ _ => ([], none),
    fun _ _ _ => (none, none), fun _ _ _ => (none, none), fun _ _ _ _ => ([], none),
    fun _ _ _ _ => (none, none)⟩).toAPI
  ToQuery := fun _ _ _ => ((), none)
  Read := fun _ _ =>
    (⟨[⟨[("__name__", "up"), ("job", "node")], [⟨1, 1000⟩, ⟨0, 2000⟩]⟩]⟩, none)

end promclient

/-! ## pkg/proxystorage/util.go: the continuation of the offset finder -/

namespace proxystorage

open promql

/-- The node is a mismatching selector for the finder: a `VectorSelector` or
`MatrixSelector` whose offset differs from the offset the finder has found. -/
def OffsetFinder.Mismatches (o : OffsetFinder) : Option Node → Bool
  | some (.VectorSelector _ offset) => o.Found && decide (offset ≠ o.Offset)
  | some (.MatrixSelector _ _ offset) => o.Found && decide (offset ≠ o.Offset)
  | _ => false

/-- The argument list of a call of `label_replace` that copies the value of the
label `src` into the label `dst`: the expression, the destination label, the
replacement `$1` (the first capture group), the source label and the regex
`(.*)` that matches everything, the last four as backquoted strings. -/
def labelCopyArgs (expr src dst : String) : List String :=
  [expr, "`" ++ dst ++ "`", "`$1`", "`" ++ src ++ "`", "`(.*)`"]

/-- The text of a call of the function `name` on the arguments `args`. -/
def callText (name : String) (args : List String) : String :=
  name ++ "(" ++ ",".intercalate args ++ ")"

/-- A library whose parser returns the text it is handed, as a string literal. -/
def echoing : Promql where
  ParseExpr := fun text => (some (.StringLiteral text), none)
  String := fun _ => "up"

end proxystorage

/-! ## pkg/logging/logging.go

A Go `string` is the sequence of its bytes, each a number below 256; `len` and
slicing count bytes. A `url.Values` map is given by its pairs (key, values) in
the order in which `range` yields them. -/

namespace logging

/-- A Go `string`: its bytes. -/
abbrev GoString := List Nat

/-- The constant `MaxFormPrefix`. -/
def MaxFormPrefix : Int := 256

/-- The function `shouldEscape` of `net/url` in the mode `encodeQueryComponent`:
letters, digits and the marks `-`, `_`, `.`, `~` are kept, every other byte is
escaped. -/
def shouldEscape (c : Nat) : Bool :=
  !((97 ≤ c && c ≤ 122) || (65 ≤ c && c ≤ 90) || (48 ≤ c && c ≤ 57) ||
    c == 45 || c == 95 || c == 46 || c == 126)

/-- The hexadecimal digit `"0123456789ABCDEF"[h]`. -/
def upperhex (h : Nat) : Nat := if h < 10 then 48 + h else 55 + h

/-- What `url.QueryEscape` writes for one byte: the byte itself, `+` for a
space, or `%` and two hexadecimal digits. -/
def escapeByte (c : Nat) : GoString :=
  if shouldEscape c then
    if c = 32 then [43] else [37, upperhex (c / 16), upperhex (c % 16)]
  else [c]

/-- The function `url.QueryEscape` of the Go library. -/
def QueryEscape (s : GoString) : GoString := s.flatMap escapeByte

/-- The slice expression `s[:n]`, which panics (`none`) when `n` is out of
range. -/
def sliceTo (s : GoString) (n : Int) : Option GoString :=
  if 0 ≤ n ∧ n ≤ s.length then some (s.take n.toNat) else none

/-- The closure `appendBuf`: it appends `s` to `buf` until `buf` is filled, and
returns the buffer and whether all of `s` went in with room to spare; `none`
when its slice panics. -/
def appendBuf (buf s : GoString) : Option (GoString × Bool) :=
  if (buf.length : Int) + s.length ≥ MaxFormPrefix then
    let remaining : Int := MaxFormPrefix - buf.length
    if remaining > 0 then
      match sliceTo s remaining with
      | some t => some (buf ++ t, false)
      | none => none
    else some (buf, false)
  else some (buf ++ s, true)

/-- How a part of `FormPrefix` ends: the loop goes on with the buffer, the
function returns `buf.String()`, or a slice panics. -/
inductive Outcome where
  | next (buf : GoString)
  | done (buf : GoString)
  | panic
  deriving DecidableEq, Repr

/-- What follows a call of `appendBuf` in the body of the loop:
`if !appendBuf(...) { return buf.String() }`. -/
def afterAppend : Option (GoString × Bool) → Outcome
  | none => .panic
  | some (buf, false) => .done buf
  | some (buf, true) => .next buf

/-- The body of the inner loop of `FormPrefix`, for one value `v` of a key. -/
def body (keyEscaped buf v : GoString) : Outcome :=
  if (buf.length : Int) ≥ MaxFormPrefix then .done buf
  else
    let buf := if buf.length > 0 then buf ++ [38] else buf
    match afterAppend (appendBuf buf keyEscaped) with
    | .next buf =>
      let buf := buf ++ [61]
      if (buf.length : Int) + v.length ≥ MaxFormPrefix then
        let remaining : Int := MaxFormPrefix - buf.length
        if remaining > 0 then
          match sliceTo v remaining with
          | some v' => afterAppend (appendBuf buf (QueryEscape v'))
          | none => .panic
        else .next buf
      else afterAppend (appendBuf buf (QueryEscape v))
    | o => o

/-- The inner loop of `FormPrefix`: `for _, v := range values`. -/
def valuesLoop (keyEscaped : GoString) : GoString → List GoString → Outcome
  | buf, [] => .next buf
  | buf, v :: values =>
    match body keyEscaped buf v with
    | .next buf => valuesLoop keyEscaped buf values
    | o => o

/-- The outer loop of `FormPrefix`: `for k, values := range form`. -/
def formLoop : GoString → List (GoString × List GoString) → Outcome
  | buf, [] => .next buf
  | buf, (k, values) :: form =>
    match valuesLoop (QueryEscape k) buf values with
    | .next buf => formLoop buf form
    | o => o

/-- The function `FormPrefix`; `none` when a slice panics. -/
def FormPrefix (form : List (GoString × List GoString)) : Option GoString :=
  match formLoop [] form with
  | .next buf => some buf
  | .done buf => some buf
  | .panic => none

/-- The (key, value) pairs of a form in iteration order. -/
def pairs (form : List (GoString × List GoString)) : List (GoString × GoString) :=
  form.flatMap (fun kv => kv.2.map (fun v => (kv.1, v)))

/-- The text `QueryEscape(key)=QueryEscape(value)` of a pair. -/
def encodePair (p : GoString × GoString) : GoString :=
  QueryEscape p.1 ++ 61 :: QueryEscape p.2

/-- The full encoding of a form: the texts of its pairs joined by `&`. -/
def fullEncoding (form : List (GoString × List GoString)) : GoString :=
  List.intercalate [38] ((pairs form).map encodePair)

/-- The texts of the pairs, each preceded by `&`. -/
def withSeparators (ps : List (GoString × GoString)) : GoString :=
  ps.flatMap (fun p => 38 :: encodePair p)

/-- What the buffer becomes when the pairs `ps` are all written after `buf`,
without a bound on its length. -/
def written (buf : GoString) (ps : List (GoString × GoString)) : GoString :=
  if buf = [] then (withSeparators ps).drop 1 else buf ++ withSeparators ps

/-- The outcome `o` of a part of the loops that started with `buf` and has the
pairs `ps` to write is right, whatever pairs remain after it: when it returns,
the buffer is the first 256 bytes of all that was to be written; when the loop
goes on, the buffer is at most 256 bytes and writing the remaining pairs after
it comes to the same first 256 bytes. -/
def Writes (buf : GoString) (ps : List (GoString × GoString)) : Outcome → Prop
  | .panic => False
  | .done b => ∀ more, b = (written buf (ps ++ more)).take 256
  | .next b => b.length ≤ 256 ∧
      ∀ more, (written b more).take 256 = (written buf (ps ++ more)).take 256

/-- The bytes of an ASCII text. -/
def bytes (s : String) : GoString := s.toList.map Char.toNat

end logging

/-! ## Theorems -/

namespace tcache

theorem load_store_self {V : Type} (m : SyncMap V) (k : String) (o : CacheObject V) :
    SyncMap.Load (SyncMap.Store m k o) k = some o := by
  simp [SyncMap.Load, SyncMap.Store, List.lookup]

theorem load_delete_self {V : Type} (m : SyncMap V) (k : String) :
    SyncMap.Load (SyncMap.Delete m k) k = none := by
  induction m with
  | nil => rfl
  | cons e m ih =>
    obtain ⟨k', o⟩ := e
    simp only [SyncMap.Delete, SyncMap.Load] at ih ⊢
    by_cases h : k' = k
    · have hb : (k' != k) = false := by simp [h]
      simpa [List.filter_cons, hb] using ih
    · have hb : (k' != k) = true := by simp [h]
      have h' : (k == k') = false := by simpa using fun h'' => h h''.symm
      rw [List.filter_cons, hb]
      simpa [List.lookup, h'] using ih

theorem load_delete_other {V : Type} (m : SyncMap V) (k k' : String) (h : k' ≠ k) :
    SyncMap.Load (SyncMap.Delete m k') k = SyncMap.Load m k := by
  induction m with
  | nil => rfl
  | cons e m ih =>
    obtain ⟨k₁, o⟩ := e
    simp only [SyncMap.Delete, SyncMap.Load] at ih ⊢
    by_cases h₁ : k₁ = k'
    · have hb : (k₁ != k') = false := by simp [h₁]
      have h' : (k == k₁) = false := by
        simpa [h₁] using fun h'' => h h''.symm
      rw [List.filter_cons, hb]
      simpa [List.lookup, h'] using ih
    · have hb : (k₁ != k') = true := by simp [h₁]
      rw [List.filter_cons, hb]
      by_cases h₂ : k = k₁
      · simp [List.lookup, h₂]
      · have h' : (k == k₁) = false := by simpa using h₂
        simpa [List.lookup, h'] using ih

/-- C1: `Store(k, v, ttl)` followed immediately by `Retrieve(k)` returns exactly
`v` with a nil error, for every cache state, key, value and ttl (and clock). -/
theorem store_then_retrieve {V : Type} (c : MemoryCache V) (now : Int) (k : String)
    (v : Option V) (ttl : Int) :
    (c.Store now k v ttl).2 = none ∧ (c.Store now k v ttl).1.Retrieve k = (v, none) := by
  refine ⟨rfl, ?_⟩
  simp [MemoryCache.Store, MemoryCache.Retrieve, load_store_self]

end tcache

theorem wrapInt64_of_inRange (x : Int) (h₁ : minInt64 ≤ x) (h₂ : x ≤ maxInt64) :
    wrapInt64 x = x := by
  unfold wrapInt64
  unfold minInt64 at h₁
  unfold maxInt64 at h₂
  norm_num at h₁ h₂ ⊢
  omega

namespace tcache

theorem mem_delete_key_ne {V : Type} (m : SyncMap V) (k : String) (e : String × CacheObject V)
    (h : e ∈ SyncMap.Delete m k) : e.1 ≠ k := by
  simp only [SyncMap.Delete, List.mem_filter] at h
  simpa using h.2

theorem load_delete_none {V : Type} (m : SyncMap V) (k k' : String)
    (h : SyncMap.Load m k = none) : SyncMap.Load (SyncMap.Delete m k') k = none := by
  by_cases hk : k' = k
  · subst hk
    exact load_delete_self m k'
  · rw [load_delete_other m k k' hk]
    exact h

theorem reapEntry_load_none {V : Type} (now : Int) (c : MemoryCache V)
    (e : String × CacheObject V) (k : String) (h : SyncMap.Load c.client k = none) :
    SyncMap.Load (reapEntry now c e).client k = none := by
  unfold reapEntry
  split
  · exact load_delete_none c.client k e.1 h
  · exact h

theorem foldl_reapEntry_load_none {V : Type} (now : Int) (es : List (String × CacheObject V))
    (c : MemoryCache V) (k : String) (h : SyncMap.Load c.client k = none) :
    SyncMap.Load (es.foldl (reapEntry now) c).client k = none := by
  induction es generalizing c with
  | nil => exact h
  | cons e es ih => exact ih _ (reapEntry_load_none now c e k h)

theorem foldl_reapEntry_load_other {V : Type} (now : Int) (es : List (String × CacheObject V))
    (c : MemoryCache V) (k : String) (h : ∀ e ∈ es, e.1 ≠ k) :
    SyncMap.Load (es.foldl (reapEntry now) c).client k = SyncMap.Load c.client k := by
  induction es generalizing c with
  | nil => rfl
  | cons e es ih =>
    rw [List.foldl_cons, ih _ (fun e' he' => h e' (List.mem_cons_of_mem _ he'))]
    unfold reapEntry
    split
    · exact load_delete_other c.client k e.1 (h e (List.mem_cons_self _ _))
    · rfl

theorem reapOnce_load_none {V : Type} (now : Int) (c : MemoryCache V) (k : String)
    (h : SyncMap.Load c.client k = none) : SyncMap.Load (c.ReapOnce now).client k = none :=
  foldl_reapEntry_load_none now c.client c k h

theorem store_load_other {V : Type} (c : MemoryCache V) (now : Int) (k k' : String)
    (v : Option V) (ttl : Int) (h : k' ≠ k) :
    SyncMap.Load (c.Store now k' v ttl).1.client k = SyncMap.Load c.client k := by
  have h' : (k == k') = false := by simpa using fun h'' => h h''.symm
  simp only [MemoryCache.Store, SyncMap.Store, SyncMap.Load, List.lookup, h']
  exact load_delete_other c.client k k' h

theorem run_load_none {V : Type} (ops : List (Op V)) (c : MemoryCache V) (k : String)
    (h : SyncMap.Load c.client k = none) (hops : ∀ op ∈ ops, op.storesKey ≠ some k) :
    SyncMap.Load (run c ops).client k = none := by
  induction ops generalizing c with
  | nil => exact h
  | cons op ops ih =>
    refine ih _ ?_ (fun op' h' => hops op' (List.mem_cons_of_mem _ h'))
    have hop := hops op (List.mem_cons_self _ _)
    cases op with
    | store now k' v ttl =>
      have hk : k' ≠ k := fun hk => hop (by simp [Op.storesKey, hk])
      simp only [step]
      rw [store_load_other c now k k' v ttl hk]
      exact h
    | reap now => exact reapOnce_load_none now c k h

/-- The cache after `Store` at time `t` and one reaper pass at time `t'`. -/
theorem retrieve_after_store_reap {V : Type} (c : MemoryCache V) (t t' : Int) (k : String)
    (v : Option V) (ttl : Int) :
    ((c.Store t k v ttl).1.ReapOnce t').Retrieve k =
      if wrapInt64 (t + ttl) < t' then (none, some (notInCache k)) else (v, none) := by
  have hrest : ∀ e ∈ SyncMap.Delete c.client k, e.1 ≠ k :=
    fun e he => mem_delete_key_ne c.client k e he
  simp only [MemoryCache.ReapOnce, MemoryCache.Store, SyncMap.Store, List.foldl_cons,
    MemoryCache.Retrieve]
  by_cases hexp : wrapInt64 (t + ttl) < t'
  · rw [foldl_reapEntry_load_none t' _ _ k, if_pos hexp]
    simp only [reapEntry, if_pos hexp]
    exact load_delete_self _ k
  · rw [foldl_reapEntry_load_other t' _ _ k hrest, if_neg hexp]
    simp only [reapEntry, if_neg hexp]
    have := load_store_self c.client k
      { Key := k, Value := v, Expiration := wrapInt64 (t + ttl) }
    simp only [SyncMap.Store] at this
    rw [this]

/-- C2: `Retrieve(k)` returns a non-nil error together with a nil value if and
only if the cache holds no entry for `k`, the error then being the not-found
error; and on a cache that was connected and then used by any sequence of
`Store` and `ReapOnce` calls none of which stored under `k`, `Retrieve(k)` fails
with not-found. -/
theorem retrieve_not_found_iff {V : Type} :
    (∀ (c : MemoryCache V) (k : String),
      (((c.Retrieve k).2 ≠ none ∧ (c.Retrieve k).1 = none) ↔ SyncMap.Load c.client k = none) ∧
      ((c.Retrieve k).2 ≠ none → c.Retrieve k = (none, some (notInCache k)))) ∧
    (∀ (c : MemoryCache V) (ops : List (Op V)) (k : String),
      (∀ op ∈ ops, op.storesKey ≠ some k) →
      (run c.Connect.1 ops).Retrieve k = (none, some (notInCache k))) := by
  refine ⟨fun c k => ?_, fun c ops k hops => ?_⟩
  · unfold MemoryCache.Retrieve
    cases h : SyncMap.Load c.client k <;> simp
  · have h := run_load_none ops c.Connect.1 k rfl hops
    simp [MemoryCache.Retrieve, h]

/-- Witness of `retrieve_not_found_iff`: after storing under "a" and a reaper
pass, the key "b" is not found. -/
theorem retrieve_not_found_iff_witness :
    (run (⟨⟨[], []⟩, []⟩ : MemoryCache Nat).Connect.1
      [Op.store 100 "a" (some 7) 60, Op.reap 101]).Retrieve "b" =
      (none, some (notInCache "b")) :=
  (retrieve_not_found_iff (V := Nat)).2 ⟨⟨[], []⟩, []⟩
    [Op.store 100 "a" (some 7) 60, Op.reap 101] "b" (by simp [Op.storesKey])

/-- C3 (as stated) fails: with a ttl of `2^63 - 1` seconds the sum `now + ttl`
wraps around in `int64`, the stored expiration is in the past, and a reaper
pass at the store time itself (which is not after `t + ttl`) removes the entry. -/
theorem reap_removes_unexpired_on_overflow :
    ¬ ∀ (c : MemoryCache Nat) (t ttl t' : Int) (k : String) (v : Option Nat),
        0 ≤ ttl → ttl ≤ maxInt64 → t' ≤ t + ttl →
        ((c.Store t k v ttl).1.ReapOnce t').Retrieve k = (v, none) := by
  intro h
  have h' := h ⟨⟨[], []⟩, []⟩ 1700000000 (2 ^ 63 - 1) 1700000000 "k" (some 7)
    (by norm_num) (by norm_num [maxInt64]) (by norm_num)
  rw [retrieve_after_store_reap] at h'
  norm_num [wrapInt64] at h'
  exact absurd h'.1 (by simp)

/-- C3 (amended): when `t + ttl` is representable in `int64`, after
`Store(k, v, ttl)` at time `t` a reaper pass started at `t' > t + ttl` removes the
entry so that `Retrieve(k)` fails with not-found, and a reaper pass started at
any `t' ≤ t + ttl` leaves `Retrieve(k)` returning `v`. -/
theorem reap_after_store {V : Type} (c : MemoryCache V) (t t' ttl : Int) (k : String)
    (v : Option V) (hlo : minInt64 ≤ t + ttl) (hhi : t + ttl ≤ maxInt64) :
    (t + ttl < t' →
      ((c.Store t k v ttl).1.ReapOnce t').Retrieve k = (none, some (notInCache k))) ∧
    (t' ≤ t + ttl → ((c.Store t k v ttl).1.ReapOnce t').Retrieve k = (v, none)) := by
  rw [retrieve_after_store_reap, wrapInt64_of_inRange _ hlo hhi]
  constructor
  · intro h
    rw [if_pos h]
  · intro h
    rw [if_neg (not_lt.mpr h)]

/-- Witness of `reap_after_store`: a ttl of one second stored at second 100;
the pass at second 102 evicts, the pass at second 101 does not. -/
theorem reap_after_store_witness :
    ((((⟨⟨[], []⟩, []⟩ : MemoryCache Nat).Store 100 "k" (some 7) 1).1.ReapOnce 102).Retrieve "k"
        = (none, some (notInCache "k"))) ∧
    ((((⟨⟨[], []⟩, []⟩ : MemoryCache Nat).Store 100 "k" (some 7) 1).1.ReapOnce 101).Retrieve "k"
        = (some 7, none)) :=
  ⟨(reap_after_store ⟨⟨[], []⟩, []⟩ 100 102 1 "k" (some 7)
      (by norm_num [minInt64]) (by norm_num [maxInt64])).1 (by norm_num),
   (reap_after_store ⟨⟨[], []⟩, []⟩ 100 101 1 "k" (some 7)
      (by norm_num [minInt64]) (by norm_num [maxInt64])).2 (by norm_num)⟩

/-- The cache with the expiration of every entry rewritten by `f`. -/
theorem load_map_expiration {V : Type} (m : SyncMap V) (f : Int → Int) (k : String) :
    SyncMap.Load (m.map (fun e => (e.1, { e.2 with Expiration := f e.2.Expiration }))) k =
      (SyncMap.Load m k).map (fun o => { o with Expiration := f o.Expiration }) := by
  induction m with
  | nil => rfl
  | cons e m ih =>
    obtain ⟨k', o⟩ := e
    simp only [SyncMap.Load, List.map_cons, List.lookup] at ih ⊢
    cases hk : (k == k') <;> simp [ih]

/-- C4: `Retrieve` does not enforce expiration. An entry whose expiration is
before the current time `now` (not yet removed by a reaper pass) is still
returned with a nil error, and the result of `Retrieve` does not change when the
expiration fields of the entries are replaced by anything else (the clock is
not an input of `Retrieve` at all). -/
theorem retrieve_ignores_expiration {V : Type} (c : MemoryCache V) (k : String) :
    (∀ (o : CacheObject V) (now : Int), SyncMap.Load c.client k = some o →
      o.Expiration < now → c.Retrieve k = (o.Value, none)) ∧
    (∀ f : Int → Int, (c.mapExpiration f).Retrieve k = c.Retrieve k) := by
  constructor
  · intro o now h _
    simp [MemoryCache.Retrieve, h]
  · intro f
    simp only [MemoryCache.Retrieve, MemoryCache.mapExpiration, load_map_expiration]
    cases SyncMap.Load c.client k <;> rfl

/-- Witness of `retrieve_ignores_expiration`: an entry that expired at second 5
is returned at second 1000. -/
theorem retrieve_ignores_expiration_witness :
    (⟨⟨[], []⟩, [("k", ⟨"k", some 7, 5⟩)]⟩ : MemoryCache Nat).Retrieve "k" = (some 7, none) :=
  (retrieve_ignores_expiration ⟨⟨[], []⟩, [("k", ⟨"k", some 7, 5⟩)]⟩ "k").1
    ⟨"k", some 7, 5⟩ 1000 (by simp [SyncMap.Load, List.lookup]) (by norm_num)

end tcache

namespace promclient

/-- C5: for every wrapped implementation and every input, each of
`LabelValues`, `Query`, `QueryRange`, `Series` and `GetValue` of
`IgnoreErrorAPI` returns a nil error together with exactly the value the
wrapped implementation returned, whatever error the wrapped call returned. -/
theorem ignoreError_returns_value_nil_error {Ctx V : Type} (n : IgnoreErrorAPI Ctx V)
    (ctx : Ctx) :
    (∀ label, n.LabelValues ctx label = ((n.API.LabelValues ctx label).1, none)) ∧
    (∀ query ts, n.Query ctx query ts = ((n.API.Query ctx query ts).1, none)) ∧
    (∀ query r, n.QueryRange ctx query r = ((n.API.QueryRange ctx query r).1, none)) ∧
    (∀ ms s e, n.Series ctx ms s e = ((n.API.Series ctx ms s e).1, none)) ∧
    (∀ s e ms, n.GetValue ctx s e ms = ((n.API.GetValue ctx s e ms).1, none)) := by
  refine ⟨fun _ => rfl, fun _ _ => rfl, fun _ _ => rfl, fun _ _ _ => rfl, fun _ _ _ => rfl⟩

end promclient

namespace proxystorage

open promql

theorem foldl_absorb_bad (L : List Int) (d : Int) :
    L.foldl absorb (true, d, true) = (true, d, true) := by
  induction L with
  | nil => rfl
  | cons x L ih => simpa [List.foldl_cons, absorb] using ih

theorem foldl_absorb_found (L : List Int) (d : Int) (b : Bool) :
    L.foldl absorb (true, d, b) = (true, d, b || L.any (fun x => decide (x ≠ d))) := by
  induction L generalizing b with
  | nil => simp
  | cons x L ih =>
    rw [List.foldl_cons]
    have : absorb (true, d, b) x = (true, d, b || decide (x ≠ d)) := by simp [absorb]
    rw [this, ih]
    simp [Bool.or_assoc]

theorem view_bad (o : OffsetFinder) (h : o.Sound) (he : o.Error ≠ none) :
    o.view = (true, o.Offset, true) := by
  have hf := h he
  cases hE : o.Error with
  | none => exact absurd hE he
  | some e => simp [OffsetFinder.view, hf, hE]

theorem selector_view (o : OffsetFinder) (d : Int) :
    (o.selector d).view = absorb o.view d := by
  unfold OffsetFinder.selector absorb OffsetFinder.view
  cases hF : o.Found
  · simp
  · by_cases hd : d = o.Offset
    · simp [hd, hF]
    · simp [hd, hF]

theorem selector_sound (o : OffsetFinder) (d : Int) (h : o.Sound) : (o.selector d).Sound := by
  unfold OffsetFinder.selector
  cases hF : o.Found
  · intro _
    simp
  · by_cases hd : d = o.Offset
    · simpa [hd] using h
    · intro _
      simp [hd, hF]

theorem finder_visit_state (o : OffsetFinder) (node : Option Node) :
    (o.Visit node).state = o.switch node := by
  unfold OffsetFinder.Visit
  by_cases h : (o.switch node).Error = none <;> simp [h]

theorem finder_visit_err (o : OffsetFinder) (node : Option Node) :
    (o.Visit node).err = none ∧ (o.Visit node).setOffset = none ∧
      ((o.Visit node).cont = true ↔ (o.Visit node).state.Error = none) := by
  unfold OffsetFinder.Visit
  by_cases h : (o.switch node).Error = none <;> simp [h]

theorem finder_visit_nil (o : OffsetFinder) : (o.Visit none).state = o := by
  rw [finder_visit_state]
  rfl

theorem enter_finder (s : OffsetFinder) (node : Node)
    (children : OffsetFinder → Node → WalkResult OffsetFinder proxystorage.Error)
    (own rest : List Int)
    (hown : (s.Visit (some node)).state.view = own.foldl absorb s.view)
    (hsound : (s.Visit (some node)).state.Sound)
    (hc : ∀ s₁ n₁, s₁.Sound →
      FinderWalk s₁ rest (children s₁ n₁).state (children s₁ n₁).err) :
    FinderWalk s (own ++ rest) (enter OffsetFinder.Visit s node children).state
      (enter OffsetFinder.Visit s node children).err := by
  obtain ⟨herr, -, hcont⟩ := finder_visit_err s (some node)
  unfold enter
  simp only [herr, Option.isSome_none, Bool.or_false]
  by_cases hE : (s.Visit (some node)).state.Error = none
  · have hct : (s.Visit (some node)).cont = true := hcont.mpr hE
    obtain ⟨hv, hs', he'⟩ := hc (s.Visit (some node)).state
      (assignOffset (s.Visit (some node)).setOffset node) hsound
    simp only [hct, Bool.not_true, Bool.false_eq_true, if_false, he', Option.isSome_none]
    refine ⟨?_, ?_, (finder_visit_err _ none).1⟩
    · rw [finder_visit_nil, hv, hown, List.foldl_append]
    · rw [finder_visit_nil]
      exact hs'
  · have hct : (s.Visit (some node)).cont = false := by
      cases h : (s.Visit (some node)).cont
      · rfl
      · exact absurd (hcont.mp h) hE
    simp only [hct, Bool.not_false, if_true]
    refine ⟨?_, hsound, rfl⟩
    rw [List.foldl_append, ← hown, view_bad _ hsound hE, foldl_absorb_bad]

theorem visit_state_vector (s : OffsetFinder) (n : String) (d : Int) :
    (s.Visit (some (.VectorSelector n d))).state = s.selector d := by
  rw [finder_visit_state]
  rfl

theorem visit_state_matrix (s : OffsetFinder) (n : String) (r d : Int) :
    (s.Visit (some (.MatrixSelector n r d))).state = s.selector d := by
  rw [finder_visit_state]
  rfl

theorem finder_other (s : OffsetFinder) (node : Node) (hnode : s.switch (some node) = s)
    (h : s.Sound) :
    (s.Visit (some node)).state.view = ([] : List Int).foldl absorb s.view ∧
      (s.Visit (some node)).state.Sound := by
  rw [finder_visit_state, hnode]
  exact ⟨rfl, h⟩

mutual
theorem walk_finder : ∀ (t : Node) (s : OffsetFinder), s.Sound →
    FinderWalk s (selectorOffsets t) (Walk OffsetFinder.Visit s t).state
      (Walk OffsetFinder.Visit s t).err
  | .VectorSelector n d, s, h => by
    rw [Walk, selectorOffsets]
    exact enter_finder s _ _ [d] []
      (by rw [visit_state_vector]; exact selector_view s d)
      (by rw [visit_state_vector]; exact selector_sound s d h)
      (fun s₁ _ h₁ => ⟨rfl, h₁, rfl⟩)
  | .MatrixSelector n r d, s, h => by
    rw [Walk, selectorOffsets]
    exact enter_finder s _ _ [d] []
      (by rw [visit_state_matrix]; exact selector_view s d)
      (by rw [visit_state_matrix]; exact selector_sound s d h)
      (fun s₁ _ h₁ => ⟨rfl, h₁, rfl⟩)
  | .NumberLiteral x, s, h => by
    rw [Walk, selectorOffsets]
    exact enter_finder s _ _ [] [] (finder_other s (.NumberLiteral x) rfl h).1 (finder_other s (.NumberLiteral x) rfl h).2
      (fun s₁ _ h₁ => ⟨rfl, h₁, rfl⟩)
  | .StringLiteral x, s, h => by
    rw [Walk, selectorOffsets]
    exact enter_finder s _ _ [] [] (finder_other s (.StringLiteral x) rfl h).1 (finder_other s (.StringLiteral x) rfl h).2
      (fun s₁ _ h₁ => ⟨rfl, h₁, rfl⟩)
  | .ParenExpr e, s, h => by
    rw [Walk, selectorOffsets]
    exact enter_finder s _ _ [] (selectorOffsets e) (finder_other s (.ParenExpr e) rfl h).1
      (finder_other s (.ParenExpr e) rfl h).2 (fun s₁ _ h₁ => walk_finder e s₁ h₁)
  | .UnaryExpr op e, s, h => by
    rw [Walk, selectorOffsets]
    exact enter_finder s _ _ [] (selectorOffsets e) (finder_other s (.UnaryExpr op e) rfl h).1
      (finder_other s (.UnaryExpr op e) rfl h).2 (fun s₁ _ h₁ => walk_finder e s₁ h₁)
  | .AggregateExpr op e p, s, h => by
    rw [Walk, selectorOffsets]
    refine enter_finder s _ _ [] (selectorOffsetsParam p ++ selectorOffsets e)
      (finder_other s (.AggregateExpr op e p) rfl h).1
      (finder_other s (.AggregateExpr op e p) rfl h).2 (fun s₁ _ h₁ => ?_)
    obtain ⟨hv, hs, he⟩ := walkParam_finder p s₁ h₁
    obtain ⟨hv', hs', he'⟩ := walk_finder e (WalkParam OffsetFinder.Visit s₁ p).state hs
    simp only [he, Option.isSome_none, Bool.false_eq_true, if_false]
    exact ⟨by rw [hv', hv, List.foldl_append], hs', he'⟩
  | .SubqueryExpr e rg o st, s, h => by
    rw [Walk, selectorOffsets]
    exact enter_finder s _ _ [] (selectorOffsets e) (finder_other s (.SubqueryExpr e rg o st) rfl h).1
      (finder_other s (.SubqueryExpr e rg o st) rfl h).2 (fun s₁ _ h₁ => walk_finder e s₁ h₁)
  | .BinaryExpr op l r, s, h => by
    rw [Walk, selectorOffsets]
    refine enter_finder s _ _ [] (selectorOffsets l ++ selectorOffsets r)
      (finder_other s (.BinaryExpr op l r) rfl h).1 (finder_other s (.BinaryExpr op l r) rfl h).2 (fun s₁ _ h₁ => ?_)
    obtain ⟨hv, hs, he⟩ := walk_finder l s₁ h₁
    obtain ⟨hv', hs', he'⟩ := walk_finder r (Walk OffsetFinder.Visit s₁ l).state hs
    simp only [he, Option.isSome_none, Bool.false_eq_true, if_false]
    exact ⟨by rw [hv', hv, List.foldl_append], hs', he'⟩
  | .Call f args, s, h => by
    rw [Walk, selectorOffsets]
    refine enter_finder s _ _ [] (selectorOffsetsList args)
      (finder_other s (.Call f args) rfl h).1 (finder_other s (.Call f args) rfl h).2 (fun s₁ _ h₁ => ?_)
    exact enter_finder s₁ _ _ [] (selectorOffsetsList args)
      (finder_other s₁ (.Expressions args) rfl h₁).1 (finder_other s₁ (.Expressions args) rfl h₁).2
      (fun s₂ _ h₂ => walkList_finder args s₂ h₂)
  | .Expressions es, s, h => by
    rw [Walk, selectorOffsets]
    exact enter_finder s _ _ [] (selectorOffsetsList es)
      (finder_other s (.Expressions es) rfl h).1 (finder_other s (.Expressions es) rfl h).2
      (fun s₁ _ h₁ => walkList_finder es s₁ h₁)
theorem walkParam_finder : ∀ (p : Option Node) (s : OffsetFinder), s.Sound →
    FinderWalk s (selectorOffsetsParam p) (WalkParam OffsetFinder.Visit s p).state
      (WalkParam OffsetFinder.Visit s p).err
  | none, s, h => by
    rw [WalkParam, selectorOffsetsParam]
    exact ⟨rfl, h, rfl⟩
  | some p, s, h => by
    rw [WalkParam, selectorOffsetsParam]
    exact walk_finder p s h
theorem walkList_finder : ∀ (ts : List Node) (s : OffsetFinder), s.Sound →
    FinderWalk s (selectorOffsetsList ts) (WalkList OffsetFinder.Visit s ts).state
      (WalkList OffsetFinder.Visit s ts).err
  | [], s, h => by
    rw [WalkList, selectorOffsetsList]
    exact ⟨rfl, h, rfl⟩
  | e :: es, s, h => by
    rw [WalkList, selectorOffsetsList]
    obtain ⟨hv, hs, he⟩ := walk_finder e s h
    obtain ⟨hv', hs', he'⟩ := walkList_finder es (Walk OffsetFinder.Visit s e).state hs
    simp only [he, Option.isSome_none, Bool.false_eq_true, if_false]
    exact ⟨by rw [hv', hv, List.foldl_append], hs', he'⟩
end

theorem view_fresh_walk (L : List Int) :
    L.foldl absorb (false, 0, false) =
      match L with
      | [] => (false, 0, false)
      | d :: rest => (true, d, rest.any (fun x => decide (x ≠ d))) := by
  cases L with
  | nil => rfl
  | cons d rest =>
    have : absorb (false, 0, false) d = (true, d, false) := by simp [absorb]
    rw [List.foldl_cons, this, foldl_absorb_found]
    simp

/-- C6: after a complete walk of a query tree with a fresh `OffsetFinder`, the
recorded `Error` is nil if and only if all `VectorSelector` and `MatrixSelector`
nodes of the tree have the same offset, those below the parameter of an
aggregation included; when the tree has a selector, `Found` is true and
`Offset` is the offset of the first selector in pre-order; the walk itself
returns no error. In particular no error is recorded for
`sum(rate(a[1m] offset 5s)) + b offset 5s` and one is recorded for
`sum(rate(a[1m] offset 5s)) + b offset 10s`; and in
`topk(scalar(a offset 10s), b offset 5s)` the parameter is walked first: the
finder ends with `Offset` 10s and the error of the mismatch of 5s with it. -/
theorem offsetFinder_walk (t : Node) :
    ((Walk OffsetFinder.Visit ⟨false, 0, none⟩ t).state.Error = none ↔
      ∀ a ∈ selectorOffsets t, ∀ b ∈ selectorOffsets t, a = b) ∧
    (∀ d rest, selectorOffsets t = d :: rest →
      (Walk OffsetFinder.Visit ⟨false, 0, none⟩ t).state.Found = true ∧
      (Walk OffsetFinder.Visit ⟨false, 0, none⟩ t).state.Offset = d) ∧
    (Walk OffsetFinder.Visit ⟨false, 0, none⟩ t).err = none ∧
    (Walk OffsetFinder.Visit ⟨false, 0, none⟩ sameOffsets).state.Error = none ∧
    (Walk OffsetFinder.Visit ⟨false, 0, none⟩ mixedOffsets).state.Error ≠ none ∧
    selectorOffsets paramOffsets = [10 * second, 5 * second] ∧
    (Walk OffsetFinder.Visit ⟨false, 0, none⟩ paramOffsets).state =
      ⟨true, 10 * second, some (.mismatchedOffsets (5 * second) (10 * second))⟩ := by
  obtain ⟨hv, -, he⟩ := walk_finder t ⟨false, 0, none⟩ (fun h => absurd rfl h)
  have hfresh : (⟨false, 0, none⟩ : OffsetFinder).view = (false, 0, false) := rfl
  rw [hfresh, view_fresh_walk] at hv
  refine ⟨?_, ?_, he, by decide, by decide, by decide, by decide⟩
  · cases hL : selectorOffsets t with
    | nil =>
      rw [hL] at hv
      have h3 : (Walk OffsetFinder.Visit ⟨false, 0, none⟩ t).state.Error.isSome = false :=
        congrArg (fun x => x.2.2) hv
      simpa using h3
    | cons d rest =>
      rw [hL] at hv
      have h3 : (Walk OffsetFinder.Visit ⟨false, 0, none⟩ t).state.Error.isSome =
          rest.any (fun x => decide (x ≠ d)) := congrArg (fun x => x.2.2) hv
      constructor
      · intro hnone
        rw [hnone] at h3
        have hall : ∀ x ∈ rest, x = d := by
          intro x hx
          by_contra hne
          have : rest.any (fun x => decide (x ≠ d)) = true :=
            List.any_eq_true.mpr ⟨x, hx, by simpa using hne⟩
          rw [← h3] at this
          simp at this
        have hall' : ∀ x ∈ d :: rest, x = d := by
          intro x hx
          rcases List.mem_cons.mp hx with h | h
          · exact h
          · exact hall x h
        intro a ha b hb
        rw [hall' a ha, hall' b hb]
      · intro hall
        have : rest.any (fun x => decide (x ≠ d)) = false := by
          rw [List.any_eq_false]
          intro x hx
          have := hall x (List.mem_cons_of_mem _ hx) d (List.mem_cons_self _ _)
          simp [this]
        rw [this] at h3
        simpa using h3
  · intro d rest hL
    rw [hL] at hv
    exact ⟨congrArg (fun x => x.1) hv, congrArg (fun x => x.2.1) hv⟩

/-- Witness of `offsetFinder_walk`: in `sum(rate(a[1m] offset 5s)) + b offset 10s`
the first selector in pre-order has offset 5s, which is what the finder holds. -/
theorem offsetFinder_walk_witness :
    (Walk OffsetFinder.Visit ⟨false, 0, none⟩ mixedOffsets).state.Found = true ∧
      (Walk OffsetFinder.Visit ⟨false, 0, none⟩ mixedOffsets).state.Offset = 5 * second :=
  (offsetFinder_walk mixedOffsets).2.1 (5 * second) [10 * second] (by decide)

theorem remover_leaf (s : OffsetRemover) (node : Node) (hnode : zeroOffsets node = 
    assignOffset (s.Visit (some node)).setOffset node) :
    enter OffsetRemover.Visit s node (fun s' n' => ⟨s', n', none⟩) =
      ⟨s, zeroOffsets node, none⟩ := by
  unfold enter
  rw [hnode]
  cases node <;> rfl

theorem remover_inner (s : OffsetRemover) (node node' : Node)
    (children : OffsetRemover → Node → WalkResult OffsetRemover proxystorage.Error)
    (hvisit : s.Visit (some node) = ⟨s, none, true, none⟩)
    (hc : ∀ n₁, children s n₁ = ⟨s, node', none⟩) :
    enter OffsetRemover.Visit s node children = ⟨s, node', none⟩ := by
  unfold enter
  simp only [hvisit, hc]
  rfl

mutual
theorem walk_remover : ∀ (t : Node) (s : OffsetRemover),
    Walk OffsetRemover.Visit s t = ⟨s, zeroOffsets t, none⟩
  | .VectorSelector n d, s => by
    rw [Walk]
    exact remover_leaf s _ rfl
  | .MatrixSelector n r d, s => by
    rw [Walk]
    exact remover_leaf s _ rfl
  | .NumberLiteral x, s => by
    rw [Walk]
    exact remover_leaf s _ rfl
  | .StringLiteral x, s => by
    rw [Walk]
    exact remover_leaf s _ rfl
  | .ParenExpr e, s => by
    rw [Walk, zeroOffsets]
    exact remover_inner s _ _ _ rfl (fun _ => by simp only [walk_remover e s])
  | .UnaryExpr op e, s => by
    rw [Walk, zeroOffsets]
    exact remover_inner s _ _ _ rfl (fun _ => by simp only [walk_remover e s])
  | .AggregateExpr op e p, s => by
    rw [Walk, zeroOffsets]
    exact remover_inner s _ _ _ rfl
      (fun _ => by simp only [walkParam_remover p s, walk_remover e s]; rfl)
  | .SubqueryExpr e rg o st, s => by
    rw [Walk, zeroOffsets]
    exact remover_inner s _ _ _ rfl (fun _ => by simp only [walk_remover e s])
  | .BinaryExpr op l r, s => by
    rw [Walk, zeroOffsets]
    exact remover_inner s _ _ _ rfl
      (fun _ => by simp only [walk_remover l s, walk_remover r s]; rfl)
  | .Call f args, s => by
    rw [Walk, zeroOffsets]
    refine remover_inner s _ _ _ rfl (fun _ => ?_)
    rw [remover_inner s (.Expressions args) (.Expressions (zeroOffsetsList args)) _ rfl
      (fun _ => by simp only [walkList_remover args s])]
    rfl
  | .Expressions es, s => by
    rw [Walk, zeroOffsets]
    exact remover_inner s _ _ _ rfl (fun _ => by simp only [walkList_remover es s])
theorem walkParam_remover : ∀ (p : Option Node) (s : OffsetRemover),
    WalkParam OffsetRemover.Visit s p = ⟨s, zeroOffsetsParam p, none⟩
  | none, s => by
    rw [WalkParam, zeroOffsetsParam]
  | some p, s => by
    rw [WalkParam, zeroOffsetsParam]
    simp only [walk_remover p s]
theorem walkList_remover : ∀ (ts : List Node) (s : OffsetRemover),
    WalkList OffsetRemover.Visit s ts = ⟨s, zeroOffsetsList ts, none⟩
  | [], s => by
    rw [WalkList, zeroOffsetsList]
  | e :: es, s => by
    rw [WalkList, zeroOffsetsList]
    simp only [walk_remover e s, walkList_remover es s]
    rfl
end

mutual
theorem zeroOffsets_idem : ∀ t : Node, zeroOffsets (zeroOffsets t) = zeroOffsets t
  | .VectorSelector _ _ => rfl
  | .MatrixSelector _ _ _ => rfl
  | .NumberLiteral _ => rfl
  | .StringLiteral _ => rfl
  | .ParenExpr e => by simp only [zeroOffsets, zeroOffsets_idem e]
  | .UnaryExpr _ e => by simp only [zeroOffsets, zeroOffsets_idem e]
  | .AggregateExpr _ e p => by
    simp only [zeroOffsets, zeroOffsets_idem e, zeroOffsetsParam_idem p]
  | .SubqueryExpr e _ _ _ => by simp only [zeroOffsets, zeroOffsets_idem e]
  | .BinaryExpr _ l r => by simp only [zeroOffsets, zeroOffsets_idem l, zeroOffsets_idem r]
  | .Call _ args => by simp only [zeroOffsets, zeroOffsetsList_idem args]
  | .Expressions es => by simp only [zeroOffsets, zeroOffsetsList_idem es]
theorem zeroOffsetsParam_idem : ∀ p : Option Node,
    zeroOffsetsParam (zeroOffsetsParam p) = zeroOffsetsParam p
  | none => rfl
  | some p => by simp only [zeroOffsetsParam, zeroOffsets_idem p]
theorem zeroOffsetsList_idem : ∀ ts : List Node,
    zeroOffsetsList (zeroOffsetsList ts) = zeroOffsetsList ts
  | [] => rfl
  | e :: es => by simp only [zeroOffsetsList, zeroOffsets_idem e, zeroOffsetsList_idem es]
end

mutual
theorem selectorOffsets_zero : ∀ t : Node, ∀ d ∈ selectorOffsets (zeroOffsets t), d = 0
  | .VectorSelector _ _ => by simp [zeroOffsets, selectorOffsets]
  | .MatrixSelector _ _ _ => by simp [zeroOffsets, selectorOffsets]
  | .NumberLiteral _ => by simp [zeroOffsets, selectorOffsets]
  | .StringLiteral _ => by simp [zeroOffsets, selectorOffsets]
  | .ParenExpr e => by simpa only [zeroOffsets, selectorOffsets] using selectorOffsets_zero e
  | .UnaryExpr _ e => by simpa only [zeroOffsets, selectorOffsets] using selectorOffsets_zero e
  | .AggregateExpr _ e p => by
    intro d hd
    simp only [zeroOffsets, selectorOffsets, List.mem_append] at hd
    rcases hd with h | h
    · exact selectorOffsetsParam_zero p d h
    · exact selectorOffsets_zero e d h
  | .SubqueryExpr e _ _ _ => by
    simpa only [zeroOffsets, selectorOffsets] using selectorOffsets_zero e
  | .BinaryExpr _ l r => by
    intro d hd
    simp only [zeroOffsets, selectorOffsets, List.mem_append] at hd
    rcases hd with h | h
    · exact selectorOffsets_zero l d h
    · exact selectorOffsets_zero r d h
  | .Call _ args => by
    simpa only [zeroOffsets, selectorOffsets] using selectorOffsetsList_zero args
  | .Expressions es => by
    simpa only [zeroOffsets, selectorOffsets] using selectorOffsetsList_zero es
theorem selectorOffsetsParam_zero : ∀ p : Option Node,
    ∀ d ∈ selectorOffsetsParam (zeroOffsetsParam p), d = 0
  | none => by simp [zeroOffsetsParam, selectorOffsetsParam]
  | some p => by
    simpa only [zeroOffsetsParam, selectorOffsetsParam] using selectorOffsets_zero p
theorem selectorOffsetsList_zero : ∀ ts : List Node,
    ∀ d ∈ selectorOffsetsList (zeroOffsetsList ts), d = 0
  | [] => by simp [zeroOffsetsList, selectorOffsetsList]
  | e :: es => by
    intro d hd
    simp only [zeroOffsetsList, selectorOffsetsList, List.mem_append] at hd
    rcases hd with h | h
    · exact selectorOffsets_zero e d h
    · exact selectorOffsetsList_zero es d h
end

/-- C7: walking a query tree with `OffsetRemover` returns no error and leaves
the tree `zeroOffsets t`: every `VectorSelector` and `MatrixSelector` node has
offset 0, those below the parameter of an aggregation included, and nothing
else is changed; walking the result a second time leaves it exactly as after
the first walk. In particular the selector offsets of 5s in
`sum(rate(a[1m] offset 5s)) + b offset 5s` become 0s, and
`topk(scalar(a offset 10s), b offset 5s)` becomes `topk(scalar(a), b)`. -/
theorem offsetRemover_walk (t : Node) :
    (Walk OffsetRemover.Visit ⟨⟩ t).err = none ∧
    (Walk OffsetRemover.Visit ⟨⟩ t).node = zeroOffsets t ∧
    (∀ d ∈ selectorOffsets (Walk OffsetRemover.Visit ⟨⟩ t).node, d = 0) ∧
    (Walk OffsetRemover.Visit ⟨⟩ (Walk OffsetRemover.Visit ⟨⟩ t).node).node =
      (Walk OffsetRemover.Visit ⟨⟩ t).node ∧
    (Walk OffsetRemover.Visit ⟨⟩ (Walk OffsetRemover.Visit ⟨⟩ t).node).err = none ∧
    selectorOffsets sameOffsets = [5 * second, 5 * second] ∧
    selectorOffsets (Walk OffsetRemover.Visit ⟨⟩ sameOffsets).node = [0, 0] ∧
    (Walk OffsetRemover.Visit ⟨⟩ paramOffsets).node =
      .AggregateExpr "topk" (.VectorSelector "b" 0)
        (some (.Call "scalar" [.VectorSelector "a" 0])) := by
  rw [walk_remover, walk_remover]
  exact ⟨rfl, rfl, selectorOffsets_zero t, zeroOffsets_idem t, rfl, by decide, by decide, rfl⟩

end proxystorage

namespace float64

theorem roundHalfEven_cases (n d : Nat) :
    (roundHalfEven n d = n / d ∧ 2 * (n % d) ≤ d) ∨
      (roundHalfEven n d = n / d + 1 ∧ d ≤ 2 * (n % d)) := by
  unfold roundHalfEven
  simp only
  split_ifs with h1 h2 h3
  · exact Or.inl ⟨rfl, h1.le⟩
  · exact Or.inr ⟨rfl, h2.le⟩
  · exact Or.inl ⟨rfl, by omega⟩
  · exact Or.inr ⟨rfl, by omega⟩

theorem roundHalfEven_ge (n d K : Nat) (hd : 0 < d) (h : K * d ≤ n) :
    K ≤ roundHalfEven n d := by
  have hq : K ≤ n / d := (Nat.le_div_iff_mul_le hd).mpr h
  rcases roundHalfEven_cases n d with ⟨h1, -⟩ | ⟨h1, -⟩ <;> omega

theorem roundHalfEven_lt (n d K : Nat) (hd : 0 < d) (h : 2 * n + d < 2 * (K * d)) :
    roundHalfEven n d < K := by
  have hdm := Nat.div_add_mod n d
  rcases roundHalfEven_cases n d with ⟨h1, h2⟩ | ⟨h1, h2⟩
  · rw [h1]
    by_contra hc
    have hK : K ≤ n / d := Nat.le_of_not_lt hc
    have : K * d ≤ n / d * d := Nat.mul_le_mul_right d hK
    have h3 : n / d * d ≤ n := Nat.div_mul_le_self n d
    omega
  · rw [h1]
    by_contra hc
    have hK : K ≤ n / d + 1 := Nat.le_of_not_lt hc
    have : K * d ≤ (n / d + 1) * d := Nat.mul_le_mul_right d hK
    have h3 : (n / d + 1) * d = d * (n / d) + d := by ring
    omega

theorem roundHalfEven_exact (K d : Nat) (hd : 0 < d) : roundHalfEven (K * d) d = K := by
  unfold roundHalfEven
  simp [Nat.mul_mod_left, Nat.mul_div_cancel _ hd, hd]

theorem two_zpow_split (k : ℤ) :
    (2 : ℚ) ^ k = (2 : ℚ) ^ k.toNat / (2 : ℚ) ^ (-k).toNat := by
  rcases le_total 0 k with h | h
  · have h1 : (-k).toNat = 0 := Int.toNat_eq_zero.mpr (by omega)
    rw [h1, pow_zero, div_one, ← zpow_natCast, Int.toNat_of_nonneg h]
  · have h1 : k.toNat = 0 := Int.toNat_eq_zero.mpr h
    have h2 : ((-k).toNat : ℤ) = -k := Int.toNat_of_nonneg (by omega)
    rw [h1, pow_zero, one_div, ← zpow_natCast, h2, zpow_neg, inv_inv]

theorem scaled_ratio (n d : Nat) (sh : ℤ) :
    ((n * 2 ^ sh.toNat : ℕ) : ℚ) / ((d * 2 ^ (-sh).toNat : ℕ) : ℚ) =
      (n : ℚ) / d * (2 : ℚ) ^ sh := by
  rw [two_zpow_split sh]
  push_cast
  by_cases hd : (d : ℚ) = 0
  · simp [hd]
  · field_simp

theorem log2Aux_eq (fuel n : Nat) (h : n ≤ fuel) : log2Aux fuel n = Nat.log 2 n := by
  induction fuel generalizing n with
  | zero =>
    have : n = 0 := by omega
    subst this
    simp [log2Aux]
  | succ f ih =>
    unfold log2Aux
    split_ifs with h2
    · exact (Nat.log_of_lt h2).symm
    · have h3 : Nat.log 2 n = Nat.log 2 (n / 2) + 1 :=
        Nat.log_of_one_lt_of_le (by norm_num) (by omega)
      rw [h3, ih (n / 2) (by omega)]

theorem log2_self_le (n : Nat) (hn : n ≠ 0) : 2 ^ log2 n ≤ n := by
  unfold log2
  rw [log2Aux_eq n n le_rfl]
  exact Nat.pow_log_le_self 2 hn

theorem lt_log2_self (n : Nat) : n < 2 ^ (log2 n + 1) := by
  unfold log2
  rw [log2Aux_eq n n le_rfl]
  exact Nat.lt_pow_succ_log_self (by norm_num) n

theorem ilog2_spec (n d : Nat) (hn : 0 < n) (hd : 0 < d) :
    (2 : ℚ) ^ (ilog2 n d) ≤ (n : ℚ) / d ∧ (n : ℚ) / d < (2 : ℚ) ^ (ilog2 n d + 1) := by
  have hdq : (0 : ℚ) < d := by exact_mod_cast hd
  have ha1 : ((2 : ℚ) ^ (log2 n : ℤ)) ≤ n := by
    rw [zpow_natCast]
    exact_mod_cast log2_self_le n hn.ne'
  have ha2 : (n : ℚ) < (2 : ℚ) ^ ((log2 n : ℤ) + 1) := by
    have : n < 2 ^ (log2 n + 1) := lt_log2_self n
    have h' : (n : ℚ) < (2 : ℚ) ^ (log2 n + 1) := by exact_mod_cast this
    rwa [← zpow_natCast, Nat.cast_add, Nat.cast_one] at h'
  have hb1 : ((2 : ℚ) ^ (log2 d : ℤ)) ≤ d := by
    rw [zpow_natCast]
    exact_mod_cast log2_self_le d hd.ne'
  have hb2 : (d : ℚ) < (2 : ℚ) ^ ((log2 d : ℤ) + 1) := by
    have : d < 2 ^ (log2 d + 1) := lt_log2_self d
    have h' : (d : ℚ) < (2 : ℚ) ^ (log2 d + 1) := by exact_mod_cast this
    rwa [← zpow_natCast, Nat.cast_add, Nat.cast_one] at h'
  have h2 : (2 : ℚ) ≠ 0 := two_ne_zero
  have hpos : ∀ k : ℤ, (0 : ℚ) < (2 : ℚ) ^ k := fun k => zpow_pos (by norm_num) k
  -- the test of `ilog2` decides whether `2 ^ c ≤ n / d`
  have htest : ∀ c : ℤ, (d * 2 ^ c.toNat ≤ n * 2 ^ (-c).toNat) ↔ (2 : ℚ) ^ c ≤ (n : ℚ) / d := by
    intro c
    rw [two_zpow_split c, div_le_div_iff₀ (by positivity) hdq]
    constructor
    · intro h
      have : ((d * 2 ^ c.toNat : ℕ) : ℚ) ≤ ((n * 2 ^ (-c).toNat : ℕ) : ℚ) := by exact_mod_cast h
      push_cast at this
      linarith
    · intro h
      have : ((d * 2 ^ c.toNat : ℕ) : ℚ) ≤ ((n * 2 ^ (-c).toNat : ℕ) : ℚ) := by
        push_cast
        linarith
      exact_mod_cast this
  unfold ilog2
  simp only
  split_ifs with hc
  · refine ⟨(htest _).mp hc, ?_⟩
    rw [div_lt_iff₀ hdq]
    calc (n : ℚ) < (2 : ℚ) ^ ((log2 n : ℤ) + 1) := ha2
      _ = (2 : ℚ) ^ ((log2 n : ℤ) - (log2 d : ℤ) + 1) * (2 : ℚ) ^ (log2 d : ℤ) := by
          rw [← zpow_add₀ h2]
          congr 1
          ring
      _ ≤ (2 : ℚ) ^ ((log2 n : ℤ) - (log2 d : ℤ) + 1) * d :=
          mul_le_mul_of_nonneg_left hb1 (hpos _).le
  · refine ⟨?_, ?_⟩
    · rw [le_div_iff₀ hdq]
      calc (2 : ℚ) ^ ((log2 n : ℤ) - (log2 d : ℤ) - 1) * d
          ≤ (2 : ℚ) ^ ((log2 n : ℤ) - (log2 d : ℤ) - 1) *
              (2 : ℚ) ^ ((log2 d : ℤ) + 1) :=
            mul_le_mul_of_nonneg_left hb2.le (hpos _).le
        _ = (2 : ℚ) ^ (log2 n : ℤ) := by
            rw [← zpow_add₀ h2]
            congr 1
            ring
        _ ≤ n := ha1
    · have := (htest ((log2 n : ℤ) - (log2 d : ℤ))).not.mp hc
      rw [sub_add_cancel]
      exact not_le.mp this

/-- The shift applied by `round` to the rational `z / d`. -/
theorem val_round (z : ℤ) (d : ℕ) (hz : z ≠ 0) :
    (round z d).val = (z.sign : ℚ) *
      (roundHalfEven (z.natAbs * 2 ^ (52 - ilog2 z.natAbs d).toNat)
        (d * 2 ^ (-(52 - ilog2 z.natAbs d)).toNat) : ℕ) *
      (2 : ℚ) ^ (-(52 - ilog2 z.natAbs d)) := by
  unfold round
  rw [if_neg hz]
  simp only
  split_ifs with hm
  · rw [hm]
    unfold F64.val
    simp only
    have h2 : (2 : ℚ) ≠ 0 := two_ne_zero
    have : (1 - (52 - ilog2 z.natAbs d)) = 1 + (-(52 - ilog2 z.natAbs d)) := by ring
    rw [this, zpow_add₀ h2]
    push_cast
    ring
  · unfold F64.val
    simp only
    push_cast
    ring

theorem shift_ge (n d : ℕ) (hn : 0 < n) (hd : 0 < d) (J : ℤ)
    (h : (n : ℚ) / d < (2 : ℚ) ^ (53 - J)) : J ≤ 52 - ilog2 n d := by
  have h1 := (ilog2_spec n d hn hd).1
  have h2 : (2 : ℚ) ^ (ilog2 n d) < (2 : ℚ) ^ (53 - J) := lt_of_le_of_lt h1 h
  have h3 : ilog2 n d < 53 - J := (zpow_lt_zpow_iff_right₀ (by norm_num : (1 : ℚ) < 2)).mp h2
  omega

theorem round_ge_of (z : ℤ) (d : ℕ) (hz : 0 < z) (hd : 0 < d) (Y : ℚ) (K : ℕ)
    (hY : Y * (2 : ℚ) ^ (52 - ilog2 z.natAbs d) = K) (h : Y ≤ (z : ℚ) / d) :
    Y ≤ (round z d).val := by
  have hpos : (0 : ℚ) < (2 : ℚ) ^ (52 - ilog2 z.natAbs d) := zpow_pos (by norm_num) _
  have hD : 0 < d * 2 ^ (-(52 - ilog2 z.natAbs d)).toNat := Nat.mul_pos hd (by positivity)
  have hDq : (0 : ℚ) < ((d * 2 ^ (-(52 - ilog2 z.natAbs d)).toNat : ℕ) : ℚ) := by
    exact_mod_cast hD
  have hzabs : ((z.natAbs : ℕ) : ℚ) = z := by
    rw [Nat.cast_natAbs, abs_of_pos hz]
  have hratio := scaled_ratio z.natAbs d (52 - ilog2 z.natAbs d)
  rw [hzabs] at hratio
  have hKN : K * (d * 2 ^ (-(52 - ilog2 z.natAbs d)).toNat) ≤
      z.natAbs * 2 ^ (52 - ilog2 z.natAbs d).toNat := by
    have : (K : ℚ) ≤ ((z.natAbs * 2 ^ (52 - ilog2 z.natAbs d).toNat : ℕ) : ℚ) /
        ((d * 2 ^ (-(52 - ilog2 z.natAbs d)).toNat : ℕ) : ℚ) := by
      rw [hratio, ← hY]
      exact mul_le_mul_of_nonneg_right h hpos.le
    rw [le_div_iff₀ hDq] at this
    exact_mod_cast this
  have hm := roundHalfEven_ge _ _ K hD hKN
  rw [val_round z d hz.ne', Int.sign_eq_one_of_pos hz]
  have hmq : (K : ℚ) ≤ (roundHalfEven (z.natAbs * 2 ^ (52 - ilog2 z.natAbs d).toNat)
      (d * 2 ^ (-(52 - ilog2 z.natAbs d)).toNat) : ℕ) := by exact_mod_cast hm
  have hYK : Y = K * (2 : ℚ) ^ (-(52 - ilog2 z.natAbs d)) := by
    rw [← hY, mul_assoc, ← zpow_add₀ (two_ne_zero), add_neg_cancel, zpow_zero, mul_one]
  rw [hYK]
  push_cast
  rw [one_mul]
  exact mul_le_mul_of_nonneg_right hmq (zpow_pos (by norm_num) _).le

theorem round_lt_of (z : ℤ) (d : ℕ) (hz : 0 < z) (hd : 0 < d) (Y : ℚ) (K : ℕ)
    (hY : Y * (2 : ℚ) ^ (52 - ilog2 z.natAbs d) = K)
    (h : (z : ℚ) / d + (2 : ℚ) ^ (-(52 - ilog2 z.natAbs d) - 1) < Y) :
    (round z d).val < Y := by
  have h2 : (2 : ℚ) ≠ 0 := two_ne_zero
  have hpos : (0 : ℚ) < (2 : ℚ) ^ (52 - ilog2 z.natAbs d) := zpow_pos (by norm_num) _
  have hD : 0 < d * 2 ^ (-(52 - ilog2 z.natAbs d)).toNat := Nat.mul_pos hd (by positivity)
  have hDq : (0 : ℚ) < ((d * 2 ^ (-(52 - ilog2 z.natAbs d)).toNat : ℕ) : ℚ) := by
    exact_mod_cast hD
  have hzabs : ((z.natAbs : ℕ) : ℚ) = z := by
    rw [Nat.cast_natAbs, abs_of_pos hz]
  have hratio := scaled_ratio z.natAbs d (52 - ilog2 z.natAbs d)
  rw [hzabs] at hratio
  have hKN : 2 * (z.natAbs * 2 ^ (52 - ilog2 z.natAbs d).toNat) +
      d * 2 ^ (-(52 - ilog2 z.natAbs d)).toNat <
      2 * (K * (d * 2 ^ (-(52 - ilog2 z.natAbs d)).toNat)) := by
    have hs : ((z : ℚ) / d + (2 : ℚ) ^ (-(52 - ilog2 z.natAbs d) - 1)) *
        (2 : ℚ) ^ (52 - ilog2 z.natAbs d) < K := by
      rw [← hY]
      exact mul_lt_mul_of_pos_right h hpos
    have hhalf : (2 : ℚ) ^ (-(52 - ilog2 z.natAbs d) - 1) *
        (2 : ℚ) ^ (52 - ilog2 z.natAbs d) = 1 / 2 := by
      rw [← zpow_add₀ h2]
      have : -(52 - ilog2 z.natAbs d) - 1 + (52 - ilog2 z.natAbs d) = -1 := by ring
      rw [this]
      norm_num
    rw [add_mul, hhalf, ← hratio, div_add' _ _ _ hDq.ne', div_lt_iff₀ hDq] at hs
    have : (2 : ℚ) * ((z.natAbs * 2 ^ (52 - ilog2 z.natAbs d).toNat : ℕ) : ℚ) +
        ((d * 2 ^ (-(52 - ilog2 z.natAbs d)).toNat : ℕ) : ℚ) <
        2 * ((K : ℚ) * ((d * 2 ^ (-(52 - ilog2 z.natAbs d)).toNat : ℕ) : ℚ)) := by
      linarith
    exact_mod_cast this
  have hm := roundHalfEven_lt _ _ K hD hKN
  rw [val_round z d hz.ne', Int.sign_eq_one_of_pos hz]
  have hmq : ((roundHalfEven (z.natAbs * 2 ^ (52 - ilog2 z.natAbs d).toNat)
      (d * 2 ^ (-(52 - ilog2 z.natAbs d)).toNat) : ℕ) : ℚ) < K := by exact_mod_cast hm
  have hYK : Y = K * (2 : ℚ) ^ (-(52 - ilog2 z.natAbs d)) := by
    rw [← hY, mul_assoc, ← zpow_add₀ h2, add_neg_cancel, zpow_zero, mul_one]
  rw [hYK]
  push_cast
  rw [one_mul]
  exact mul_lt_mul_of_pos_right hmq (zpow_pos (by norm_num) _)

theorem round_exact (z : ℤ) (d : ℕ) (hz : z ≠ 0) (hd : 0 < d) (K : ℕ)
    (hK : ((z.natAbs : ℕ) : ℚ) / d * (2 : ℚ) ^ (52 - ilog2 z.natAbs d) = K) :
    (round z d).val = (z : ℚ) / d := by
  have h2 : (2 : ℚ) ≠ 0 := two_ne_zero
  have hD : 0 < d * 2 ^ (-(52 - ilog2 z.natAbs d)).toNat := Nat.mul_pos hd (by positivity)
  have hDq : (0 : ℚ) < ((d * 2 ^ (-(52 - ilog2 z.natAbs d)).toNat : ℕ) : ℚ) := by
    exact_mod_cast hD
  have hratio := scaled_ratio z.natAbs d (52 - ilog2 z.natAbs d)
  rw [hK, div_eq_iff hDq.ne'] at hratio
  have hN : z.natAbs * 2 ^ (52 - ilog2 z.natAbs d).toNat =
      K * (d * 2 ^ (-(52 - ilog2 z.natAbs d)).toNat) := by exact_mod_cast hratio
  rw [val_round z d hz, hN, roundHalfEven_exact K _ hD, ← hK]
  have hdq : (d : ℚ) ≠ 0 := by exact_mod_cast hd.ne'
  have hsign : (z : ℚ) = (z.sign : ℚ) * ((z.natAbs : ℕ) : ℚ) := by
    rw [Nat.cast_natAbs, ← Int.cast_mul, Int.sign_mul_abs]
  rw [mul_assoc, mul_assoc, ← zpow_add₀ h2, add_neg_cancel, zpow_zero, mul_one, hsign]
  ring

theorem zpow_toNat_of_nonneg (k : ℤ) (hk : 0 ≤ k) : (2 : ℚ) ^ k.toNat = (2 : ℚ) ^ k := by
  rw [← zpow_natCast, Int.toNat_of_nonneg hk]

theorem round_exact_int (z : ℤ) (d : ℕ) (hd : 0 < d) (s : ℤ) (hs : |s| < 2 ^ 53)
    (h : (z : ℚ) / d = s) : (round z d).val = s := by
  have hdq : (0 : ℚ) < d := by exact_mod_cast hd
  by_cases hz : z = 0
  · subst hz
    have : (s : ℚ) = 0 := by rw [← h]; simp
    rw [this]
    simp [round, F64.val]
  · have habs : ((z.natAbs : ℕ) : ℚ) / d = ((|s| : ℤ) : ℚ) := by
      rw [Nat.cast_natAbs, Int.cast_abs, Int.cast_abs, ← h, abs_div, abs_of_pos hdq]
    have hlt : ((z.natAbs : ℕ) : ℚ) / d < (2 : ℚ) ^ ((53 : ℤ) - 0) := by
      rw [habs]
      have : ((|s| : ℤ) : ℚ) < ((2 ^ 53 : ℤ) : ℚ) := Int.cast_lt.mpr hs
      rw [sub_zero]
      calc ((|s| : ℤ) : ℚ) < ((2 ^ 53 : ℤ) : ℚ) := this
        _ = (2 : ℚ) ^ (53 : ℤ) := by norm_num
    have hsh := shift_ge z.natAbs d (Int.natAbs_pos.mpr hz) hd 0 hlt
    rw [← h]
    refine round_exact z d hz hd (|s|.natAbs * 2 ^ (52 - ilog2 z.natAbs d).toNat) ?_
    rw [habs, ← zpow_toNat_of_nonneg _ hsh]
    have hnat : ((|s|.natAbs : ℕ) : ℚ) = ((|s| : ℤ) : ℚ) := by
      rw [Nat.cast_natAbs, abs_abs]
    rw [Nat.cast_mul, hnat]
    push_cast
    rfl

theorem ofInt_val (s : ℤ) (hs : |s| < 2 ^ 53) : (ofInt s).val = s :=
  round_exact_int s 1 one_pos s hs (by simp)

theorem div_ratio (a b : F64) (hb : 0 < b.m) :
    ((a.m * b.m.sign * 2 ^ (a.e - b.e).toNat : ℤ) : ℚ) /
      ((b.m.natAbs * 2 ^ (-(a.e - b.e)).toNat : ℕ) : ℚ) = a.val / b.val := by
  have h2 : (2 : ℚ) ≠ 0 := two_ne_zero
  have hbq : (b.m : ℚ) ≠ 0 := by exact_mod_cast hb.ne'
  have hp1 : (2 : ℚ) ^ (-(a.e - b.e)).toNat ≠ 0 := by positivity
  have hp2 : (2 : ℚ) ^ b.e ≠ 0 := zpow_ne_zero _ h2
  unfold F64.val
  rw [Int.sign_eq_one_of_pos hb]
  push_cast
  rw [Nat.cast_natAbs, abs_of_pos hb]
  have hsplit := two_zpow_split (a.e - b.e)
  have hae : (2 : ℚ) ^ a.e = (2 : ℚ) ^ (a.e - b.e) * (2 : ℚ) ^ b.e := by
    rw [← zpow_add₀ h2, sub_add_cancel]
  rw [hae, hsplit]
  field_simp
  ring

theorem add_ratio (a b : F64) :
    (((a.m * 2 ^ (a.e - min a.e b.e).toNat + b.m * 2 ^ (b.e - min a.e b.e).toNat) *
        2 ^ (min a.e b.e).toNat : ℤ) : ℚ) / ((2 ^ (-(min a.e b.e)).toNat : ℕ) : ℚ) =
      a.val + b.val := by
  have h2 : (2 : ℚ) ≠ 0 := two_ne_zero
  have ha : (0 : ℤ) ≤ a.e - min a.e b.e := by
    have := min_le_left a.e b.e
    omega
  have hb : (0 : ℤ) ≤ b.e - min a.e b.e := by
    have := min_le_right a.e b.e
    omega
  unfold F64.val
  push_cast
  rw [zpow_toNat_of_nonneg _ ha, zpow_toNat_of_nonneg _ hb, mul_div_assoc,
    ← two_zpow_split (min a.e b.e), add_mul, mul_assoc, mul_assoc, ← zpow_add₀ h2,
    ← zpow_add₀ h2, sub_add_cancel, sub_add_cancel]

theorem toInt64_floor (f : F64) (K : ℤ) (hK : 0 ≤ K) (h1 : (K : ℚ) ≤ f.val)
    (h2 : f.val < K + 1) : toInt64 f = K := by
  have hpos : ∀ k : ℤ, (0 : ℚ) < (2 : ℚ) ^ k := fun k => zpow_pos (by norm_num) k
  have hval : (0 : ℚ) ≤ f.val := le_trans (by exact_mod_cast hK) h1
  have hm : 0 ≤ f.m := by
    unfold F64.val at hval
    have := nonneg_of_mul_nonneg_left hval (hpos f.e)
    exact_mod_cast this
  unfold toInt64
  split_ifs with he
  · have hv : f.val = ((f.m * 2 ^ f.e.toNat : ℤ) : ℚ) := by
      unfold F64.val
      push_cast
      rw [zpow_toNat_of_nonneg _ he]
    rw [hv] at h1 h2
    have h1' : K ≤ f.m * 2 ^ f.e.toNat := by exact_mod_cast h1
    have h2' : f.m * 2 ^ f.e.toNat < K + 1 := by exact_mod_cast h2
    omega
  · have he' : (0 : ℤ) ≤ -f.e := by omega
    have hv : f.val = (f.m : ℚ) / ((2 ^ (-f.e).toNat : ℕ) : ℚ) := by
      unfold F64.val
      push_cast
      rw [zpow_toNat_of_nonneg _ he', zpow_neg, div_eq_mul_inv, inv_inv]
    have hfl : ⌊f.val⌋ = K := Int.floor_eq_iff.mpr ⟨h1, h2⟩
    rw [hv, Rat.floor_intCast_div_natCast] at hfl
    rw [Int.tdiv_eq_ediv hm (by positivity)]
    push_cast at hfl
    exact hfl

theorem toInt64_exact (f : F64) (s : ℤ) (h : f.val = s) : toInt64 f = s := by
  unfold toInt64
  split_ifs with he
  · have hv : f.val = ((f.m * 2 ^ f.e.toNat : ℤ) : ℚ) := by
      unfold F64.val
      push_cast
      rw [zpow_toNat_of_nonneg _ he]
    rw [hv] at h
    exact_mod_cast h
  · have he' : (0 : ℤ) ≤ -f.e := by omega
    have hp : ((2 : ℚ) ^ (-f.e).toNat) ≠ 0 := by positivity
    have hv : f.val = (f.m : ℚ) / (2 : ℚ) ^ (-f.e).toNat := by
      unfold F64.val
      rw [zpow_toNat_of_nonneg _ he', zpow_neg, div_eq_mul_inv, inv_inv]
    rw [hv, div_eq_iff hp] at h
    have hm : f.m = s * 2 ^ (-f.e).toNat := by exact_mod_cast h
    rw [hm]
    exact Int.mul_tdiv_cancel s (by positivity)

theorem add_eq_round (a b : F64) :
    add a b = round ((a.m * 2 ^ (a.e - min a.e b.e).toNat +
      b.m * 2 ^ (b.e - min a.e b.e).toNat) * 2 ^ (min a.e b.e).toNat)
      (2 ^ (-(min a.e b.e)).toNat) := rfl

theorem div_eq_round (a b : F64) :
    div a b = round (a.m * b.m.sign * 2 ^ (a.e - b.e).toNat)
      (b.m.natAbs * 2 ^ (-(a.e - b.e)).toNat) := rfl

theorem ofInt_billion : ofInt 1000000000 = ⟨8388608000000000, -23⟩ := by decide

theorem nonneg_of_ratio (z : ℤ) (d : ℕ) (hd : 0 < d) (h : (0 : ℚ) ≤ (z : ℚ) / d) : 0 ≤ z := by
  have hdq : (0 : ℚ) < d := by exact_mod_cast hd
  have := (le_div_iff₀ hdq).mp h
  rw [zero_mul] at this
  exact_mod_cast this

theorem natAbs_ratio (z : ℤ) (d : ℕ) (hz : 0 ≤ z) :
    ((z.natAbs : ℕ) : ℚ) / d = (z : ℚ) / d := by
  rw [Nat.cast_natAbs, abs_of_nonneg hz]

/-- The quotient `float64(nsec)/1e9` of `Duration.Seconds` is below one by more
than `2 ^ (-30)`. -/
theorem fraction_bounds (nsec : ℤ) (h0 : 0 ≤ nsec) (h1 : nsec < 1000000000) :
    0 ≤ (div (ofInt nsec) (ofInt 1000000000)).val ∧
      (div (ofInt nsec) (ofInt 1000000000)).val < 1 - (2 : ℚ) ^ (-30 : ℤ) := by
  have h2 : (2 : ℚ) ≠ 0 := two_ne_zero
  have hn : (ofInt nsec).val = nsec := ofInt_val nsec (by rw [abs_of_nonneg h0]; omega)
  have hc : (ofInt 1000000000).val = 1000000000 := by
    have := ofInt_val 1000000000 (by norm_num)
    simpa using this
  have hcm : 0 < (ofInt 1000000000).m := by rw [ofInt_billion]; norm_num
  have hratio := div_ratio (ofInt nsec) (ofInt 1000000000) hcm
  rw [hn, hc] at hratio
  rw [div_eq_round]
  generalize hz : (ofInt nsec).m * (ofInt 1000000000).m.sign *
    2 ^ ((ofInt nsec).e - (ofInt 1000000000).e).toNat = z at hratio
  generalize hd : (ofInt 1000000000).m.natAbs *
    2 ^ (-((ofInt nsec).e - (ofInt 1000000000).e)).toNat = d at hratio
  have hdpos : 0 < d := by
    rw [← hd]
    exact Nat.mul_pos (Int.natAbs_pos.mpr hcm.ne') (by positivity)
  have hx0 : (0 : ℚ) ≤ (z : ℚ) / d := by
    rw [hratio]
    exact div_nonneg (by exact_mod_cast h0) (by norm_num)
  have hx1 : (z : ℚ) / d ≤ 999999999 / 1000000000 := by
    rw [hratio]
    have : (nsec : ℚ) ≤ 999999999 := by
      have : nsec ≤ 999999999 := by omega
      exact_mod_cast this
    exact div_le_div_of_nonneg_right this (by norm_num)
  have hz0 : 0 ≤ z := nonneg_of_ratio z d hdpos hx0
  rcases hz0.eq_or_lt with hzz | hzpos
  · rw [← hzz]
    have : (round 0 d).val = 0 := by simp [round, F64.val]
    rw [this]
    norm_num
  · have hsh : (53 : ℤ) ≤ 52 - ilog2 z.natAbs d := by
      apply shift_ge z.natAbs d (Int.natAbs_pos.mpr hzpos.ne') hdpos
      rw [natAbs_ratio z d hz0, sub_self, zpow_zero]
      calc (z : ℚ) / d ≤ 999999999 / 1000000000 := hx1
        _ < 1 := by norm_num
    constructor
    · exact round_ge_of z d hzpos hdpos 0 0 (by simp) hx0
    · refine round_lt_of z d hzpos hdpos _
        (1073741823 * 2 ^ (52 - ilog2 z.natAbs d - 30).toNat) ?_ ?_
      · have hsplit : (2 : ℚ) ^ (52 - ilog2 z.natAbs d) =
            (2 : ℚ) ^ (30 : ℤ) * (2 : ℚ) ^ (52 - ilog2 z.natAbs d - 30) := by
          rw [← zpow_add₀ h2]
          congr 1
          ring
        rw [hsplit]
        push_cast
        rw [zpow_toNat_of_nonneg _ (by omega)]
        norm_num
        ring
      · have hsmall : (2 : ℚ) ^ (-(52 - ilog2 z.natAbs d) - 1) ≤ (2 : ℚ) ^ (-54 : ℤ) :=
          zpow_le_zpow_right₀ (by norm_num) (by omega)
        calc (z : ℚ) / d + (2 : ℚ) ^ (-(52 - ilog2 z.natAbs d) - 1)
            ≤ 999999999 / 1000000000 + (2 : ℚ) ^ (-54 : ℤ) := add_le_add hx1 hsmall
          _ < 1 - (2 : ℚ) ^ (-30 : ℤ) := by norm_num

end float64

namespace time

open float64

/-- For a duration of `s` whole seconds, `Seconds` is exactly `s`, and so is its
conversion to `int64`. -/
theorem seconds_whole (s : ℤ) (hs : |s| < 2 ^ 53) :
    toInt64 (Seconds (s * Second)) = s := by
  have hS : Second ≠ 0 := by norm_num [Second]
  have hsec : Int.tdiv (s * Second) Second = s := Int.mul_tdiv_cancel s hS
  have hnsec : Int.tmod (s * Second) Second = 0 := Int.mul_tmod_left s Second
  have hzero : div (ofInt 0) (ofInt 1000000000) = ⟨0, 0⟩ := by decide
  unfold Seconds
  simp only [hsec, hnsec, hzero]
  apply toInt64_exact
  rw [add_eq_round]
  refine round_exact_int _ _ (by positivity) s hs ?_
  rw [add_ratio, ofInt_val s hs]
  simp [F64.val]

/-- For a duration `d` of less than `2 ^ 24` seconds, the conversion of
`Seconds` to `int64` is the number of whole seconds in `d`. -/
theorem seconds_floor (d : ℤ) (h0 : 0 ≤ d) (h1 : d < 2 ^ 24 * Second) :
    toInt64 (Seconds d) = d / Second := by
  have h2 : (2 : ℚ) ≠ 0 := two_ne_zero
  have hSpos : (0 : ℤ) < Second := by norm_num [Second]
  have hsec : Int.tdiv d Second = d / Second := Int.tdiv_eq_ediv h0 hSpos.le
  have hnsec : Int.tmod d Second = d % Second := by
    rw [Int.tmod_eq_emod h0 hSpos.le]
  have hq0 : 0 ≤ d / Second := Int.ediv_nonneg h0 hSpos.le
  have hq1 : d / Second < 2 ^ 24 := by
    apply Int.ediv_lt_of_lt_mul hSpos
    exact h1
  have hr0 : 0 ≤ d % Second := Int.emod_nonneg d hSpos.ne'
  have hr1 : d % Second < 1000000000 := Int.emod_lt_of_pos d hSpos
  unfold Seconds
  simp only [hsec, hnsec]
  obtain ⟨hf0, hf1⟩ := fraction_bounds (d % Second) hr0 hr1
  generalize div (ofInt (d % Second)) (ofInt 1000000000) = F at hf0 hf1
  have hA : (ofInt (d / Second)).val = ((d / Second : ℤ) : ℚ) :=
    ofInt_val _ (by rw [abs_of_nonneg hq0]; omega)
  generalize hq : d / Second = q at hq0 hq1 hA
  have hqq0 : (0 : ℚ) ≤ (q : ℚ) := by exact_mod_cast hq0
  have hqq1 : (q : ℚ) + 1 ≤ (2 : ℚ) ^ (24 : ℤ) := by
    have : q + 1 ≤ 2 ^ 24 := by omega
    have h' : ((q + 1 : ℤ) : ℚ) ≤ ((2 ^ 24 : ℤ) : ℚ) := Int.cast_le.mpr this
    push_cast at h'
    norm_num
    linarith
  have hratio := add_ratio (ofInt q) F
  rw [hA] at hratio
  rw [add_eq_round]
  generalize hz : ((ofInt q).m * 2 ^ ((ofInt q).e - min (ofInt q).e F.e).toNat +
    F.m * 2 ^ (F.e - min (ofInt q).e F.e).toNat) * 2 ^ (min (ofInt q).e F.e).toNat = z
    at hratio
  generalize hd : 2 ^ (-(min (ofInt q).e F.e)).toNat = dd at hratio
  have hdpos : 0 < dd := by
    rw [← hd]
    positivity
  have hx0 : (0 : ℚ) ≤ (z : ℚ) / dd := by
    rw [hratio]
    linarith
  have hz0 : 0 ≤ z := nonneg_of_ratio z dd hdpos hx0
  rcases hz0.eq_or_lt with hzz | hzpos
  · -- the sum is zero: no whole second
    rw [← hzz] at hratio ⊢
    have hq0' : (q : ℚ) = 0 := by
      have : (q : ℚ) + F.val = 0 := by
        rw [← hratio]
        simp
      linarith
    have : q = 0 := by exact_mod_cast hq0'
    rw [this]
    simp [float64.round, toInt64]
  · have hsh : (29 : ℤ) ≤ 52 - ilog2 z.natAbs dd := by
      apply shift_ge z.natAbs dd (Int.natAbs_pos.mpr hzpos.ne') hdpos
      rw [natAbs_ratio z dd hz0, hratio]
      have : (2 : ℚ) ^ (-30 : ℤ) > 0 := zpow_pos (by norm_num) _
      have h24 : ((53 : ℤ) - 29) = 24 := by norm_num
      rw [h24]
      linarith
    have hshq : (2 : ℚ) ^ (52 - ilog2 z.natAbs dd).toNat = (2 : ℚ) ^ (52 - ilog2 z.natAbs dd) :=
      zpow_toNat_of_nonneg _ (by omega)
    have hqnat : ((q.toNat : ℕ) : ℚ) = (q : ℚ) := by
      have : ((q.toNat : ℕ) : ℤ) = q := Int.toNat_of_nonneg hq0
      exact_mod_cast this
    apply toInt64_floor _ q hq0
    · refine round_ge_of z dd hzpos hdpos (q : ℚ)
        (q.toNat * 2 ^ (52 - ilog2 z.natAbs dd).toNat) ?_ ?_
      · push_cast
        rw [hshq, hqnat]
      · rw [hratio]
        linarith
    · refine round_lt_of z dd hzpos hdpos ((q : ℚ) + 1)
        ((q.toNat + 1) * 2 ^ (52 - ilog2 z.natAbs dd).toNat) ?_ ?_
      · push_cast
        rw [hshq, hqnat]
      · have hsmall : (2 : ℚ) ^ (-(52 - ilog2 z.natAbs dd) - 1) ≤ (2 : ℚ) ^ (-30 : ℤ) :=
          zpow_le_zpow_right₀ (by norm_num) (by omega)
        rw [hratio]
        linarith

end time

namespace promclient

theorem ceilSeconds_eq (d : Int) :
    ceilSeconds d = if d % time.Second = 0 then d / time.Second else d / time.Second + 1 := by
  unfold ceilSeconds time.Second
  split_ifs <;> omega

theorem rangeSeconds_eq (start stop : Int) (h0 : start ≤ stop)
    (h1 : stop - start < 2 ^ 24 * time.Second) :
    rangeSeconds start stop = (stop - start) / time.Second + 1 := by
  have hsub : time.Sub stop start = stop - start := by
    unfold time.Sub
    unfold time.Second at h1
    norm_num at h1
    rw [if_neg (by omega), if_neg (by omega)]
  unfold rangeSeconds
  rw [hsub, time.seconds_floor _ (by omega) h1]
  apply wrapInt64_of_inRange
  · unfold minInt64
    have : 0 ≤ (stop - start) / time.Second :=
      Int.ediv_nonneg (by omega) (by norm_num [time.Second])
    omega
  · unfold maxInt64
    have : (stop - start) / time.Second < 2 ^ 24 :=
      Int.ediv_lt_of_lt_mul (by norm_num [time.Second]) h1
    omega

theorem getValue_eq {Ctx V : Type} (p : PromAPIV1 Ctx V) (ctx : Ctx) (start stop : Time)
    (matchers : List Matcher) (pql : String) (hconv : p.MatcherToString matchers = (pql, none)) :
    p.GetValue ctx start stop matchers =
      p.Query ctx (pql ++ rangeSelector (rangeSeconds start stop)) stop := by
  unfold PromAPIV1.GetValue PromAPIV1.Query
  rw [hconv]

set_option maxRecDepth 100000 in
/-- C8 (as stated) fails: for `end - start = 16777216.999999999s` the sum
`float64(16777216) + float64(999999999)/1e9` rounds up to `16777217.0`, so the
range selector issued is `[16777218s]`, while `floor(end - start) + 1` is
`16777217`. -/
theorem getValue_range_exceeds_floor :
    rangeSeconds 0 16777216999999999 = 16777218 ∧
    ((16777216999999999 : Int) - 0) / time.Second + 1 = 16777217 ∧
    echoClient.GetValue () 0 16777216999999999 [] =
      (some ("up[16777218s]", 16777216999999999), none) := by
  decide

/-- C8 (amended): for every start and end with end not before start and less
than `2 ^ 24` seconds after it (nanosecond precision, whole or not), and every
matcher list that converts to an expression `pql`, `GetValue` issues the query
`pql[Ns]` with `N` exactly `floor((end - start) in seconds) + 1`. -/
theorem getValue_range_floor {Ctx V : Type} (p : PromAPIV1 Ctx V) (ctx : Ctx)
    (start stop : Time) (matchers : List Matcher) (pql : String)
    (hconv : p.MatcherToString matchers = (pql, none)) (h0 : start ≤ stop)
    (h1 : stop - start < 2 ^ 24 * time.Second) :
    p.GetValue ctx start stop matchers =
      p.Query ctx (pql ++ "[" ++ toString ((stop - start) / time.Second + 1) ++ "s]") stop := by
  rw [getValue_eq p ctx start stop matchers pql hconv, rangeSeconds_eq start stop h0 h1]
  simp only [rangeSelector, String.append_assoc]

/-- Witness of `getValue_range_floor`: a range of 2.5s is fetched with `[3s]`. -/
theorem getValue_range_floor_witness :
    echoClient.GetValue () 1000000000 3500000000 [] =
      echoClient.Query () ("up" ++ "[" ++ toString ((3500000000 - 1000000000 : Int) /
        time.Second + 1) ++ "s]") 3500000000 :=
  getValue_range_floor echoClient () 1000000000 3500000000 [] "up" rfl (by decide)
    (by decide)

set_option maxRecDepth 100000 in
/-- C9 (as stated) fails: for `end - start = 1.5s` the selector issued is `[2s]`
(the float is truncated by the conversion to `int64`), while
`ceil(end - start) + 1` is 3. -/
theorem getValue_range_not_ceil :
    rangeSeconds 0 1500000000 = 2 ∧
    ceilSeconds (1500000000 - 0) + 1 = 3 ∧
    echoClient.GetValue () 0 1500000000 [] = (some ("up[2s]", 1500000000), none) := by
  decide

/-- C9 (amended): for every start and end with end not before start and less
than `2 ^ 24` seconds after it, and every matcher list that converts to an
expression, `GetValue` appends a range selector whose length in seconds is
`ceil(end - start) + 1` when `end - start` is a whole number of seconds and
`ceil(end - start)` when it is not, and issues it as an instant query evaluated
at time `end`. -/
theorem getValue_range_ceil {Ctx V : Type} (p : PromAPIV1 Ctx V) (ctx : Ctx)
    (start stop : Time) (matchers : List Matcher) (pql : String)
    (hconv : p.MatcherToString matchers = (pql, none)) (h0 : start ≤ stop)
    (h1 : stop - start < 2 ^ 24 * time.Second) :
    p.GetValue ctx start stop matchers =
      p.Query ctx (pql ++ rangeSelector
        (if (stop - start) % time.Second = 0 then ceilSeconds (stop - start) + 1
          else ceilSeconds (stop - start))) stop := by
  rw [getValue_eq p ctx start stop matchers pql hconv, rangeSeconds_eq start stop h0 h1,
    ceilSeconds_eq]
  split_ifs <;> rfl

/-- Witness of `getValue_range_ceil`: a range of 2s is fetched with `[3s]` at
the end time. -/
theorem getValue_range_ceil_witness :
    echoClient.GetValue () 1000000000 3000000000 [] =
      echoClient.Query () ("up" ++ rangeSelector
        (if ((3000000000 : Int) - 1000000000) % time.Second = 0
          then ceilSeconds (3000000000 - 1000000000) + 1
          else ceilSeconds (3000000000 - 1000000000))) 3000000000 :=
  getValue_range_ceil echoClient () 1000000000 3000000000 [] "up" rfl (by decide)
    (by decide)

end promclient

namespace servergroup

/-- C10: `GetAntiAffinity` returns the time value of 10 seconds (10000
milliseconds) when `AntiAffinity` is nil, and for every configured duration of
a whole number `s` of seconds the time value of `s` seconds (`s * 1000`
milliseconds). -/
theorem getAntiAffinity_seconds {T R H : Type} (c : Config T R H) :
    (c.AntiAffinity = none → c.GetAntiAffinity = 10 * 1000) ∧
    (∀ s : Int, minInt64 ≤ s * time.Second → s * time.Second ≤ maxInt64 →
      c.AntiAffinity = some (s * time.Second) → c.GetAntiAffinity = s * 1000) := by
  constructor
  · intro h
    unfold Config.GetAntiAffinity
    rw [h]
    decide
  · intro s hlo hhi h
    unfold minInt64 at hlo
    unfold maxInt64 at hhi
    unfold time.Second at hlo hhi
    unfold Config.GetAntiAffinity
    rw [h]
    simp only
    rw [time.seconds_whole s (by rw [abs_lt]; constructor <;> omega)]
    unfold TimeFromUnix
    apply wrapInt64_of_inRange
    · unfold minInt64
      omega
    · unfold maxInt64
      omega

/-- Witness of `getAntiAffinity_seconds`: `anti_affinity: 30s` resolves to 30
seconds, and no `anti_affinity` to 10 seconds. -/
theorem getAntiAffinity_seconds_witness :
    (⟨false, ⟨0, ()⟩, "", [], [], (), "", some (30 * time.Second), false⟩ :
        Config Unit Unit Unit).GetAntiAffinity = 30 * 1000 ∧
    (⟨false, ⟨0, ()⟩, "", [], [], (), "", none, false⟩ :
        Config Unit Unit Unit).GetAntiAffinity = 10 * 1000 :=
  ⟨(getAntiAffinity_seconds _).2 30 (by decide) (by decide) rfl,
   (getAntiAffinity_seconds _).1 rfl⟩

end servergroup

namespace servergroup

/-- C11 (as stated) fails: after a load whose input provides only
`path_prefix`, the loaded `Config` holds the empty scheme and a nil
`AntiAffinity`, not `"http"` and 10 seconds. -/
theorem load_does_not_store_defaults :
    ¬ ∀ (c : Config Unit Unit Unit)
        (unmarshal : Config Unit Unit Unit → Config Unit Unit Unit × Option promclient.Error),
        (∀ d, (unmarshal d).1.Scheme = d.Scheme ∧ (unmarshal d).1.AntiAffinity = d.AntiAffinity) →
        (c.UnmarshalYAML unmarshal).1.Scheme = "http" ∧
          (c.UnmarshalYAML unmarshal).1.AntiAffinity = some (10 * time.Second) := by
  intro h
  have h' := (h staleConfig decodePathPrefix (fun _ => ⟨rfl, rfl⟩)).1
  exact absurd h' (by decide)

/-- C11 (amended): for every load through `UnmarshalYAML` whose input provides
neither scheme nor anti_affinity (the callback leaves both fields as they
are), the loaded `Config` holds the empty scheme and a nil `AntiAffinity`; the
defaults are resolved at use time, by `GetScheme`, which returns `"http"`, and
by `GetAntiAffinity`, which returns 10 seconds. -/
theorem defaults_resolved_by_getters {T R H : Type} [Inhabited T] [Inhabited H]
    (c : Config T R H) (unmarshal : Config T R H → Config T R H × Option promclient.Error)
    (h : ∀ d, (unmarshal d).1.Scheme = d.Scheme ∧
      (unmarshal d).1.AntiAffinity = d.AntiAffinity) :
    (c.UnmarshalYAML unmarshal).1.Scheme = "" ∧
    (c.UnmarshalYAML unmarshal).1.AntiAffinity = none ∧
    (c.UnmarshalYAML unmarshal).1.GetScheme = "http" ∧
    (c.UnmarshalYAML unmarshal).1.GetAntiAffinity = 10 * 1000 := by
  obtain ⟨h1, h2⟩ := h (DefaultConfig T R H)
  have hs : (c.UnmarshalYAML unmarshal).1.Scheme = "" := h1
  have ha : (c.UnmarshalYAML unmarshal).1.AntiAffinity = none := h2
  refine ⟨hs, ha, ?_, ?_⟩
  · unfold Config.GetScheme
    rw [hs]
    rfl
  · unfold Config.GetAntiAffinity
    rw [ha]
    decide

/-- Witness of `defaults_resolved_by_getters`: the load of `path_prefix: /prom`
over a stale configuration. -/
theorem defaults_resolved_by_getters_witness :
    (staleConfig.UnmarshalYAML decodePathPrefix).1.Scheme = "" ∧
    (staleConfig.UnmarshalYAML decodePathPrefix).1.AntiAffinity = none ∧
    (staleConfig.UnmarshalYAML decodePathPrefix).1.GetScheme = "http" ∧
    (staleConfig.UnmarshalYAML decodePathPrefix).1.GetAntiAffinity = 10 * 1000 :=
  defaults_resolved_by_getters staleConfig decodePathPrefix (fun _ => ⟨rfl, rfl⟩)

/-- C12: the outcome of `UnmarshalYAML` does not depend on the contents of the
`Config` before the call, and every part of the `Config` that the unmarshal
callback leaves as it is (a field not present in the input) has afterwards its
value in `DefaultConfig`: the dial timeout of `DefaultConfig` (2000
milliseconds), and the zero value for every other field. -/
theorem unmarshal_restores_defaults {T R H : Type} [Inhabited T] [Inhabited H]
    (unmarshal : Config T R H → Config T R H × Option promclient.Error) :
    (∀ c₁ c₂ : Config T R H, c₁.UnmarshalYAML unmarshal = c₂.UnmarshalYAML unmarshal) ∧
    (∀ (c : Config T R H) (α : Type) (field : Config T R H → α),
      (∀ d, field (unmarshal d).1 = field d) →
      field (c.UnmarshalYAML unmarshal).1 = field (DefaultConfig T R H)) ∧
    (DefaultConfig T R H).HTTPConfig.DialTimeout = 2000 * time.Millisecond ∧
    (DefaultConfig T R H).RemoteRead = false ∧
    (DefaultConfig T R H).Scheme = "" ∧
    (DefaultConfig T R H).Labels = [] ∧
    (DefaultConfig T R H).RelabelConfigs = [] ∧
    (DefaultConfig T R H).PathPrefix = "" ∧
    (DefaultConfig T R H).AntiAffinity = none ∧
    (DefaultConfig T R H).IgnoreError = false := by
  refine ⟨fun _ _ => rfl, fun c α field h => h _, Int.mul_comm _ _, rfl, rfl, rfl, rfl, rfl,
    rfl, rfl⟩

/-- Witness of `unmarshal_restores_defaults`: after the load of
`path_prefix: /prom` over a stale configuration, the scheme, the anti-affinity
and the dial timeout are those of `DefaultConfig`. -/
theorem unmarshal_restores_defaults_witness :
    (staleConfig.UnmarshalYAML decodePathPrefix).1.Scheme = "" ∧
    (staleConfig.UnmarshalYAML decodePathPrefix).1.AntiAffinity = none ∧
    (staleConfig.UnmarshalYAML decodePathPrefix).1.HTTPConfig.DialTimeout =
      (DefaultConfig Unit Unit Unit).HTTPConfig.DialTimeout :=
  ⟨(unmarshal_restores_defaults decodePathPrefix).2.1 staleConfig String
      (fun c => c.Scheme) (fun _ => rfl),
   (unmarshal_restores_defaults decodePathPrefix).2.1 staleConfig (Option Int)
      (fun c => c.AntiAffinity) (fun _ => rfl),
   (unmarshal_restores_defaults decodePathPrefix).2.1 staleConfig Int
      (fun c => c.HTTPConfig.DialTimeout) (fun _ => rfl)⟩

end servergroup

namespace proxystorage

open promql

/-- C13 (as stated) fails: nothing a caller can compute from what `CloneExpr`
or `PreserveNameLabel` returns is the error of the parser; two parsers failing
with different errors give the same returned value. -/
theorem parse_error_not_surfaced :
    (¬ ∃ recover : Option Node → Option String, ∀ (lib : Promql) (expr : Node),
        recover (CloneExpr lib expr) = (lib.ParseExpr (lib.String expr)).2) ∧
    (¬ ∃ recover : Option Node → Option String,
        ∀ (lib : Promql) (expr : Node) (src dst : String),
        recover (PreserveNameLabel lib expr src dst) =
          (lib.ParseExpr (labelReplaceText (lib.String expr) src dst)).2) := by
  constructor
  · rintro ⟨recover, h⟩
    have h1 := h (rejecting "unexpected end of input") (.NumberLiteral 1)
    have h2 := h (rejecting "unknown function") (.NumberLiteral 1)
    simp only [CloneExpr, rejecting] at h1 h2
    rw [h1] at h2
    exact absurd h2 (by decide)
  · rintro ⟨recover, h⟩
    have h1 := h (rejecting "unexpected end of input") (.NumberLiteral 1) "a" "b"
    have h2 := h (rejecting "unknown function") (.NumberLiteral 1) "a" "b"
    simp only [PreserveNameLabel, rejecting] at h1 h2
    rw [h1] at h2
    exact absurd h2 (by decide)

/-- C13 (amended): `CloneExpr` and `PreserveNameLabel` discard the error of
the parser. What they return is the expression the parser returned and
nothing else: two parsers that return the same expressions make them return
the same value, whatever errors the parsers report. -/
theorem parse_error_discarded (lib₁ lib₂ : Promql) (expr : Node) (src dst : String)
    (hs : lib₁.String expr = lib₂.String expr)
    (hp : ∀ text, (lib₁.ParseExpr text).1 = (lib₂.ParseExpr text).1) :
    CloneExpr lib₁ expr = CloneExpr lib₂ expr ∧
    PreserveNameLabel lib₁ expr src dst = PreserveNameLabel lib₂ expr src dst ∧
    CloneExpr lib₁ expr = (lib₁.ParseExpr (lib₁.String expr)).1 ∧
    PreserveNameLabel lib₁ expr src dst =
      (lib₁.ParseExpr (labelReplaceText (lib₁.String expr) src dst)).1 := by
  refine ⟨?_, ?_, rfl, rfl⟩
  · unfold CloneExpr
    rw [hs, hp]
  · unfold PreserveNameLabel
    rw [hs, hp]

/-- Witness of `parse_error_discarded`: two parsers that fail with different
errors. -/
theorem parse_error_discarded_witness :
    CloneExpr (rejecting "unexpected end of input") (.NumberLiteral 1) =
      CloneExpr (rejecting "unknown function") (.NumberLiteral 1) :=
  (parse_error_discarded (rejecting "unexpected end of input") (rejecting "unknown function")
    (.NumberLiteral 1) "a" "b" rfl (fun _ => rfl)).1

end proxystorage

namespace promclient

/-- C16: `IgnoreErrorAPI` does not suppress `LabelNames`: it returns exactly
the value and the error of the wrapped implementation, so a failing wrapped
`LabelNames` yields a non-nil error through the decorator. -/
theorem ignoreError_labelNames_passthrough {Ctx V : Type} (n : IgnoreErrorAPI Ctx V)
    (ctx : Ctx) :
    n.LabelNames ctx = n.API.LabelNames ctx ∧
    ((n.API.LabelNames ctx).2 ≠ none → (n.LabelNames ctx).2 ≠ none) :=
  ⟨rfl, fun h => h⟩

end promclient

namespace tcache

/-- C19 (as stated) fails: `now + ttl` is computed in `int64`; with a ttl of
`2^63 - 1` seconds the stored expiration is the wrapped sum, which is not the
sum of the clock and the ttl. -/
theorem store_expiration_wraps :
    SyncMap.Load ((⟨⟨[], []⟩, []⟩ : MemoryCache Nat).Store 1700000000 "k" (some 7)
        (2 ^ 63 - 1)).1.client "k" ≠
      some ⟨"k", some 7, 1700000000 + (2 ^ 63 - 1)⟩ := by
  decide

/-- C19 (amended): `Store` returns a nil error, sets the entry for the key to
`(key, value, Expiration)` where `Expiration` is `now + ttl` computed in
`int64` (the sum itself whenever it is representable), replacing any previous
entry for that key, leaves the entries of all other keys unchanged, and leaves
the pending-request registry unchanged. -/
theorem store_effect {V : Type} (c : MemoryCache V) (now : Int) (k : String) (v : Option V)
    (ttl : Int) :
    (c.Store now k v ttl).2 = none ∧
    SyncMap.Load (c.Store now k v ttl).1.client k = some ⟨k, v, wrapInt64 (now + ttl)⟩ ∧
    (minInt64 ≤ now + ttl → now + ttl ≤ maxInt64 →
      SyncMap.Load (c.Store now k v ttl).1.client k = some ⟨k, v, now + ttl⟩) ∧
    (c.Store now k v ttl).1.client.filter (fun e => e.1 == k) =
      [(k, ⟨k, v, wrapInt64 (now + ttl)⟩)] ∧
    (∀ k', k' ≠ k →
      SyncMap.Load (c.Store now k v ttl).1.client k' = SyncMap.Load c.client k') ∧
    (c.Store now k v ttl).1.T = c.T := by
  have hload : SyncMap.Load (c.Store now k v ttl).1.client k =
      some ⟨k, v, wrapInt64 (now + ttl)⟩ := load_store_self c.client k _
  refine ⟨rfl, hload, ?_, ?_, ?_, rfl⟩
  · intro hlo hhi
    rw [hload, wrapInt64_of_inRange _ hlo hhi]
  · have hrest : (SyncMap.Delete c.client k).filter (fun e => e.1 == k) = [] := by
      rw [List.filter_eq_nil_iff]
      intro e he
      have := mem_delete_key_ne c.client k e he
      simpa using this
    simp only [MemoryCache.Store, SyncMap.Store, List.filter_cons, beq_self_eq_true, if_true,
      hrest]
  · intro k' hk
    exact store_load_other c now k' k v ttl (fun h => hk h.symm)

/-- Witness of `store_effect`: with a ttl of 60 seconds at second 100 the
expiration is second 160. -/
theorem store_effect_witness :
    SyncMap.Load ((⟨⟨[], []⟩, []⟩ : MemoryCache Nat).Store 100 "k" (some 7) 60).1.client "k" =
      some ⟨"k", some 7, 100 + 60⟩ :=
  (store_effect ⟨⟨[], []⟩, []⟩ 100 "k" (some 7) 60).2.2.1 (by decide) (by decide)

/-- The entries left by the scan of `es` are those whose key is not the key of
an expired entry of `es`. -/
theorem foldl_reapEntry_client {V : Type} (now : Int) (es : List (String × CacheObject V))
    (c : MemoryCache V) :
    (es.foldl (reapEntry now) c).client =
      c.client.filter (fun e =>
        !(es.any (fun e' => e'.1 == e.1 && decide (e'.2.Expiration < now)))) := by
  induction es generalizing c with
  | nil => simp
  | cons e₀ es ih =>
    rw [List.foldl_cons, ih]
    unfold reapEntry
    split_ifs with hexp
    · simp only [SyncMap.Delete, List.filter_filter]
      apply List.filter_congr
      intro e _
      have hsymm : (e.1 != e₀.1) = !(e₀.1 == e.1) := by
        rw [bne, BEq.comm]
      simp only [List.any_cons, hexp, decide_True, Bool.and_true, Bool.not_or, hsymm]
      exact Bool.and_comm _ _
    · apply List.filter_congr
      intro e _
      simp [List.any_cons, hexp]

theorem eq_of_key_eq {V : Type} (m : SyncMap V) (hnodup : (m.map Prod.fst).Nodup)
    (e e' : String × CacheObject V) (he : e ∈ m) (he' : e' ∈ m) (h : e.1 = e'.1) : e = e' :=
  List.inj_on_of_nodup_map hnodup he he' h

theorem load_filter {V : Type} (m : SyncMap V) (hnodup : (m.map Prod.fst).Nodup)
    (p : CacheObject V → Bool) (k : String) :
    SyncMap.Load (m.filter (fun e => p e.2)) k = (SyncMap.Load m k).filter p := by
  induction m with
  | nil => rfl
  | cons e m ih =>
    obtain ⟨k₀, o⟩ := e
    have hnd : (m.map Prod.fst).Nodup := (List.nodup_cons.mp hnodup).2
    have hnotin : k₀ ∉ m.map Prod.fst := (List.nodup_cons.mp hnodup).1
    simp only [SyncMap.Load] at ih ⊢
    by_cases hk : k = k₀
    · subst hk
      have hnone : List.lookup k (m.filter (fun e => p e.2)) = none := by
        rw [List.lookup_eq_none_iff]
        intro e he
        have hem : e ∈ m := (List.mem_filter.mp he).1
        have : e.1 ≠ k := fun h => hnotin (h ▸ List.mem_map_of_mem Prod.fst hem)
        exact bne_iff_ne.mpr (fun h => this h.symm)
      cases hp : p o
      · simp [List.filter_cons, hp, hnone, List.lookup, Option.filter]
      · simp [List.filter_cons, hp, List.lookup, Option.filter]
    · have hb : (k == k₀) = false := by simpa using hk
      cases hp : p o
      · simp [List.filter_cons, hp, List.lookup, hb, ih hnd]
      · simp [List.filter_cons, hp, List.lookup, hb, ih hnd]

/-- C17: after `ReapOnce` with scan start time `now`, the cache holds exactly
the entries of the prior state whose `Expiration` is at least `now`, each
unchanged and in the same order: every entry with `Expiration < now` is
removed, and an entry whose `Expiration` equals `now` is retained. The keys of
the map are distinct, as they are in a `sync.Map`. -/
theorem reapOnce_keeps_unexpired {V : Type} (c : MemoryCache V) (now : Int)
    (hnodup : (c.client.map Prod.fst).Nodup) :
    (c.ReapOnce now).client = c.client.filter (fun e => decide (now ≤ e.2.Expiration)) ∧
    (∀ k, SyncMap.Load (c.ReapOnce now).client k =
      (SyncMap.Load c.client k).filter (fun o => decide (now ≤ o.Expiration))) ∧
    (∀ k o, SyncMap.Load c.client k = some o → o.Expiration < now →
      SyncMap.Load (c.ReapOnce now).client k = none) ∧
    (∀ k o, SyncMap.Load c.client k = some o → o.Expiration = now →
      SyncMap.Load (c.ReapOnce now).client k = some o) := by
  have hclient : (c.ReapOnce now).client =
      c.client.filter (fun e => decide (now ≤ e.2.Expiration)) := by
    unfold MemoryCache.ReapOnce
    rw [foldl_reapEntry_client]
    apply List.filter_congr
    intro e he
    by_cases hexp : e.2.Expiration < now
    · have hany : (c.client.any
          (fun e' => e'.1 == e.1 && decide (e'.2.Expiration < now))) = true :=
        List.any_eq_true.mpr ⟨e, he, by simp [hexp]⟩
      rw [hany]
      simp [not_le.mpr hexp]
    · have hany : (c.client.any
          (fun e' => e'.1 == e.1 && decide (e'.2.Expiration < now))) = false := by
        rw [List.any_eq_false]
        intro e' he' hcontra
        simp only [Bool.and_eq_true, beq_iff_eq, decide_eq_true_eq] at hcontra
        have := eq_of_key_eq c.client hnodup e' e he' he hcontra.1
        rw [this] at hcontra
        exact hexp hcontra.2
      rw [hany]
      simp [not_lt.mp hexp]
  have hload : ∀ k, SyncMap.Load (c.ReapOnce now).client k =
      (SyncMap.Load c.client k).filter (fun o => decide (now ≤ o.Expiration)) := by
    intro k
    rw [hclient]
    exact load_filter c.client hnodup (fun o => decide (now ≤ o.Expiration)) k
  refine ⟨hclient, hload, ?_, ?_⟩
  · intro k o h hexp
    rw [hload, h]
    simp [Option.filter, not_le.mpr hexp]
  · intro k o h hexp
    rw [hload, h]
    simp [Option.filter, hexp]

/-- Witness of `reapOnce_keeps_unexpired`: of three entries expiring at seconds
5, 10 and 15, the pass at second 10 removes the first only. -/
theorem reapOnce_keeps_unexpired_witness :
    ((⟨⟨[], []⟩, [("a", ⟨"a", some 1, 5⟩), ("b", ⟨"b", some 2, 10⟩),
        ("c", ⟨"c", some 3, 15⟩)]⟩ : MemoryCache Nat).ReapOnce 10).client =
      [("b", ⟨"b", some 2, 10⟩), ("c", ⟨"c", some 3, 15⟩)] :=
  (reapOnce_keeps_unexpired ⟨⟨[], []⟩, [("a", ⟨"a", some 1, 5⟩), ("b", ⟨"b", some 2, 10⟩),
    ("c", ⟨"c", some 3, 15⟩)]⟩ 10 (by decide)).1

end tcache

namespace tcache

theorem lookup_filter_key {β : Type} (l : List (String × β)) (k k' : String) :
    (l.filter (fun e => e.1 != k')).lookup k = if k = k' then none else l.lookup k := by
  induction l with
  | nil => simp
  | cons e l ih =>
    obtain ⟨k₁, b⟩ := e
    by_cases h₁ : k₁ = k'
    · have hb : (k₁ != k') = false := by simp [h₁]
      rw [List.filter_cons, hb]
      simp only [Bool.false_eq_true, if_false, ih]
      split_ifs with hk
      · rfl
      · have h' : (k == k₁) = false := by
          rw [h₁]
          simpa using hk
        simp [List.lookup, h']
    · have hb : (k₁ != k') = true := by simp [h₁]
      rw [List.filter_cons, hb]
      simp only [if_true]
      by_cases h₂ : k = k₁
      · have hne : ¬ k = k' := fun h => h₁ (h₂ ▸ h)
        simp [List.lookup, h₂, hne, h₁]
      · have h' : (k == k₁) = false := by simpa using h₂
        simp only [List.lookup, h', ih]

theorem mem_of_lookup {β : Type} (l : List (String × β)) (k : String) (b : β)
    (h : l.lookup k = some b) : (k, b) ∈ l := by
  induction l with
  | nil => simp at h
  | cons e l ih =>
    obtain ⟨k₁, b₁⟩ := e
    by_cases hk : k = k₁
    · subst hk
      simp only [List.lookup, beq_self_eq_true, Option.some.injEq] at h
      rw [h]
      exact List.mem_cons_self _ _
    · have h' : (k == k₁) = false := by simpa using hk
      simp only [List.lookup, h'] at h
      exact List.mem_cons_of_mem _ (ih h)

theorem closeOut_lookup (t : TCacheAPI) (k k' : String) :
    (closeOut t k').ResponseChannels.lookup k =
      if k = k' then none else t.ResponseChannels.lookup k := by
  unfold closeOut
  cases h : t.ResponseChannels.lookup k' with
  | none =>
    simp only
    split_ifs with hk
    · rw [hk, h]
    · rfl
  | some ch => exact lookup_filter_key _ k k'

theorem closeOut_nodup (t : TCacheAPI) (k : String)
    (h : (t.ResponseChannels.map Prod.snd).Nodup) :
    ((closeOut t k).ResponseChannels.map Prod.snd).Nodup := by
  unfold closeOut
  cases t.ResponseChannels.lookup k with
  | none => exact h
  | some ch => exact List.Nodup.sublist (List.Sublist.map Prod.snd (List.filter_sublist _)) h

theorem foldl_closeOut_lookup (ks : List String) (t : TCacheAPI) (k : String) :
    (ks.foldl closeOut t).ResponseChannels.lookup k =
      if k ∈ ks then none else t.ResponseChannels.lookup k := by
  induction ks generalizing t with
  | nil => simp
  | cons k₀ ks ih =>
    rw [List.foldl_cons, ih, closeOut_lookup]
    by_cases h₁ : k ∈ ks
    · simp [h₁]
    · by_cases h₂ : k = k₀
      · simp [h₂]
      · simp [h₁, h₂]

/-- Each channel is closed by the scan once if a key of the scan is registered
with it, and not at all otherwise. -/
theorem foldl_closeOut_count (ks : List String) (t : TCacheAPI)
    (hch : (t.ResponseChannels.map Prod.snd).Nodup) (ch : Nat) :
    (ks.foldl closeOut t).closed.count ch =
      t.closed.count ch +
        if ks.any (fun k => t.ResponseChannels.lookup k == some ch) then 1 else 0 := by
  induction ks generalizing t with
  | nil => simp
  | cons k₀ ks ih =>
    rw [List.foldl_cons, ih _ (closeOut_nodup t k₀ hch)]
    cases h₀ : t.ResponseChannels.lookup k₀ with
    | none =>
      have hc : closeOut t k₀ = t := by
        unfold closeOut
        rw [h₀]
      rw [hc]
      simp [List.any_cons, h₀]
    | some c₀ =>
      have hclosed : (closeOut t k₀).closed = c₀ :: t.closed := by
        unfold closeOut
        rw [h₀]
      rw [hclosed]
      by_cases hc : c₀ = ch
      · -- the channel is closed now; no later key is registered with it
        have hlater : ks.any
            (fun k => (closeOut t k₀).ResponseChannels.lookup k == some ch) = false := by
          rw [List.any_eq_false]
          intro k _ hk
          rw [closeOut_lookup] at hk
          split_ifs at hk with hkk
          · simp at hk
          · have hk' : t.ResponseChannels.lookup k = some ch := by simpa using hk
            have hm := mem_of_lookup _ k ch hk'
            have hm₀ := mem_of_lookup _ k₀ c₀ h₀
            have := List.inj_on_of_nodup_map hch hm hm₀ hc.symm
            exact hkk (congrArg Prod.fst this)
        rw [hlater, hc]
        simp [List.any_cons, h₀, hc]
      · have hne : ¬ ch = c₀ := fun h => hc h.symm
        have hlater : ks.any
            (fun k => (closeOut t k₀).ResponseChannels.lookup k == some ch) =
            ks.any (fun k => t.ResponseChannels.lookup k == some ch) := by
          apply Bool.eq_iff_iff.mpr
          simp only [List.any_eq_true, beq_iff_eq]
          constructor
          · rintro ⟨k, hk, hl⟩
            rw [closeOut_lookup] at hl
            split_ifs at hl with hkk
            exact ⟨k, hk, hl⟩
          · rintro ⟨k, hk, hl⟩
            refine ⟨k, hk, ?_⟩
            rw [closeOut_lookup]
            have hkk : ¬ k = k₀ := by
              intro h
              rw [h, h₀] at hl
              exact hc (Option.some.inj hl)
            rw [if_neg hkk]
            exact hl
        rw [hlater]
        simp [List.any_cons, h₀, hc, hne, List.count_cons]

theorem foldl_reapEntry_T {V : Type} (now : Int) (es : List (String × CacheObject V))
    (c : MemoryCache V) :
    (es.foldl (reapEntry now) c).T =
      ((es.filter (fun e => decide (e.2.Expiration < now))).map Prod.fst).foldl closeOut c.T := by
  induction es generalizing c with
  | nil => rfl
  | cons e es ih =>
    rw [List.foldl_cons, ih]
    unfold reapEntry
    split_ifs with hexp
    · simp [List.filter_cons, hexp]
    · simp [List.filter_cons, hexp]

theorem removes_iff {V : Type} (c : MemoryCache V) (now : Int) (k : String) :
    k ∈ (c.client.filter (fun e => decide (e.2.Expiration < now))).map Prod.fst ↔
      c.Removes now k := by
  unfold MemoryCache.Removes
  simp only [List.mem_map, List.mem_filter, decide_eq_true_eq]
  constructor
  · rintro ⟨e, ⟨he, hexp⟩, hk⟩
    exact ⟨e, he, hk, hexp⟩
  · rintro ⟨e, he, hk, hexp⟩
    exact ⟨e, ⟨he, hexp⟩, hk⟩

/-- C18: after `ReapOnce`, every key whose entry the pass removed has no
pending-request record left in the registry, and the channel of a record that
existed has been closed exactly once; the record of every key whose entry the
pass did not remove (also of a key with no cache entry) is still registered
with its channel, which is not closed. The registry is well formed: distinct
channels, none closed yet. -/
theorem reapOnce_registry {V : Type} (c : MemoryCache V) (now : Int)
    (hwf : c.T.WellFormed) (k : String) :
    (c.Removes now k →
      (c.ReapOnce now).T.ResponseChannels.lookup k = none ∧
      ∀ ch, c.T.ResponseChannels.lookup k = some ch →
        (c.ReapOnce now).T.closed.count ch = 1) ∧
    (¬ c.Removes now k →
      (c.ReapOnce now).T.ResponseChannels.lookup k = c.T.ResponseChannels.lookup k ∧
      ∀ ch, c.T.ResponseChannels.lookup k = some ch → ch ∉ (c.ReapOnce now).T.closed) := by
  obtain ⟨hch, hopen⟩ := hwf
  have hT : (c.ReapOnce now).T =
      ((c.client.filter (fun e => decide (e.2.Expiration < now))).map Prod.fst).foldl
        closeOut c.T := foldl_reapEntry_T now c.client c
  have hzero : ∀ ch, c.T.ResponseChannels.lookup k = some ch → c.T.closed.count ch = 0 := by
    intro ch hl
    exact List.count_eq_zero.mpr (hopen _ (mem_of_lookup _ k ch hl))
  constructor
  · intro hrem
    have hmem := (removes_iff c now k).mpr hrem
    constructor
    · rw [hT, foldl_closeOut_lookup, if_pos hmem]
    · intro ch hl
      rw [hT, foldl_closeOut_count _ _ hch, hzero ch hl]
      have : ((c.client.filter (fun e => decide (e.2.Expiration < now))).map Prod.fst).any
          (fun k => c.T.ResponseChannels.lookup k == some ch) = true :=
        List.any_eq_true.mpr ⟨k, hmem, by simp [hl]⟩
      rw [this]
      rfl
  · intro hrem
    have hmem : k ∉ (c.client.filter (fun e => decide (e.2.Expiration < now))).map Prod.fst :=
      fun h => hrem ((removes_iff c now k).mp h)
    constructor
    · rw [hT, foldl_closeOut_lookup, if_neg hmem]
    · intro ch hl
      apply List.count_eq_zero.mp
      rw [hT, foldl_closeOut_count _ _ hch, hzero ch hl]
      have : ((c.client.filter (fun e => decide (e.2.Expiration < now))).map Prod.fst).any
          (fun k => c.T.ResponseChannels.lookup k == some ch) = false := by
        rw [List.any_eq_false]
        intro k' hk' hl'
        have hl'' : c.T.ResponseChannels.lookup k' = some ch := by simpa using hl'
        have := List.inj_on_of_nodup_map hch (mem_of_lookup _ k' ch hl'')
          (mem_of_lookup _ k ch hl) rfl
        have hkk : k' = k := congrArg Prod.fst this
        exact hmem (hkk ▸ hk')
      rw [this]
      rfl

/-- Witness of `reapOnce_registry`: the entry of "a" expired and its record is
resolved and removed; the record of "b", which has no entry, stays. -/
theorem reapOnce_registry_witness :
    (((⟨⟨[("a", 1), ("b", 2)], []⟩, [("a", ⟨"a", some 1, 5⟩)]⟩ :
        MemoryCache Nat).ReapOnce 10).T.ResponseChannels.lookup "a" = none ∧
      ∀ ch, (⟨⟨[("a", 1), ("b", 2)], []⟩, [("a", ⟨"a", some 1, 5⟩)]⟩ :
        MemoryCache Nat).T.ResponseChannels.lookup "a" = some ch →
        ((⟨⟨[("a", 1), ("b", 2)], []⟩, [("a", ⟨"a", some 1, 5⟩)]⟩ :
          MemoryCache Nat).ReapOnce 10).T.closed.count ch = 1) ∧
    ((⟨⟨[("a", 1), ("b", 2)], []⟩, [("a", ⟨"a", some 1, 5⟩)]⟩ :
        MemoryCache Nat).ReapOnce 10).T.ResponseChannels.lookup "b" = some 2 :=
  ⟨(reapOnce_registry ⟨⟨[("a", 1), ("b", 2)], []⟩, [("a", ⟨"a", some 1, 5⟩)]⟩ 10
      ⟨by decide, by decide⟩ "a").1 ⟨("a", ⟨"a", some 1, 5⟩), by simp, rfl, by decide⟩,
   ((reapOnce_registry ⟨⟨[("a", 1), ("b", 2)], []⟩, [("a", ⟨"a", some 1, 5⟩)]⟩ 10
      ⟨by decide, by decide⟩ "b").2 (by
        rintro ⟨e, he, hk, -⟩
        simp only [List.mem_singleton] at he
        rw [he] at hk
        exact absurd hk (by decide))).1⟩

end tcache

namespace proxystorage

open promql

theorem callAt_zero {σ ε : Type} (acc : VisitLoop σ ε) (m : Member σ ε)
    (ms : List (Member σ ε)) :
    callAt acc (m :: ms) 0 = if m.live then some (m.Visit m.state acc.node) else none := by
  simp [callAt]

theorem callAt_succ {σ ε : Type} (acc : VisitLoop σ ε) (m : Member σ ε)
    (ms : List (Member σ ε)) (i : Nat) :
    callAt acc (m :: ms) (i + 1) = callAt (visitOne acc m) ms i := by
  simp [callAt]

theorem visitOne_eq {σ ε : Type} (acc : VisitLoop σ ε) (m : Member σ ε)
    (ms : List (Member σ ε)) :
    (visitOne acc m).visitors = acc.visitors ++ [m.after (callAt acc (m :: ms) 0)] := by
  rw [callAt_zero]
  unfold visitOne
  cases hl : m.live <;> simp [Member.after]

theorem visitOne_err {σ ε : Type} (acc : VisitLoop σ ε) (m : Member σ ε)
    (ms : List (Member σ ε)) :
    (visitOne acc m).visitorErr =
      match (callAt acc (m :: ms) 0).bind (fun r => r.err) with
      | some e => some e
      | none => acc.visitorErr := by
  rw [callAt_zero]
  unfold visitOne
  cases hl : m.live
  · simp
  · cases he : (m.Visit m.state acc.node).err <;> simp [he]

/-- The elements the loop has passed are not touched again. -/
theorem foldl_visitOne_visitors {σ ε : Type} (ms : List (Member σ ε)) (acc : VisitLoop σ ε) :
    ((ms.foldl visitOne acc).visitors.length = acc.visitors.length + ms.length) ∧
    (∀ j, j < acc.visitors.length →
      (ms.foldl visitOne acc).visitors[j]? = acc.visitors[j]?) ∧
    (∀ i m, ms[i]? = some m →
      (ms.foldl visitOne acc).visitors[acc.visitors.length + i]? =
        some (m.after (callAt acc ms i))) := by
  induction ms generalizing acc with
  | nil => simp
  | cons m₀ ms ih =>
    obtain ⟨hlen, hpre, hat⟩ := ih (visitOne acc m₀)
    have hv := visitOne_eq acc m₀ ms
    have hlen₀ : (visitOne acc m₀).visitors.length = acc.visitors.length + 1 := by
      rw [hv]
      simp
    rw [List.foldl_cons]
    refine ⟨?_, ?_, ?_⟩
    · rw [hlen, hlen₀, List.length_cons]
      omega
    · intro j hj
      rw [hpre j (by omega), hv, List.getElem?_append_left hj]
    · intro i m hm
      cases i with
      | zero =>
        simp only [List.getElem?_cons_zero, Option.some.injEq] at hm
        subst hm
        rw [Nat.add_zero, hpre _ (by omega), hv, List.getElem?_append_right le_rfl]
        simp
      | succ i =>
        simp only [List.getElem?_cons_succ] at hm
        have := hat i m hm
        rw [hlen₀] at this
        rw [callAt_succ, ← this]
        congr 1
        omega

/-- The error the loop ends with is that of its last call that returned one. -/
theorem foldl_visitOne_err {σ ε : Type} (ms : List (Member σ ε)) (acc : VisitLoop σ ε) :
    ((∀ i, (callAt acc ms i).bind (fun r => r.err) = none) →
      (ms.foldl visitOne acc).visitorErr = acc.visitorErr) ∧
    (∀ i e, (callAt acc ms i).bind (fun r => r.err) = some e →
      (∀ j, i < j → (callAt acc ms j).bind (fun r => r.err) = none) →
      (ms.foldl visitOne acc).visitorErr = some e) := by
  induction ms generalizing acc with
  | nil =>
    refine ⟨fun _ => rfl, fun i e h _ => ?_⟩
    simp [callAt] at h
  | cons m₀ ms ih =>
    obtain ⟨hnone, hlast⟩ := ih (visitOne acc m₀)
    have he := visitOne_err acc m₀ ms
    rw [List.foldl_cons]
    constructor
    · intro h
      rw [hnone (fun i => by rw [← callAt_succ]; exact h (i + 1)), he, h 0]
    · intro i e hi hafter
      cases i with
      | zero =>
        rw [hnone (fun j => by rw [← callAt_succ]; exact hafter (j + 1) (by omega)), he, hi]
      | succ i =>
        rw [callAt_succ] at hi
        exact hlast i e hi (fun j hj => by
          rw [← callAt_succ]
          exact hafter (j + 1) (by omega))

theorem assignOffset_none (n : Node) : assignOffset none n = n := by
  cases n <;> rfl

theorem visitOne_node {σ ε : Type} (acc : VisitLoop σ ε) (m : Member σ ε)
    (ms : List (Member σ ε))
    (h : ∀ r, callAt acc (m :: ms) 0 = some r → r.setOffset = none) :
    (visitOne acc m).node = acc.node := by
  rw [callAt_zero] at h
  unfold visitOne
  cases hl : m.live
  · simp
  · have := h (m.Visit m.state acc.node) (by simp [hl])
    simp only [if_true, this]
    cases acc.node with
    | none => rfl
    | some n => simp [assignOffset_none]

theorem callAt_take {σ ε : Type} (ms : List (Member σ ε)) (acc : VisitLoop σ ε) (i j : Nat)
    (hj : j < i) : callAt acc (ms.take i) j = callAt acc ms j := by
  unfold callAt
  rw [List.getElem?_take_of_lt hj, List.take_take, min_eq_left hj.le]

/-- When no call before position `i` assigns an offset, the call at `i` is on
the node the loop started with. -/
theorem foldl_visitOne_node {σ ε : Type} (ms : List (Member σ ε)) (acc : VisitLoop σ ε)
    (h : ∀ j r, callAt acc ms j = some r → r.setOffset = none) :
    (ms.foldl visitOne acc).node = acc.node := by
  induction ms generalizing acc with
  | nil => rfl
  | cons m₀ ms ih =>
    rw [List.foldl_cons, ih (visitOne acc m₀) (fun j r hr => h (j + 1) r (by
      rw [callAt_succ]
      exact hr))]
    exact visitOne_node acc m₀ ms (h 0)

theorem visit_member {σ ε : Type} (v : MultiVisitor σ ε) (node : Option Node) (i : Nat)
    (m : Member σ ε) (hm : v.visitors[i]? = some m) :
    (v.Visit node).state.visitors[i]? = some (m.after (v.call node i)) := by
  have := (foldl_visitOne_visitors v.visitors ⟨[], node, none, none⟩).2.2 i m hm
  simpa [MultiVisitor.Visit, MultiVisitor.call] using this

theorem call_nil_member {σ ε : Type} (v : MultiVisitor σ ε) (node : Option Node) (i : Nat)
    (m : Member σ ε) (hm : v.visitors[i]? = some m) (hl : m.live = false) :
    v.call node i = none := by
  simp [MultiVisitor.call, callAt, hm, hl]

theorem assignOffset_assignOffset (o₁ o₂ : Option Int) (n : Node) :
    assignOffset o₂ (assignOffset o₁ n) =
      assignOffset (if o₂.isSome then o₂ else o₁) n := by
  cases o₁ <;> cases o₂ <;> cases n <;> rfl

theorem map_assignOffset_none (node : Option Node) :
    node.map (assignOffset none) = node := by
  cases node with
  | none => rfl
  | some n => simp [assignOffset_none]

/-- The node of the loop is the node it started on, with the last offset
assigned so far. -/
theorem foldl_visitOne_assigned {σ ε : Type} (node : Option Node) (ms : List (Member σ ε))
    (acc : VisitLoop σ ε) (h : acc.node = node.map (assignOffset acc.setOffset)) :
    (ms.foldl visitOne acc).node =
      node.map (assignOffset (ms.foldl visitOne acc).setOffset) := by
  induction ms generalizing acc with
  | nil => exact h
  | cons m₀ ms ih =>
    rw [List.foldl_cons]
    apply ih
    unfold visitOne
    cases hl : m₀.live
    · simpa using h
    · simp only [if_true, h, Option.map_map]
      congr 1
      funext n
      exact assignOffset_assignOffset _ _ n

theorem visitOne_setOffset {σ ε : Type} (acc : VisitLoop σ ε) (m : Member σ ε) :
    (visitOne acc m).setOffset =
      match (if m.live then some (m.Visit m.state acc.node) else none).bind
        (fun r => r.setOffset) with
      | some d => some d
      | none => acc.setOffset := by
  unfold visitOne
  cases hl : m.live
  · rfl
  · cases hs : (m.Visit m.state acc.node).setOffset <;> simp [hs]

/-- The offset the loop holds after the first `i` elements is the last one
that the calls before position `i` assigned. -/
theorem foldl_take_setOffset {σ ε : Type} (v : MultiVisitor σ ε) (node : Option Node)
    (i : Nat) :
    ((v.visitors.take i).foldl visitOne ⟨[], node, none, none⟩).setOffset =
      v.assigned node i := by
  induction i with
  | zero => rfl
  | succ i ih =>
    rw [List.take_succ, List.foldl_append, MultiVisitor.assigned, ← ih]
    unfold MultiVisitor.call callAt
    cases hm : v.visitors[i]? with
    | none => rfl
    | some m =>
      simp only [Option.toList, List.foldl_cons, List.foldl_nil]
      exact visitOne_setOffset _ m

theorem call_node {σ ε : Type} (v : MultiVisitor σ ε) (node : Option Node) (i : Nat)
    (m : Member σ ε) (hm : v.visitors[i]? = some m) (hl : m.live = true) :
    v.call node i = some (m.Visit m.state (node.map (assignOffset (v.assigned node i)))) := by
  rw [← foldl_take_setOffset, ← foldl_visitOne_assigned node _ _ (map_assignOffset_none node).symm]
  simp [MultiVisitor.call, callAt, hm, hl]

/-- C14: `MultiVisitor.Visit` on a node passes its visitors in list order. A
nil element is not called and stays nil. Every live visitor is called exactly
once, on that node, whatever errors the visitors before it returned, and the
element becomes the visitor the call returned. The visitors are handed the one
node: a visitor finds in it the offset that the last visitor before it to
assign one has assigned, and the node exactly as `Visit` received it when none
has; the node leaves `Visit` with the last offset assigned by any of them. The
continuation returned is the `MultiVisitor` itself, and the error returned is
that of the last visitor in list order that returned one, nil when none did. -/
theorem multiVisitor_visit {σ ε : Type} (v : MultiVisitor σ ε) (node : Option Node) :
    (v.Visit node).cont = true ∧
    (v.Visit node).state.visitors.length = v.visitors.length ∧
    (∀ (i : Nat) (m : Member σ ε), v.visitors[i]? = some m →
      (v.Visit node).state.visitors[i]? = some (m.after (v.call node i))) ∧
    (∀ (i : Nat) (m : Member σ ε), v.visitors[i]? = some m → m.live = false →
      v.call node i = none) ∧
    (∀ (i : Nat) (m : Member σ ε), v.visitors[i]? = some m → m.live = true →
      v.call node i =
        some (m.Visit m.state (node.map (assignOffset (v.assigned node i)))) ∧
      ((∀ j r, j < i → v.call node j = some r → r.setOffset = none) →
        v.call node i = some (m.Visit m.state node))) ∧
    ((∀ i, (v.call node i).bind (fun r => r.err) = none) → (v.Visit node).err = none) ∧
    (∀ i e, (v.call node i).bind (fun r => r.err) = some e →
      (∀ j, i < j → (v.call node j).bind (fun r => r.err) = none) →
      (v.Visit node).err = some e) ∧
    (v.Visit node).setOffset = v.assigned node v.visitors.length := by
  obtain ⟨hlen, -, -⟩ := foldl_visitOne_visitors v.visitors ⟨[], node, none, none⟩
  obtain ⟨hnone, hlast⟩ := foldl_visitOne_err v.visitors ⟨[], node, none, none⟩
  refine ⟨rfl, ?_, visit_member v node, call_nil_member v node, ?_, hnone, hlast, ?_⟩
  · simpa [MultiVisitor.Visit] using hlen
  · intro i m hm hl
    refine ⟨call_node v node i m hm hl, fun h => ?_⟩
    have hnode : ((v.visitors.take i).foldl visitOne ⟨[], node, none, none⟩).node = node := by
      apply foldl_visitOne_node
      intro j r hr
      by_cases hj : j < i
      · rw [callAt_take _ _ i j hj] at hr
        exact h j r hj hr
      · have : (v.visitors.take i)[j]? = none := by
          rw [List.getElem?_eq_none]
          simp only [List.length_take]
          omega
        simp [callAt, this] at hr
    simp [MultiVisitor.call, callAt, hm, hl, hnode]
  · rw [← foldl_take_setOffset, List.take_length]
    rfl

/-- Witness of `multiVisitor_visit`: of two visitors on the selector `a` of
offset 5s, the first sets the offset to zero and the second is called on the
selector with offset zero. -/
theorem multiVisitor_visit_witness :
    (NewMultiVisitor [⟨shifting 0, [], true⟩, ⟨shifting 7, [], true⟩]).call
        (some (.VectorSelector "a" (5 * second))) 1 =
      some (shifting 7 [] (some (.VectorSelector "a" 0))) :=
  ((multiVisitor_visit (NewMultiVisitor [⟨shifting 0, [], true⟩, ⟨shifting 7, [], true⟩])
    (some (.VectorSelector "a" (5 * second)))).2.2.2.2.1 1 ⟨shifting 7, [], true⟩ rfl rfl).1

/-- What a visitor keeps through each of its calls, it keeps through a walk. -/
theorem enter_preserves {σ ε : Type} (v : Visitor σ ε) (P : σ → Prop)
    (hP : ∀ s n, P s → P (v s n).state) (s : σ) (node : Node)
    (children : σ → Node → WalkResult σ ε)
    (hc : ∀ s₁ n₁, P s₁ → P (children s₁ n₁).state) (hs : P s) :
    P (enter v s node children).state := by
  unfold enter
  simp only
  split_ifs
  · exact hP s _ hs
  · exact hc _ _ (hP s _ hs)
  · exact hP _ _ (hc _ _ (hP s _ hs))

mutual
theorem walk_preserves {σ ε : Type} (v : Visitor σ ε) (P : σ → Prop)
    (hP : ∀ s n, P s → P (v s n).state) : ∀ (t : Node) (s : σ), P s → P (Walk v s t).state
  | .VectorSelector n d, s, hs => by
    rw [Walk]
    exact enter_preserves v P hP s _ _ (fun _ _ h => h) hs
  | .MatrixSelector n r d, s, hs => by
    rw [Walk]
    exact enter_preserves v P hP s _ _ (fun _ _ h => h) hs
  | .NumberLiteral x, s, hs => by
    rw [Walk]
    exact enter_preserves v P hP s _ _ (fun _ _ h => h) hs
  | .StringLiteral x, s, hs => by
    rw [Walk]
    exact enter_preserves v P hP s _ _ (fun _ _ h => h) hs
  | .ParenExpr e, s, hs => by
    rw [Walk]
    exact enter_preserves v P hP s _ _ (fun s₁ _ h => walk_preserves v P hP e s₁ h) hs
  | .UnaryExpr op e, s, hs => by
    rw [Walk]
    exact enter_preserves v P hP s _ _ (fun s₁ _ h => walk_preserves v P hP e s₁ h) hs
  | .AggregateExpr op e p, s, hs => by
    rw [Walk]
    refine enter_preserves v P hP s _ _ (fun s₁ _ h => ?_) hs
    simp only
    split_ifs
    · exact walkParam_preserves v P hP p s₁ h
    · exact walk_preserves v P hP e _ (walkParam_preserves v P hP p s₁ h)
  | .SubqueryExpr e rg o st, s, hs => by
    rw [Walk]
    exact enter_preserves v P hP s _ _ (fun s₁ _ h => walk_preserves v P hP e s₁ h) hs
  | .BinaryExpr op l r, s, hs => by
    rw [Walk]
    refine enter_preserves v P hP s _ _ (fun s₁ _ h => ?_) hs
    simp only
    split_ifs
    · exact walk_preserves v P hP l s₁ h
    · exact walk_preserves v P hP r _ (walk_preserves v P hP l s₁ h)
  | .Call f args, s, hs => by
    rw [Walk]
    refine enter_preserves v P hP s _ _ (fun s₁ _ h => ?_) hs
    exact enter_preserves v P hP s₁ _ _ (fun s₂ _ h₂ => walkList_preserves v P hP args s₂ h₂) h
  | .Expressions es, s, hs => by
    rw [Walk]
    exact enter_preserves v P hP s _ _ (fun s₁ _ h => walkList_preserves v P hP es s₁ h) hs
theorem walkParam_preserves {σ ε : Type} (v : Visitor σ ε) (P : σ → Prop)
    (hP : ∀ s n, P s → P (v s n).state) :
    ∀ (p : Option Node) (s : σ), P s → P (WalkParam v s p).state
  | none, s, hs => by
    rw [WalkParam]
    exact hs
  | some p, s, hs => by
    rw [WalkParam]
    exact walk_preserves v P hP p s hs
theorem walkList_preserves {σ ε : Type} (v : Visitor σ ε) (P : σ → Prop)
    (hP : ∀ s n, P s → P (v s n).state) :
    ∀ (ts : List Node) (s : σ), P s → P (WalkList v s ts).state
  | [], s, hs => by
    rw [WalkList]
    exact hs
  | e :: es, s, hs => by
    rw [WalkList]
    simp only
    split_ifs
    · exact walk_preserves v P hP e s hs
    · exact walkList_preserves v P hP es _ (walk_preserves v P hP e s hs)
end

set_option maxRecDepth 100000 in
/-- C15 (as stated) fails: in the walk of `a + b` by a `MultiVisitor` with one
member that returns a nil visitor at the selector `a`, the member is not
invoked on the selector `b`, which is visited afterwards and lies outside the
subtree of `a`: at the end of the walk its log holds `a` only and its element
is nil. -/
theorem dropped_member_misses_sibling :
    ((Walk MultiVisitor.Visit (NewMultiVisitor [⟨probe "a", [], true⟩])
        aPlusB).state.visitors.map (fun m => (m.state, m.live))) = [(["a"], false)] ∧
    ((Walk MultiVisitor.Visit (NewMultiVisitor [⟨probe "none", [], true⟩])
        aPlusB).state.visitors.map (fun m => (m.state, m.live))) = [(["a", "b"], true)] := by
  decide

/-- C15 (amended): in a walk driven by a `MultiVisitor`, a member visitor that
returns a null continuation at a node is dropped for the rest of the walk: its
element is nil from then on, and through the walk of any tree a nil element
stays nil and its visitor is not invoked again, inside the subtree of that
node or outside it. -/
theorem dropped_member_stays_dropped {σ ε : Type} (v : MultiVisitor σ ε) (i : Nat)
    (m : Member σ ε) (hm : v.visitors[i]? = some m) :
    (∀ node r, v.call node i = some r → r.cont = false →
      (v.Visit node).state.visitors[i]? = some { m with state := r.state, live := false }) ∧
    (m.live = false → ∀ t : Node,
      (Walk MultiVisitor.Visit v t).state.visitors[i]? = some m) := by
  constructor
  · intro node r hr hcont
    rw [visit_member v node i m hm, hr]
    simp [Member.after, hcont]
  · intro hl t
    apply walk_preserves MultiVisitor.Visit (fun s => s.visitors[i]? = some m) _ t v hm
    intro s n hs
    rw [visit_member s n i m hs, call_nil_member s n i m hs hl]
    rfl

/-- Witness of `dropped_member_stays_dropped`: a nil element of a
`MultiVisitor` is still nil, with its log empty, after the walk of `a + b`. -/
theorem dropped_member_stays_dropped_witness :
    (Walk MultiVisitor.Visit (NewMultiVisitor [⟨probe "a", [], false⟩])
      aPlusB).state.visitors[0]? = some ⟨probe "a", [], false⟩ :=
  (dropped_member_stays_dropped (NewMultiVisitor [⟨probe "a", [], false⟩]) 0
    ⟨probe "a", [], false⟩ rfl).2 rfl aPlusB

end proxystorage

namespace promclient

theorem lookup_append_left {β : Type} (l₁ l₂ : List (String × β)) (n : String) :
    (l₁ ++ l₂).lookup n =
      match l₁.lookup n with
      | some v => some v
      | none => l₂.lookup n := by
  induction l₁ with
  | nil => rfl
  | cons e l ih =>
    obtain ⟨k, b⟩ := e
    cases h : (n == k)
    · simp only [List.cons_append, List.lookup, h]
      exact ih
    · simp only [List.cons_append, List.lookup, h]

theorem metric_set_lookup (metric : LabelSet) (name value n : String) :
    (Metric.set metric name value).lookup n =
      if n = name then some value else metric.lookup n := by
  unfold Metric.set
  by_cases h : n = name
  · simp [List.lookup, h]
  · have hb : (n == name) = false := by simpa using h
    simp only [List.lookup, hb, if_neg h]
    rw [tcache.lookup_filter_key, if_neg h]

/-- The label set built by the loop over the label pairs: the last pair of a
name decides. -/
theorem metric_foldl_lookup (labels : List (String × String)) (metric : LabelSet) (n : String) :
    (labels.foldl (fun metric label => Metric.set metric label.1 label.2) metric).lookup n =
      match labels.reverse.lookup n with
      | some v => some v
      | none => metric.lookup n := by
  induction labels generalizing metric with
  | nil => rfl
  | cons l ls ih =>
    rw [List.foldl_cons, ih, List.reverse_cons, lookup_append_left, metric_set_lookup]
    cases ls.reverse.lookup n with
    | some v => rfl
    | none =>
      by_cases h : n = l.1
      · simp [List.lookup, h]
      · have hb : (n == l.1) = false := by simpa using h
        simp [List.lookup, hb, h]

theorem lookup_eq_some_iff_mem {β : Type} (l : List (String × β))
    (hnodup : (l.map Prod.fst).Nodup) (n : String) (b : β) :
    l.lookup n = some b ↔ (n, b) ∈ l := by
  constructor
  · exact tcache.mem_of_lookup l n b
  · intro hmem
    induction l with
    | nil => simp at hmem
    | cons e l ih =>
      obtain ⟨k, b'⟩ := e
      have hnd := List.nodup_cons.mp hnodup
      rcases List.mem_cons.mp hmem with h | h
      · injection h with h1 h2
        subst h1
        subst h2
        simp [List.lookup]
      · have hk : n ≠ k := by
          intro hnk
          apply hnd.1
          rw [← hnk]
          exact List.mem_map.mpr ⟨(n, b), h, rfl⟩
        have hb : (n == k) = false := by simpa using hk
        simp only [List.lookup, hb]
        exact ih hnd.2 h

theorem lookup_reverse {β : Type} (l : List (String × β)) (hnodup : (l.map Prod.fst).Nodup)
    (n : String) : l.reverse.lookup n = l.lookup n := by
  have hrev : (l.reverse.map Prod.fst).Nodup := by
    rw [List.map_reverse]
    exact List.nodup_reverse.mpr hnodup
  apply Option.ext
  intro b
  simp only [Option.mem_def]
  rw [lookup_eq_some_iff_mem _ hrev, lookup_eq_some_iff_mem _ hnodup, List.mem_reverse]

theorem getValue_ok {Ctx V Q F : Type} (p : PromAPIRemoteRead Ctx V Q F) (ctx : Ctx)
    (start stop : Time) (matchers : List Matcher) (query : Q) (result : QueryResult F)
    (hq : p.ToQuery (FromTime start) (FromTime stop) matchers = (query, none))
    (hr : p.Read ctx query = (result, none)) :
    p.GetValue ctx start stop matchers = (some (result.Timeseries.map toSampleStream), none) := by
  unfold PromAPIRemoteRead.GetValue
  rw [hq]
  simp only
  rw [hr]

/-- C20: for every successful raw read, `GetValue` returns a matrix with one
series per series of the response, in the same order; the label set of the
i-th series maps each label name of the i-th wire series to its wire value
(the last one given, which is the only one when the names are distinct) and
holds no other name; its samples are the wire samples in the same number and
order, timestamp and value copied. When building the request or reading fails,
`GetValue` returns a nil value and that error. -/
theorem remoteRead_getValue {Ctx V Q F : Type} (p : PromAPIRemoteRead Ctx V Q F) (ctx : Ctx)
    (start stop : Time) (matchers : List Matcher) :
    (∀ (query : Q) (result : QueryResult F),
      p.ToQuery (FromTime start) (FromTime stop) matchers = (query, none) →
      p.Read ctx query = (result, none) →
      ∃ matrix : Matrix F, p.GetValue ctx start stop matchers = (some matrix, none) ∧
        matrix.length = result.Timeseries.length ∧
        ∀ (i : Nat) (ts : TimeSeries F), result.Timeseries[i]? = some ts →
          ∃ ss : SampleStream F, matrix[i]? = some ss ∧
            ss.Values.length = ts.Samples.length ∧
            (∀ (x : Nat) (sample : Sample F), ts.Samples[x]? = some sample →
              ss.Values[x]? = some ⟨sample.Timestamp, sample.Value⟩) ∧
            (∀ n, ss.Metric.lookup n = ts.Labels.reverse.lookup n) ∧
            ((ts.Labels.map Prod.fst).Nodup →
              ∀ n, ss.Metric.lookup n = ts.Labels.lookup n)) ∧
    (∀ (query : Q) (err : Error),
      p.ToQuery (FromTime start) (FromTime stop) matchers = (query, some err) →
      p.GetValue ctx start stop matchers = (none, some err)) ∧
    (∀ (query : Q) (result : QueryResult F) (err : Error),
      p.ToQuery (FromTime start) (FromTime stop) matchers = (query, none) →
      p.Read ctx query = (result, some err) →
      p.GetValue ctx start stop matchers = (none, some err)) := by
  refine ⟨?_, ?_, ?_⟩
  · intro query result hq hr
    refine ⟨result.Timeseries.map toSampleStream, getValue_ok p ctx start stop matchers
      query result hq hr, by simp, ?_⟩
    intro i ts hts
    have hlook : ∀ n, (toSampleStream ts).Metric.lookup n = ts.Labels.reverse.lookup n := by
      intro n
      unfold toSampleStream
      simp only
      rw [metric_foldl_lookup]
      cases ts.Labels.reverse.lookup n <;> rfl
    refine ⟨toSampleStream ts, by simp [hts], by simp [toSampleStream], ?_, hlook, ?_⟩
    · intro x sample hx
      simp [toSampleStream, hx]
    · intro hnodup n
      rw [hlook, lookup_reverse _ hnodup]
  · intro query err hq
    unfold PromAPIRemoteRead.GetValue
    rw [hq]
  · intro query result err hq hr
    unfold PromAPIRemoteRead.GetValue
    rw [hq]
    simp only
    rw [hr]

/-- Witness of `remoteRead_getValue`: the answer of `oneSeriesClient`. -/
theorem remoteRead_getValue_witness :
    ∃ matrix : Matrix Int, oneSeriesClient.GetValue () 0 60000000000 [] = (some matrix, none) ∧
      matrix.length = 1 ∧
      ∀ (i : Nat) (ts : TimeSeries Int),
        (⟨[⟨[("__name__", "up"), ("job", "node")], [⟨1, 1000⟩, ⟨0, 2000⟩]⟩]⟩ :
          QueryResult Int).Timeseries[i]? = some ts →
        ∃ ss : SampleStream Int, matrix[i]? = some ss ∧
          ss.Values.length = ts.Samples.length ∧
          (∀ (x : Nat) (sample : Sample Int), ts.Samples[x]? = some sample →
            ss.Values[x]? = some ⟨sample.Timestamp, sample.Value⟩) ∧
          (∀ n, ss.Metric.lookup n = ts.Labels.reverse.lookup n) ∧
          ((ts.Labels.map Prod.fst).Nodup →
            ∀ n, ss.Metric.lookup n = ts.Labels.lookup n) :=
  (remoteRead_getValue oneSeriesClient () 0 60000000000 []).1 ()
    ⟨[⟨[("__name__", "up"), ("job", "node")], [⟨1, 1000⟩, ⟨0, 2000⟩]⟩]⟩ rfl rfl

end promclient

namespace proxystorage

open promql

theorem selector_error_persists (o : OffsetFinder) (d : Int) (h : o.Error ≠ none) :
    (o.selector d).Error ≠ none := by
  unfold OffsetFinder.selector
  split_ifs <;> simp [h]

theorem switch_error_persists (o : OffsetFinder) (node : Option Node) (h : o.Error ≠ none) :
    (o.switch node).Error ≠ none := by
  unfold OffsetFinder.switch
  split
  · exact selector_error_persists o _ h
  · exact selector_error_persists o _ h
  · exact h

theorem selector_error_iff (o : OffsetFinder) (d : Int) (h : o.Error = none) :
    (o.selector d).Error = none ↔ (o.Found && decide (d ≠ o.Offset)) = false := by
  unfold OffsetFinder.selector
  cases hF : o.Found
  · simp [h]
  · by_cases hd : d = o.Offset
    · simp [hd, h]
    · simp [hd]

theorem switch_error_iff (o : OffsetFinder) (node : Option Node) (h : o.Error = none) :
    (o.switch node).Error = none ↔ o.Mismatches node = false := by
  unfold OffsetFinder.switch OffsetFinder.Mismatches
  split
  · exact selector_error_iff o _ h
  · exact selector_error_iff o _ h
  · simp [h]

/-- C21 (as stated) fails: a fresh finder that visits selectors with offsets 5s
and 10s records the mismatch, and on the next node, a selector whose offset is
the recorded 5s, and likewise on a number literal, it returns a nil visitor,
not itself. -/
theorem finder_nil_after_mismatch :
    ((((OffsetFinder.Visit ⟨false, 0, none⟩ (some (.VectorSelector "a" (5 * second)))).state.Visit
        (some (.VectorSelector "b" (10 * second)))).state.Visit
        (some (.VectorSelector "c" (5 * second)))).cont = false) ∧
    ((((OffsetFinder.Visit ⟨false, 0, none⟩ (some (.VectorSelector "a" (5 * second)))).state.Visit
        (some (.VectorSelector "b" (10 * second)))).state.Visit
        (some (.NumberLiteral 1))).cont = false) := by
  decide

/-- C21 (amended): once a mismatch has been recorded, `OffsetFinder.Visit`
returns a null continuation on every node visited afterwards, mismatching or
not, and the error stays recorded; while no error is recorded, `Visit` returns
the finder itself exactly on the nodes that are not a mismatching selector. In
every case `Visit` returns a nil error and leaves the visited node
unmodified. -/
theorem finder_visit_continuation (o : OffsetFinder) (node : Option Node) :
    (o.Visit node).err = none ∧
    (o.Visit node).setOffset = none ∧
    (o.Error ≠ none → (o.Visit node).cont = false ∧ (o.Visit node).state.Error ≠ none) ∧
    (o.Error = none → ((o.Visit node).cont = true ↔ o.Mismatches node = false)) := by
  obtain ⟨herr, hset, hcont⟩ := finder_visit_err o node
  refine ⟨herr, hset, ?_, ?_⟩
  · intro h
    have hst : (o.Visit node).state.Error ≠ none := by
      rw [finder_visit_state]
      exact switch_error_persists o node h
    refine ⟨?_, hst⟩
    cases hc : (o.Visit node).cont
    · rfl
    · exact absurd (hcont.mp hc) hst
  · intro h
    rw [hcont, finder_visit_state]
    exact switch_error_iff o node h

/-- Witness of `finder_visit_continuation`: a finder holding offset 5s and no
error returns itself on a selector with offset 5s, and after a mismatch was
recorded it returns nil there. -/
theorem finder_visit_continuation_witness :
    ((OffsetFinder.Visit ⟨true, 5 * second, none⟩
        (some (.VectorSelector "c" (5 * second)))).cont = true ↔
      OffsetFinder.Mismatches ⟨true, 5 * second, none⟩
        (some (.VectorSelector "c" (5 * second))) = false) ∧
    ((OffsetFinder.Visit
        ⟨true, 5 * second, some (.mismatchedOffsets (10 * second) (5 * second))⟩
        (some (.VectorSelector "c" (5 * second)))).cont = false ∧
      (OffsetFinder.Visit
        ⟨true, 5 * second, some (.mismatchedOffsets (10 * second) (5 * second))⟩
        (some (.VectorSelector "c" (5 * second)))).state.Error ≠ none) :=
  ⟨(finder_visit_continuation ⟨true, 5 * second, none⟩
      (some (.VectorSelector "c" (5 * second)))).2.2.2 rfl,
   (finder_visit_continuation
      ⟨true, 5 * second, some (.mismatchedOffsets (10 * second) (5 * second))⟩
      (some (.VectorSelector "c" (5 * second)))).2.2.1 (by decide)⟩

theorem labelReplaceText_eq (expr src dst : String) :
    labelReplaceText expr src dst = callText "label_replace" (labelCopyArgs expr src dst) := by
  apply String.ext
  simp [labelReplaceText, callText, labelCopyArgs, String.intercalate, String.intercalate.go,
    String.data_append]

/-- C22: for every expression `e` and labels `src` and `dst`, the text that
`PreserveNameLabel` hands to the parser is exactly `label_replace(` followed by
the text of `e`, the backquoted `dst`, the backquoted `$1`, the backquoted
`src` and the backquoted `(.*)`, separated by commas, and `)`: the destination
label is the second argument and the source label the fourth. -/
theorem preserveNameLabel_text (lib : Promql) (e : Node) (src dst : String) :
    PreserveNameLabel lib e src dst =
      (lib.ParseExpr ("label_replace(" ++ lib.String e ++ ",`" ++ dst ++ "`,`$1`,`" ++ src ++
        "`,`(.*)`)")).1 ∧
    PreserveNameLabel lib e src dst =
      (lib.ParseExpr (callText "label_replace" (labelCopyArgs (lib.String e) src dst))).1 ∧
    (labelCopyArgs (lib.String e) src dst)[1]? = some ("`" ++ dst ++ "`") ∧
    (labelCopyArgs (lib.String e) src dst)[3]? = some ("`" ++ src ++ "`") ∧
    PreserveNameLabel echoing e "__name__" "name" =
      some (.StringLiteral "label_replace(up,`name`,`$1`,`__name__`,`(.*)`)") := by
  refine ⟨rfl, ?_, rfl, rfl, ?_⟩
  · unfold PreserveNameLabel
    rw [labelReplaceText_eq]
  · simp only [PreserveNameLabel, echoing, labelReplaceText]
    have : "label_replace(" ++ "up" ++ ",`" ++ "name" ++ "`,`$1`,`" ++ "__name__" ++ "`,`(.*)`)" =
        "label_replace(up,`name`,`$1`,`__name__`,`(.*)`)" := by decide
    rw [this]

end proxystorage

namespace logging

theorem queryEscape_append (a b : GoString) :
    QueryEscape (a ++ b) = QueryEscape a ++ QueryEscape b :=
  List.flatMap_append a b escapeByte

theorem escapeByte_length (c : Nat) : 1 ≤ (escapeByte c).length := by
  unfold escapeByte
  split_ifs <;> simp

theorem length_le_queryEscape (s : GoString) : s.length ≤ (QueryEscape s).length := by
  induction s with
  | nil => simp [QueryEscape]
  | cons c s ih =>
    have h := escapeByte_length c
    have : QueryEscape (c :: s) = escapeByte c ++ QueryEscape s := by
      simp [QueryEscape, List.flatMap_cons]
    rw [this, List.length_append, List.length_cons]
    omega

/-- The closure `appendBuf` never slices out of range when the buffer holds at
most 256 bytes, and it cuts the buffer at 256 bytes. -/
theorem appendBuf_eq (buf s : GoString) (hbuf : buf.length ≤ 256) :
    appendBuf buf s =
      if 256 ≤ buf.length + s.length then some ((buf ++ s).take 256, false)
      else some (buf ++ s, true) := by
  unfold appendBuf MaxFormPrefix
  by_cases h : 256 ≤ buf.length + s.length
  · have h1 : (buf.length : Int) + s.length ≥ 256 := by omega
    rw [if_pos h1, if_pos h]
    simp only
    by_cases hr : (256 : Int) - buf.length > 0
    · rw [if_pos hr]
      have hs : sliceTo s (256 - buf.length) = some (s.take (256 - buf.length)) := by
        unfold sliceTo
        rw [if_pos (by omega)]
        congr 2
        omega
      rw [hs]
      simp only
      rw [List.take_append_eq_append_take, List.take_of_length_le hbuf]
    · rw [if_neg hr]
      have hlen : buf.length = 256 := by omega
      rw [List.take_left' hlen]
  · have h1 : ¬ (buf.length : Int) + s.length ≥ 256 := by omega
    rw [if_neg h1, if_neg h]

theorem afterAppend_eq (buf s : GoString) (hbuf : buf.length ≤ 256) :
    afterAppend (appendBuf buf s) =
      if 256 ≤ buf.length + s.length then .done ((buf ++ s).take 256)
      else .next (buf ++ s) := by
  rw [appendBuf_eq buf s hbuf]
  split_ifs <;> rfl

theorem withSeparators_cons (p : GoString × GoString) (ps : List (GoString × GoString)) :
    withSeparators (p :: ps) = 38 :: encodePair p ++ withSeparators ps := by
  simp [withSeparators, List.flatMap_cons]

theorem written_of_ne_nil (buf : GoString) (ps : List (GoString × GoString)) (h : buf ≠ []) :
    written buf ps = buf ++ withSeparators ps := by
  unfold written
  rw [if_neg h]

theorem written_cons (buf : GoString) (p : GoString × GoString)
    (ps : List (GoString × GoString)) :
    written buf (p :: ps) =
      (if buf.length > 0 then buf ++ [38] else buf) ++ encodePair p ++ withSeparators ps := by
  unfold written
  rw [withSeparators_cons]
  by_cases h : buf = []
  · subst h
    simp
  · have hl : buf.length > 0 := List.length_pos.mpr h
    rw [if_neg h, if_pos hl]
    simp

theorem take_of_filled (a b : GoString) (h : 256 ≤ a.length) :
    (a ++ b).take 256 = a.take 256 :=
  List.take_append_of_le_length h

/-- The body of the inner loop writes its pair, up to 256 bytes. -/
theorem body_writes (k v buf : GoString) (hbuf : buf.length ≤ 256) :
    Writes buf [(k, v)] (body (QueryEscape k) buf v) := by
  unfold body MaxFormPrefix
  by_cases hfull : (buf.length : Int) ≥ 256
  · -- the buffer is full
    rw [if_pos hfull]
    intro more
    have hlen : buf.length = 256 := by omega
    have hne : buf ≠ [] := fun h => by simp [h] at hlen
    rw [written_of_ne_nil _ _ hne, List.take_left' hlen]
  · rw [if_neg hfull]
    simp only
    generalize hb1 : (if buf.length > 0 then buf ++ [38] else buf) = buf1
    have hb1len : buf1.length ≤ 256 := by
      rw [← hb1]
      split_ifs
      · rw [List.length_append, List.length_singleton]
        omega
      · omega
    have hW : ∀ more, written buf ([(k, v)] ++ more) =
        buf1 ++ QueryEscape k ++ 61 :: QueryEscape v ++ withSeparators more := by
      intro more
      rw [List.singleton_append, written_cons, hb1]
      simp [encodePair]
    rw [afterAppend_eq buf1 _ hb1len]
    by_cases hk : 256 ≤ buf1.length + (QueryEscape k).length
    · -- the key fills the buffer
      rw [if_pos hk]
      intro more
      have hWk : written buf ([(k, v)] ++ more) =
          (buf1 ++ QueryEscape k) ++ (61 :: QueryEscape v ++ withSeparators more) := by
        rw [hW]
        simp
      rw [hWk]
      exact (take_of_filled _ _ (by rw [List.length_append]; exact hk)).symm
    · rw [if_neg hk]
      simp only
      generalize hb3 : buf1 ++ QueryEscape k ++ [61] = buf3
      have hb3len : buf3.length = buf1.length + (QueryEscape k).length + 1 := by
        rw [← hb3]
        simp only [List.length_append, List.length_singleton]
      have hb3ne : buf3 ≠ [] := fun h => by
        rw [h] at hb3len
        simp at hb3len
      have hW3 : ∀ more, written buf ([(k, v)] ++ more) =
          buf3 ++ QueryEscape v ++ withSeparators more := by
        intro more
        rw [hW, ← hb3]
        simp
      by_cases hv : (buf3.length : Int) + v.length ≥ 256
      · rw [if_pos hv]
        by_cases hr : (256 : Int) - buf3.length > 0
        · -- the raw value is cut, escaped and appended
          rw [if_pos hr]
          have hs : sliceTo v (256 - buf3.length) = some (v.take (256 - buf3.length)) := by
            unfold sliceTo
            rw [if_pos (by omega)]
            congr 2
            omega
          rw [hs]
          simp only
          have hcut := length_le_queryEscape (v.take (256 - buf3.length))
          rw [List.length_take] at hcut
          have hmin : min (256 - buf3.length) v.length = 256 - buf3.length := by omega
          rw [hmin] at hcut
          rw [afterAppend_eq buf3 _ (by omega), if_pos (by omega)]
          intro more
          have hsplit : QueryEscape v = QueryEscape (v.take (256 - buf3.length)) ++
              QueryEscape (v.drop (256 - buf3.length)) := by
            rw [← queryEscape_append, List.take_append_drop]
          have hWv : written buf ([(k, v)] ++ more) =
              (buf3 ++ QueryEscape (v.take (256 - buf3.length))) ++
                (QueryEscape (v.drop (256 - buf3.length)) ++ withSeparators more) := by
            rw [hW3, hsplit]
            simp
          rw [hWv]
          exact (take_of_filled _ _ (by rw [List.length_append]; omega)).symm
        · -- the buffer is full after the equals sign
          rw [if_neg hr]
          have hlen : buf3.length = 256 := by omega
          refine ⟨by omega, fun more => ?_⟩
          rw [written_of_ne_nil _ _ hb3ne, hW3, List.append_assoc, List.take_left' hlen,
            List.take_left' hlen]
      · rw [if_neg hv]
        rw [afterAppend_eq buf3 _ (by omega)]
        by_cases hv' : 256 ≤ buf3.length + (QueryEscape v).length
        · rw [if_pos hv']
          intro more
          rw [hW3]
          exact (take_of_filled _ _ (by rw [List.length_append]; exact hv')).symm
        · rw [if_neg hv']
          refine ⟨by rw [List.length_append]; omega, fun more => ?_⟩
          have hne : buf3 ++ QueryEscape v ≠ [] := by
            intro h
            exact hb3ne (List.append_eq_nil.mp h).1
          rw [written_of_ne_nil _ _ hne, hW3]

theorem writes_next_nil (buf : GoString) (hbuf : buf.length ≤ 256) :
    Writes buf [] (.next buf) :=
  ⟨hbuf, fun _ => rfl⟩

/-- Two parts of the loops, one after the other. -/
theorem writes_compose (buf b : GoString) (ps₁ ps₂ : List (GoString × GoString)) (o : Outcome)
    (h₁ : Writes buf ps₁ (.next b)) (h₂ : Writes b ps₂ o) : Writes buf (ps₁ ++ ps₂) o := by
  obtain ⟨-, h₁⟩ := h₁
  cases o with
  | panic => exact h₂
  | done b' =>
    intro more
    rw [h₂ more, h₁, List.append_assoc]
  | next b' =>
    obtain ⟨hlen, h₂⟩ := h₂
    refine ⟨hlen, fun more => ?_⟩
    rw [h₂ more, h₁, List.append_assoc]

theorem valuesLoop_writes (k : GoString) (values : List GoString) (buf : GoString)
    (hbuf : buf.length ≤ 256) :
    Writes buf (values.map (fun v => (k, v))) (valuesLoop (QueryEscape k) buf values) := by
  induction values generalizing buf with
  | nil => exact writes_next_nil buf hbuf
  | cons v values ih =>
    have hb := body_writes k v buf hbuf
    unfold valuesLoop
    rw [List.map_cons]
    cases hbody : body (QueryEscape k) buf v with
    | panic =>
      rw [hbody] at hb
      exact hb.elim
    | done b =>
      rw [hbody] at hb
      intro more
      have := hb (values.map (fun v => (k, v)) ++ more)
      simpa using this
    | next b =>
      rw [hbody] at hb
      simp only
      have := writes_compose buf b [(k, v)] _ _ hb (ih b hb.1)
      simpa using this

theorem pairs_cons (k : GoString) (values : List GoString)
    (form : List (GoString × List GoString)) :
    pairs ((k, values) :: form) = values.map (fun v => (k, v)) ++ pairs form := by
  simp [pairs, List.flatMap_cons]

theorem formLoop_writes (form : List (GoString × List GoString)) (buf : GoString)
    (hbuf : buf.length ≤ 256) : Writes buf (pairs form) (formLoop buf form) := by
  induction form generalizing buf with
  | nil => exact writes_next_nil buf hbuf
  | cons kv form ih =>
    obtain ⟨k, values⟩ := kv
    have hv := valuesLoop_writes k values buf hbuf
    unfold formLoop
    rw [pairs_cons]
    cases hloop : valuesLoop (QueryEscape k) buf values with
    | panic =>
      rw [hloop] at hv
      exact hv.elim
    | done b =>
      rw [hloop] at hv
      intro more
      have := hv (pairs form ++ more)
      rw [← List.append_assoc] at this
      exact this
    | next b =>
      rw [hloop] at hv
      simp only
      exact writes_compose buf b _ _ _ hv (ih b hv.1)

theorem intercalate_eq (ps : List (GoString × GoString)) :
    List.intercalate [38] (ps.map encodePair) = (withSeparators ps).drop 1 := by
  induction ps with
  | nil => rfl
  | cons p ps ih =>
    cases ps with
    | nil => simp [List.intercalate, withSeparators]
    | cons q qs =>
      rw [withSeparators_cons, withSeparators_cons] at *
      simp only [List.map_cons, List.intercalate, List.intersperse_cons_cons,
        List.flatten_cons, List.drop_succ_cons, List.drop_zero] at ih ⊢
      rw [ih]
      simp

theorem fullEncoding_eq (form : List (GoString × List GoString)) :
    fullEncoding form = written [] (pairs form) := by
  unfold fullEncoding written
  rw [if_pos rfl, intercalate_eq]

/-- C23: for every form given by its (key, values) pairs in iteration order,
`FormPrefix` never slices out of range and returns exactly the first
`min(256, L)` bytes of the full encoding, where `L` is its length: the result
is never longer than 256 bytes and is the full encoding when `L < 256`. -/
theorem formPrefix_eq (form : List (GoString × List GoString)) :
    FormPrefix form = some ((fullEncoding form).take 256) ∧
    (∀ r, FormPrefix form = some r → r.length = min 256 (fullEncoding form).length) ∧
    (∀ r, FormPrefix form = some r → r.length ≤ 256) ∧
    ((fullEncoding form).length < 256 → FormPrefix form = some (fullEncoding form)) := by
  have hmain : FormPrefix form = some ((fullEncoding form).take 256) := by
    have h := formLoop_writes form [] (by simp)
    unfold FormPrefix
    rw [fullEncoding_eq]
    cases hloop : formLoop [] form with
    | panic =>
      rw [hloop] at h
      exact h.elim
    | done b =>
      rw [hloop] at h
      have := h []
      rw [List.append_nil] at this
      rw [this]
    | next b =>
      rw [hloop] at h
      obtain ⟨hlen, h⟩ := h
      have := h []
      rw [List.append_nil] at this
      rw [← this]
      simp only
      congr 1
      unfold written
      split_ifs with hb
      · simp [hb, withSeparators]
      · simp [withSeparators, List.take_of_length_le hlen]
  refine ⟨hmain, ?_, ?_, ?_⟩
  · intro r hr
    rw [hmain] at hr
    rw [← Option.some.inj hr, List.length_take]
  · intro r hr
    rw [hmain] at hr
    rw [← Option.some.inj hr, List.length_take]
    omega
  · intro hL
    rw [hmain, List.take_of_length_le hL.le]

/-- Witness of `formPrefix_eq`: a form whose full encoding is shorter than 256
bytes is returned whole. -/
theorem formPrefix_eq_witness :
    FormPrefix [(bytes "query", [bytes "up\x7ba=\"b\"\x7d", bytes "x y"]), (bytes "t", [])] =
      some (fullEncoding [(bytes "query", [bytes "up\x7ba=\"b\"\x7d", bytes "x y"]),
        (bytes "t", [])]) :=
  (formPrefix_eq [(bytes "query", [bytes "up\x7ba=\"b\"\x7d", bytes "x y"]),
    (bytes "t", [])]).2.2.2 (by decide)

end logging

end Promulgator
